import Mathlib

/-!
Verification of `mathics/algorithm/clusters.py`.

This file gives a shallow embedding of the clustering module and proves
properties of it.  Conventions used throughout:

* Real-valued distances are modelled by an arbitrary linear ordered field `K`
  (the code only assumes a "non-negative real" distance; no floating point
  behaviour is relied upon by the properties proved here, and exact field
  arithmetic stands in for `mpmath.fsum`-style exact summation).
* Python exceptions are modelled by `Option`/`Except`: a crashed computation
  returns `none` (no output).
* The process-wide random stream of the `random` module is modelled by an
  abstract generator state type `R` together with the primitive operations the
  module uses (`randint`, `sample`, `seed`); stateful code is explicit state
  passing over `R` (and over the distance-provider state).
* Randomized, distance-consuming code (the CLARANS half of the module) is
  written against a small effect signature `Prog` (distance query, `randint`,
  `sample`, raise); `run` is the explicit state-passing interpreter.  This is
  what lets the save/restore discipline of the module be proved once and for
  all by induction over programs.
-/

set_option autoImplicit false

namespace MathicsClusters

/-! ### Triangular pair indexing: `_index` (clusters.py lines 40-46) -/

/-- Python: `def _index(i, j): return j + ((i - 1) * i) // 2` (callers ensure
`i > j`). -/
def _index (i j : ℕ) : ℕ := j + ((i - 1) * i) / 2

/-! ### `_robust_min` (lines 49-54): minimum of a possibly empty iterable. -/

/-- Python `_robust_min`: fold that keeps the smallest element seen, `None`
for an empty iterable. -/
def _robust_min {α : Type} [LinearOrder α] (l : List α) : Option α :=
  l.foldl (fun m i => match m with
    | none => some i
    | some m => if i < m then some i else some m) none

/-! ### `_components` (lines 57-63). -/

/-- Python `_components`: builds `[0] * n`, then for cluster number `i`
(0-based) writes `i + 1` at every member position.  (All member indices are
`< n` at every call site, so `List.set`'s silent behaviour out of range is
never exercised; Python would raise there.) -/
def _components (clusters : List (List ℕ)) (n : ℕ) : List ℕ :=
  (clusters.enum.foldl
    (fun components ic => ic.2.foldl (fun components j => components.set j (ic.1 + 1)) components)
    (List.replicate n 0))

/-! ### `_ratio_bigger_than` (lines 66-70). -/

/-- Python `_ratio_bigger_than((a1, a2), (b1, b2)) = a1 * b2 > b1 * a2`,
used to decide `a1/a2 > b1/b2` without division. -/
def _ratio_bigger_than {K : Type} [LinearOrderedField K] (a b : K × K) : Bool :=
  decide (b.1 * a.2 < a.1 * b.2)

/-! ### `_silhouette` (lines 73-90).

`InfiniteSilhouette` ("thrown when two clusters have distance 0") is the
`Except.error` outcome.  The code computes `s = (b - a) / max(a, b)` and then
checks `s == nan`, which (per the code's own comment) detects `max(a, b) == 0`;
with exact arithmetic we test the denominator directly. -/

/-- Python `_silhouette(a, b)`: `a = None` (singleton cluster) contributes `0.`;
`max(a, b) == 0` raises `InfiniteSilhouette`; otherwise the standard silhouette
ratio `(b - a) / max(a, b)`. -/
def _silhouette {K : Type} [LinearOrderedField K] (a : Option K) (b : K) : Except Unit K :=
  match a with
  | none => .ok 0
  | some a => if max a b = 0 then .error () else .ok ((b - a) / max a b)

/-! ### Distance providers (lines 93-128). -/

/-- Python `PrecomputedDistances`: wraps the full lower-triangular distance
list. -/
structure PrecomputedDistances (K : Type) where
  _distances : List K

/-- `PrecomputedDistances.distance(i, j) = self._distances[_index(max(i, j), min(i, j))]`
(`none` models the `IndexError` on an out-of-range read). -/
def PrecomputedDistances.distance {K : Type} (p : PrecomputedDistances K) (i j : ℕ) :
    Option K :=
  p._distances[_index (max i j) (min i j)]?

/-- `PrecomputedDistances.matrix()` returns the stored triangular list. -/
def PrecomputedDistances.matrix {K : Type} (p : PrecomputedDistances K) :
    Except String (List K) :=
  .ok p._distances

/-- Python `LazyDistances`: a cache (`_computed`, keyed by `_index`) plus the
abstract `_compute_distance` of a subclass, which may consume the global
random stream `R`. -/
structure LazyDistances (K R : Type) where
  _computed : ℕ → Option K
  _compute_distance : ℕ → ℕ → R → Option K × R

/-- Python `LazyDistances.distance`: on a cache miss it snapshots the global
random state, runs `_compute_distance`, restores the state (`finally`), and
caches the result.  Returns (result, updated provider, random state). -/
def LazyDistances.distance {K R : Type} (L : LazyDistances K R) (i j : ℕ) (r : R) :
    Option K × LazyDistances K R × R :=
  let index := _index (max i j) (min i j)
  match L._computed index with
  | some d => (some d, L, r)
  | none =>
    -- random_state = random.getstate(); try: compute; finally: setstate
    match L._compute_distance i j r with
    | (some d, _) =>
      (some d, { L with _computed := Function.update L._computed index (some d) }, r)
    | (none, _) => (none, L, r)

/-- Python `LazyDistances.matrix()` unconditionally raises
`ValueError('LazyDistances does not support matrix()')`. -/
def LazyDistances.matrix {K R : Type} (_L : LazyDistances K R) : Except String (List K) :=
  .error "LazyDistances does not support matrix()"

/-! ### Effect signature and interpreter for the randomized (CLARANS) half.

A `Prog K α` is a program that may query the distance provider, draw from the
global random stream (`random.randint`, `random.sample`), raise an exception
(`fail`), or return.  `run` interprets it by explicit state passing over the
provider state and the random-stream state. -/

inductive Prog (K : Type) : Type → Type 1 where
  | pure {α : Type} (a : α) : Prog K α
  | fail {α : Type} : Prog K α
  | dist {α : Type} (i j : ℕ) (k : K → Prog K α) : Prog K α
  | randint {α : Type} (a b : ℤ) (k : ℤ → Prog K α) : Prog K α
  | sample {α : Type} (pop : List ℕ) (m : ℤ) (k : List ℕ → Prog K α) : Prog K α

def Prog.bind {K : Type} {α β : Type} : Prog K α → (α → Prog K β) → Prog K β
  | .pure a, f => f a
  | .fail, _ => .fail
  | .dist i j k, f => .dist i j (fun v => (k v).bind f)
  | .randint a b k, f => .randint a b (fun v => (k v).bind f)
  | .sample p m k, f => .sample p m (fun v => (k v).bind f)

instance {K : Type} : Monad (Prog K) where
  pure := Prog.pure
  bind := Prog.bind

/-- Query `distance(i, j)` of the ambient distance provider. -/
def pDist {K : Type} (i j : ℕ) : Prog K K := .dist i j .pure

/-- Draw `random.randint(a, b)` (both bounds inclusive) from the global
random stream. -/
def pRandint {K : Type} (a b : ℤ) : Prog K ℤ := .randint a b .pure

/-- Draw `random.sample(pop, m)` from the global random stream. -/
def pSample {K : Type} (pop : List ℕ) (m : ℤ) : Prog K (List ℕ) := .sample pop m .pure

/-- The operations of Python's global `random` module used by this file, over
an abstract stream-state type `R`.  `sample` returns `none` when `m` is
negative or exceeds the population size (Python raises `ValueError`). -/
structure RGen (R : Type) where
  randint : ℤ → ℤ → R → ℤ × R
  sample : List ℕ → ℤ → R → Option (List ℕ) × R
  seed : ℤ → R

/-- A distance provider as the algorithms see it: a state type and a
`distance(i, j)` that may update the provider state and the random-stream
state (`none` models an exception inside the distance computation). -/
structure DistanceProvider (K R : Type) where
  σ : Type
  dist : ℕ → ℕ → σ → R → Option K × σ × R

variable {K R : Type} (gen : RGen R) (P : DistanceProvider K R)

/-- Interpreter: explicit state passing of the provider state and the random
stream through a program.  An exception (`none`) aborts the rest of the
program, keeping the states at the point of the raise. -/
def run {α : Type} : Prog K α → P.σ → R → Option α × P.σ × R
  | .pure a, s, r => (some a, s, r)
  | .fail, s, r => (none, s, r)
  | .dist i j k, s, r =>
    match P.dist i j s r with
    | (some v, s', r') => run (k v) s' r'
    | (none, s', r') => (none, s', r')
  | .randint a b k, s, r =>
    match gen.randint a b r with
    | (v, r') => run (k v) s r'
  | .sample pop m k, s, r =>
    match gen.sample pop m r with
    | (some l, r') => run (k l) s r'
    | (none, r') => (none, s, r')

theorem run_bind (gen : RGen R) (P : DistanceProvider K R) {α β : Type}
    (t : Prog K α) (f : α → Prog K β) (s : P.σ) (r : R) :
    run gen P (t.bind f) s r =
      match run gen P t s r with
      | (some a, s', r') => run gen P (f a) s' r'
      | (none, s', r') => (none, s', r') := by
  induction t generalizing s r with
  | pure a => simp [Prog.bind, run]
  | fail => simp [Prog.bind, run]
  | dist i j k ih =>
    simp only [Prog.bind, run]
    rcases P.dist i j s r with ⟨v, s', r'⟩
    cases v with
    | some v => simpa using ih v s' r'
    | none => simp
  | randint a b k ih =>
    simp only [Prog.bind, run]
    exact ih _ s _
  | sample pop m k ih =>
    simp only [Prog.bind, run]
    rcases gen.sample pop m r with ⟨l, r'⟩
    cases l with
    | some l => simpa using ih l s r'
    | none => simp

theorem run_monadBind (gen : RGen R) (P : DistanceProvider K R) {α β : Type}
    (t : Prog K α) (f : α → Prog K β) (s : P.σ) (r : R) :
    run gen P (t >>= f) s r =
      match run gen P t s r with
      | (some a, s', r') => run gen P (f a) s' r'
      | (none, s', r') => (none, s', r') :=
  run_bind gen P t f s r

end MathicsClusters

namespace MathicsClusters

/-! ## Theorems for claims C7 and C8 -/

/-- C7: `matrix()` on the precomputed distance provider returns the full
lower-triangular array in which the distance of a pair `(i, j)` with `i > j`
is stored at index `j + i*(i-1)/2` — exactly the index `distance(i, j)`
reads — while `matrix()` on the lazy (cache-only) provider always raises,
whatever the provider state. -/
theorem C7_matrix_layout {K R : Type} (p : PrecomputedDistances K) (i j : ℕ) (hij : j < i) :
    p.matrix = .ok p._distances ∧
    _index i j = j + i * (i - 1) / 2 ∧
    p.distance i j = p._distances[j + i * (i - 1) / 2]? ∧
    ∀ L : LazyDistances K R, ∃ msg, L.matrix = .error msg := by
  have hmax : max i j = i := max_eq_left hij.le
  have hmin : min i j = j := min_eq_right hij.le
  have hidx : _index i j = j + i * (i - 1) / 2 := by
    simp [_index, Nat.mul_comm]
  refine ⟨rfl, hidx, ?_, fun L => ⟨_, rfl⟩⟩
  simp [PrecomputedDistances.distance, hmax, hmin, hidx]

/-- Closed witness for `C7_matrix_layout` at a concrete provider and pair. -/
theorem C7_matrix_layout_witness :
    (1 : ℕ) < 2 ∧
    (PrecomputedDistances.mk ([5, 7, 9] : List ℚ)).matrix = .ok [5, 7, 9] ∧
    _index 2 1 = 1 + 2 * (2 - 1) / 2 ∧
    (PrecomputedDistances.mk ([5, 7, 9] : List ℚ)).distance 2 1 =
      ([5, 7, 9] : List ℚ)[1 + 2 * (2 - 1) / 2]? ∧
    ∀ L : LazyDistances ℚ Unit, ∃ msg, L.matrix = .error msg :=
  ⟨by decide, C7_matrix_layout (PrecomputedDistances.mk ([5, 7, 9] : List ℚ)) 2 1 (by decide)⟩

/-- C8: the Dunn criterion's ratio comparison decides `a1/a2 > b1/b2` by
evaluating `a1*b2 > b1*a2`, without a division: for every pair of fractions
with positive denominators (the only shape the call sites produce, since
`_best_dunn` is recorded only while `_max_diameter > 0` and `_max_diameter`
is non-decreasing), `_ratio_bigger_than((a1, a2), (b1, b2)) = true` exactly
when `a1/a2 > b1/b2`. -/
theorem C8_ratio_comparison {K : Type} [LinearOrderedField K]
    (a1 a2 b1 b2 : K) (ha : 0 < a2) (hb : 0 < b2) :
    _ratio_bigger_than (a1, a2) (b1, b2) = true ↔ b1 / b2 < a1 / a2 := by
  rw [div_lt_div_iff₀ hb ha]
  simp [_ratio_bigger_than]

/-- Closed witness for `C8_ratio_comparison` on concrete rationals. -/
theorem C8_ratio_comparison_witness :
    (0 : ℚ) < 1 ∧ (0 : ℚ) < 1 ∧
    (_ratio_bigger_than ((1 : ℚ), 1) ((0 : ℚ), 1) = true ↔ (0 : ℚ) / 1 < 1 / 1) :=
  ⟨zero_lt_one, zero_lt_one, C8_ratio_comparison 1 1 0 1 zero_lt_one zero_lt_one⟩

/-! ### `_Cluster` (lines 302-319) and the approximate silhouette split
criterion (lines 226-299). -/

/-- Python `_Cluster`: a medoid index plus the ordered member list.  The
medoid is `Option`-valued because the root call of `without_k` builds the
`merged` cluster with `medoid0 = None`.  (The `_within` cache field is
omitted: the cluster is immutable after construction, so caching is
observationally transparent and `within` recomputes.) -/
structure _Cluster where
  medoid : Option ℕ
  members : List ℕ
  deriving DecidableEq

variable {K R : Type}

/-- Python `_Cluster.translate(i_to_i0)`: re-index medoid and members
through `i_to_i0` (out-of-range / `None` indexing is a crash). -/
def _Cluster.translate (c : _Cluster) (i_to_i0 : List ℕ) : Option _Cluster := do
  match c.medoid with
  | none => none
  | some m => do
    let m0 ← i_to_i0[m]?
    let mem0 ← c.members.mapM (fun i => i_to_i0[i]?)
    some ⟨some m0, mem0⟩

/-- Sum of `distance(i, m)` over a list of member indices `i` (the `fsum` in
`_Cluster.within`, exact here). -/
def pSumDists [LinearOrderedField K] (m : ℕ) : List ℕ → K → Prog K K
  | [], acc => pure acc
  | i :: rest, acc => do
    let d ← pDist i m
    pSumDists m rest (acc + d)

/-- Python `_Cluster.within(distance)`: the pair `(s_w, n_w)` of the sum of
member-to-medoid distances (members equal to the medoid skipped) and the
member count. -/
def _Cluster.within [LinearOrderedField K] (c : _Cluster) : Prog K (K × ℕ) :=
  match c.medoid with
  | none => .fail
  | some m => do
    let s ← pSumDists m (c.members.filter (fun i => i ≠ m)) 0
    pure (s, c.members.length)

/-- Python `ApproximateSilhouetteSplitCriterion._approximate_within_distances`:
per cluster, `None` for a singleton (`n == 1`), else `s / (n - 1)`. -/
def approxWithinDistances [LinearOrderedField K] : List _Cluster → Prog K (List (Option K))
  | [] => pure []
  | c :: rest => do
    let sn ← c.within
    let v : Option K := if sn.2 = 1 then none else some (sn.1 / ((sn.2 : K) - 1))
    let vs ← approxWithinDistances rest
    pure (v :: vs)

/-- Distances from a medoid `m` to the medoids of the given clusters
(`other_medoids` of the source, queried in order). -/
def pDistsToOthers [LinearOrderedField K] (m : ℕ) : List _Cluster → Prog K (List K)
  | [] => pure []
  | c :: rest =>
    match c.medoid with
    | none => .fail
    | some mb => do
      let d ← pDist m mb
      let ds ← pDistsToOthers m rest
      pure (d :: ds)

/-- Worker for `_approximate_mins_of_betweens_distances`: for the cluster at
position `i`, the `_robust_min` of the distances from its medoid to all other
clusters' medoids. -/
def goMinsOfBetweens [LinearOrderedField K] (full : List _Cluster) :
    List _Cluster → ℕ → Prog K (List (Option K))
  | [], _ => pure []
  | a :: rest, i =>
    match a.medoid with
    | none => .fail
    | some m => do
      let ds ← pDistsToOthers m (full.take i ++ full.drop (i + 1))
      let vs ← goMinsOfBetweens full rest (i + 1)
      pure (_robust_min ds :: vs)

/-- Python `_approximate_mins_of_betweens_distances` (with `other =
other_medoids`, the fast version the source selects). -/
def approxMinsOfBetweens [LinearOrderedField K] (cs : List _Cluster) :
    Prog K (List (Option K)) :=
  goMinsOfBetweens cs cs 0

/-- The `(_silhouette(a, b) for a, b in zip(d_in, d_out))` generator as
consumed by `fsum`: the first `InfiniteSilhouette` stops the generator with
that error; `none` is a crash (`b` is `None` while `a` is defined, which
Python would fault on in `b - a`). -/
def collectWidths [LinearOrderedField K] :
    List (Option K × Option K) → Option (Except Unit (List K))
  | [] => some (.ok [])
  | (a, bo) :: rest =>
    if a.isSome ∧ bo = none then none
    else
      match _silhouette a (bo.getD 0) with
      | .error e => some (.error e)
      | .ok v =>
        match collectWidths rest with
        | none => none
        | some (.error e) => some (.error e)
        | some (.ok vs) => some (.ok (v :: vs))

/-- Python `_approximate_global_silhouette_index`: `-1.` for at most one
cluster, otherwise the mean of the approximate silhouette widths; an
`InfiniteSilhouette` raised while summing is returned as `.error`. -/
def globalSilhouetteIndex [LinearOrderedField K] (cs : List _Cluster) :
    Prog K (Except Unit K) :=
  if cs.length ≤ 1 then pure (.ok (-1))
  else do
    let dIn ← approxWithinDistances cs
    let dOut ← approxMinsOfBetweens cs
    match collectWidths (dIn.zip dOut) with
    | none => .fail
    | some (.error e) => pure (.error e)
    | some (.ok vs) => pure (.ok ((vs.foldl (· + ·) 0) / (cs.length : K)))

/-- Python `ApproximateSilhouetteSplitCriterion.should_split`: evaluates the
approximate global silhouette index of `siblings + unmerged`; an
`InfiniteSilhouette` (zero distance between two clusters) rejects the split
outright; otherwise the split is accepted iff the index strictly improves on
`_last_criterion`.  Returns `(accept, new criterion state)`. -/
def shouldSplit [LinearOrderedField K] (lastCriterion : Option K)
    (siblings : List _Cluster) (_merged : _Cluster) (unmerged : List _Cluster) :
    Prog K (Bool × Option K) := do
  let idx ← globalSilhouetteIndex (siblings ++ unmerged)
  match idx with
  | .error _ => pure (false, none)
  | .ok criterion =>
    match lastCriterion with
    | none => pure (true, some criterion)
    | some last => if last < criterion then pure (true, some criterion) else pure (false, none)

/-- C6: in the approximate silhouette split criterion, a singleton cluster
(undefined within-cluster mean `a`) contributes silhouette value `0`; and
whenever the silhouette computation hits `max(a, b) == 0` (two clusters at
zero distance, the `InfiniteSilhouette` outcome), `should_split` does not
propagate the error to its caller but returns a rejection `(False, None)`,
for every configuration of sibling and child clusters, every last-criterion
state, and every distance provider and random stream. -/
theorem C6_silhouette_degenerate {K R : Type} [LinearOrderedField K]
    (gen : RGen R) (P : DistanceProvider K R) (lastCriterion : Option K)
    (siblings : List _Cluster) (merged : _Cluster) (unmerged : List _Cluster)
    (s : P.σ) (r : R) (s' : P.σ) (r' : R)
    (hdeg : run gen P (globalSilhouetteIndex (siblings ++ unmerged)) s r =
      (some (.error ()), s', r')) :
    (∀ b : K, _silhouette none b = .ok 0) ∧
    run gen P (shouldSplit lastCriterion siblings merged unmerged) s r =
      (some (false, none), s', r') := by
  refine ⟨fun b => rfl, ?_⟩
  show run gen P ((globalSilhouetteIndex (siblings ++ unmerged)).bind _) s r = _
  rw [run_bind, hdeg]
  rfl

/-! ### Concrete generator and provider instances used by witnesses. -/

/-- A trivial deterministic instance of the `random`-module interface:
`randint a b` returns `a`, `sample pop m` returns the first `m` elements
(failing exactly when Python's `random.sample` would raise `ValueError`). -/
def constGen : RGen Unit where
  randint := fun a _ _ => (a, ())
  sample := fun pop m _ =>
    (if 0 ≤ m ∧ m.toNat ≤ pop.length then some (pop.take m.toNat) else none, ())
  seed := fun _ => ()

/-- A stateless provider whose every distance is `0`. -/
def zeroProvider : DistanceProvider ℚ Unit where
  σ := Unit
  dist := fun _ _ s r => (some 0, s, r)

/-- Evaluation of the silhouette pipeline on two two-point clusters at
distance zero: the within mean `a` is `0`, the nearest-other-medoid distance
`b` is `0`, so the computation ends in `InfiniteSilhouette`. -/
theorem c6ExampleEval :
    run constGen zeroProvider
      (globalSilhouetteIndex ([⟨some 0, [0, 1]⟩] ++ [⟨some 2, [2, 3]⟩]))
      () () = (some (.error ()), (), ()) := by
  simp only [globalSilhouetteIndex, approxWithinDistances, approxMinsOfBetweens,
    goMinsOfBetweens, pDistsToOthers, pSumDists, _Cluster.within, pDist,
    _silhouette, _robust_min, collectWidths, zeroProvider, constGen,
    List.cons_append, List.nil_append]
  norm_num [run, Prog.bind, Bind.bind, Pure.pure, _silhouette, collectWidths]

/-- Closed witness for `C6_silhouette_degenerate`: the degenerate
configuration above makes `should_split` return `(False, None)` rather than
an error. -/
theorem C6_silhouette_degenerate_witness :
    run constGen zeroProvider
      (globalSilhouetteIndex ([⟨some 0, [0, 1]⟩] ++ [⟨some 2, [2, 3]⟩]))
      () () = (some (.error ()), (), ()) ∧
    (∀ b : ℚ, _silhouette none b = .ok 0) ∧
    run constGen zeroProvider
      (shouldSplit none [⟨some 0, [0, 1]⟩] ⟨none, []⟩ [⟨some 2, [2, 3]⟩])
      () () = (some (false, none), (), ()) :=
  ⟨c6ExampleEval,
    C6_silhouette_degenerate constGen zeroProvider none
      [⟨some 0, [0, 1]⟩] ⟨none, []⟩ [⟨some 2, [2, 3]⟩] () () () () c6ExampleEval⟩

/-! ### `_shuffled_range` (lines 131-154).

The Python generator is embedded as a step function `srNext` on an explicit
generator state: `n`, the count `c` of values yielded so far, and the sparse
override dictionary `a` (`srNth a k = a.get(k, k)`).  Indices are `ℤ`, as in
Python — for `n = 0` the final `yield nth(n - 1)` reads key `-1`. -/

structure SRState where
  n : ℕ
  c : ℕ
  a : ℤ → Option ℤ

/-- Python `nth(k) = a.get(k, k)`. -/
def srNth (a : ℤ → Option ℤ) (k : ℤ) : ℤ := (a k).getD k

/-- One step of the `_shuffled_range(n)` generator: body of the
`for i in range(n - 1)` loop while `c < n - 1`, the trailing
`yield nth(n - 1)` when `c = n - 1` (or immediately for `n = 0`), and
exhaustion (`StopIteration`) afterwards. -/
def srNext {K : Type} (st : SRState) : Prog K (Option (ℤ × SRState)) :=
  if st.c + 1 < st.n then do
    let ai := srNth st.a st.c
    let j ← pRandint (st.c : ℤ) ((st.n : ℤ) - 1)
    let aj := srNth st.a j
    pure (some (aj, ⟨st.n, st.c + 1, Function.update st.a j (some ai)⟩))
  else if st.c + 1 = st.n ∨ (st.n = 0 ∧ st.c = 0) then
    pure (some (srNth st.a ((st.n : ℤ) - 1), ⟨st.n, st.c + 1, st.a⟩))
  else
    pure none

/-- Drain the generator into a list (enough fuel makes this the whole
sequence the generator produces). -/
def srCollect {K : Type} : ℕ → SRState → Prog K (List ℤ)
  | 0, _ => .fail
  | fuel + 1, st => do
    match ← srNext st with
    | none => pure []
    | some vst => do
      let rest ← srCollect fuel vst.2
      pure (vst.1 :: rest)

/-- Python `_shuffled_range(n)`, materialized: every value the generator
yields, in order.  (`n + 2` exceeds the number of `next` calls that can
succeed, so the fuel is never exhausted.) -/
def _shuffled_range {K : Type} (n : ℕ) : Prog K (List ℤ) :=
  srCollect (n + 2) ⟨n, 0, fun _ => none⟩

end MathicsClusters

namespace MathicsClusters

/-- The "still pending" values of a generator state: positions
`c, ..., n-1` read through the override map. -/
def srWindow (st : SRState) : List ℤ :=
  (List.range' st.c (st.n - st.c)).map (fun t : ℕ => srNth st.a ((t : ℤ)))

theorem srStep_perm (a : ℤ → Option ℤ) (c nn : ℕ) (j : ℤ)
    (hc : c + 1 < nn) (hj1 : (c : ℤ) ≤ j) (hj2 : j ≤ (nn : ℤ) - 1) :
    (srNth a j ::
      ((List.range' (c + 1) (nn - (c + 1))).map
        (fun t : ℕ => srNth (Function.update a j (some (srNth a ((c : ℤ))))) ((t : ℤ))))).Perm
      ((List.range' c (nn - c)).map (fun t : ℕ => srNth a ((t : ℤ)))) := by
  obtain ⟨jn, rfl⟩ : ∃ jn : ℕ, j = (jn : ℤ) :=
    ⟨j.toNat, (Int.toNat_of_nonneg (le_trans (Int.ofNat_nonneg c) hj1)).symm⟩
  have hjc : c ≤ jn := by exact_mod_cast hj1
  have hjn : jn < nn := by
    have h : (jn : ℤ) < (nn : ℤ) := by omega
    exact_mod_cast h
  have hsplit : List.range' c (nn - c) = c :: List.range' (c + 1) (nn - (c + 1)) := by
    have h : nn - c = (nn - (c + 1)) + 1 := by omega
    rw [h, List.range'_succ]
  rcases Nat.eq_or_lt_of_le hjc with hEq | hLt
  · -- j = c : the override does not change positions ≥ c + 1
    have hmap : (List.range' (c + 1) (nn - (c + 1))).map
        (fun t : ℕ => srNth (Function.update a (jn : ℤ) (some (srNth a ((c : ℤ))))) ((t : ℤ))) =
        (List.range' (c + 1) (nn - (c + 1))).map (fun t : ℕ => srNth a ((t : ℤ))) := by
      apply List.map_congr_left
      intro t ht
      have h1 : c + 1 ≤ t := (List.mem_range'_1.mp ht).1
      have hne : ((t : ℤ)) ≠ (jn : ℤ) := by
        have h2 : t ≠ jn := by omega
        exact_mod_cast h2
      simp [srNth, Function.update_noteq hne]
    rw [hmap, hsplit]
    rw [List.map_cons, ← hEq]
  · -- c < jn : split the tail window at position jn
    have h2 : List.range' (c + 1) (nn - (c + 1)) =
        List.range' (c + 1) (jn - (c + 1)) ++ List.range' jn (nn - jn) := by
      have h := List.range'_append (c + 1) (jn - (c + 1)) (nn - jn) 1
      rw [one_mul] at h
      have he : c + 1 + (jn - (c + 1)) = jn := by omega
      rw [he] at h
      rw [h]
      congr 1
      omega
    have h3 : List.range' jn (nn - jn) = jn :: List.range' (jn + 1) (nn - (jn + 1)) := by
      have h : nn - jn = (nn - (jn + 1)) + 1 := by omega
      rw [h, List.range'_succ]
    have hupd_lo : ∀ t ∈ List.range' (c + 1) (jn - (c + 1)),
        srNth (Function.update a (jn : ℤ) (some (srNth a ((c : ℤ))))) ((t : ℤ)) =
          srNth a ((t : ℤ)) := by
      intro t ht
      obtain ⟨ha1, ha2⟩ := List.mem_range'_1.mp ht
      have hne : ((t : ℤ)) ≠ (jn : ℤ) := by
        have hx : t ≠ jn := by omega
        exact_mod_cast hx
      simp [srNth, Function.update_noteq hne]
    have hupd_hi : ∀ t ∈ List.range' (jn + 1) (nn - (jn + 1)),
        srNth (Function.update a (jn : ℤ) (some (srNth a ((c : ℤ))))) ((t : ℤ)) =
          srNth a ((t : ℤ)) := by
      intro t ht
      obtain ⟨ha1, ha2⟩ := List.mem_range'_1.mp ht
      have hne : ((t : ℤ)) ≠ (jn : ℤ) := by
        have hx : t ≠ jn := by omega
        exact_mod_cast hx
      simp [srNth, Function.update_noteq hne]
    have hupd_at : srNth (Function.update a (jn : ℤ) (some (srNth a ((c : ℤ))))) ((jn : ℤ)) =
        srNth a ((c : ℤ)) := by
      simp [srNth]
    rw [hsplit, h2, h3]
    simp only [List.map_append, List.map_cons]
    rw [List.map_congr_left hupd_lo, List.map_congr_left hupd_hi, hupd_at]
    refine List.Perm.trans (List.Perm.cons _ List.perm_middle) ?_
    refine List.Perm.trans (List.Perm.swap _ _ _) ?_
    exact List.Perm.cons _ List.perm_middle.symm

end MathicsClusters

namespace MathicsClusters

theorem run_srNext_loop {K R : Type} (gen : RGen R) (P : DistanceProvider K R)
    (st : SRState) (s : P.σ) (r : R) (h1 : st.c + 1 < st.n) :
    run gen P (srNext st) s r =
      (some (some (srNth st.a (gen.randint (st.c : ℤ) ((st.n : ℤ) - 1) r).1,
        ⟨st.n, st.c + 1, Function.update st.a (gen.randint (st.c : ℤ) ((st.n : ℤ) - 1) r).1
          (some (srNth st.a (st.c : ℤ)))⟩)), s,
        (gen.randint (st.c : ℤ) ((st.n : ℤ) - 1) r).2) := by
  simp [srNext, h1, pRandint, run, Bind.bind, Prog.bind, Pure.pure]

theorem run_srNext_last {K R : Type} (gen : RGen R) (P : DistanceProvider K R)
    (st : SRState) (s : P.σ) (r : R) (h1 : ¬ st.c + 1 < st.n)
    (h2 : st.c + 1 = st.n ∨ (st.n = 0 ∧ st.c = 0)) :
    run gen P (srNext st) s r =
      (some (some (srNth st.a ((st.n : ℤ) - 1), ⟨st.n, st.c + 1, st.a⟩)), s, r) := by
  simp [srNext, h1, h2, run, Pure.pure]

theorem run_srNext_done {K R : Type} (gen : RGen R) (P : DistanceProvider K R)
    (st : SRState) (s : P.σ) (r : R) (h1 : ¬ st.c + 1 < st.n)
    (h2 : ¬ (st.c + 1 = st.n ∨ (st.n = 0 ∧ st.c = 0))) :
    run gen P (srNext st) s r = (some none, s, r) := by
  simp [srNext, h1, h2, run, Pure.pure]

theorem run_srCollect_exhausted {K R : Type} (gen : RGen R) (P : DistanceProvider K R)
    (st : SRState) (s : P.σ) (r : R) (fuel : ℕ) (h1 : ¬ st.c + 1 < st.n)
    (h2 : ¬ (st.c + 1 = st.n ∨ (st.n = 0 ∧ st.c = 0))) :
    run gen P (srCollect (fuel + 1) st) s r = (some [], s, r) := by
  show run gen P ((srNext st).bind _) s r = _
  rw [run_bind, run_srNext_done gen P st s r h1 h2]
  rfl

theorem srCollect_spec {K R : Type} (gen : RGen R) (P : DistanceProvider K R)
    (hrand : ∀ a b : ℤ, ∀ r : R, a ≤ b → a ≤ (gen.randint a b r).1 ∧ (gen.randint a b r).1 ≤ b) :
    ∀ (fuel : ℕ) (st : SRState) (s : P.σ) (r : R),
      st.c < st.n → st.n - st.c < fuel →
      ∃ l r', run gen P (srCollect fuel st) s r = (some l, s, r') ∧
        l.Perm ((List.range' st.c (st.n - st.c)).map (fun t : ℕ => srNth st.a ((t : ℤ)))) := by
  intro fuel
  induction fuel with
  | zero => intro st s r hc hf; omega
  | succ fuel ih =>
    intro st s r hc hf
    by_cases h1 : st.c + 1 < st.n
    · -- loop step of the generator
      have hcb : (st.c : ℤ) ≤ (st.n : ℤ) - 1 := by
        have : (st.c : ℤ) + 1 < (st.n : ℤ) := by exact_mod_cast h1
        omega
      obtain ⟨hj1, hj2⟩ := hrand (st.c : ℤ) ((st.n : ℤ) - 1) r hcb
      set j := (gen.randint (st.c : ℤ) ((st.n : ℤ) - 1) r).1 with hj
      set r1 := (gen.randint (st.c : ℤ) ((st.n : ℤ) - 1) r).2 with hr1
      set st' : SRState :=
        ⟨st.n, st.c + 1, Function.update st.a j (some (srNth st.a (st.c : ℤ)))⟩ with hst'
      obtain ⟨l', r'', hrun', hperm'⟩ := ih st' s r1 (by simp [hst']; omega) (by simp [hst']; omega)
      refine ⟨srNth st.a j :: l', r'', ?_, ?_⟩
      · show run gen P ((srNext st).bind _) s r = _
        rw [run_bind, run_srNext_loop gen P st s r h1]
        show run gen P ((srCollect fuel st').bind _) s r1 = _
        rw [run_bind, hrun']
        rfl
      · refine List.Perm.trans (List.Perm.cons _ hperm') ?_
        have hw : st'.n - st'.c = st.n - (st.c + 1) := by simp [hst']
        have := srStep_perm st.a st.c st.n j h1 hj1 hj2
        simpa [hst'] using this
    · -- last yield, then exhaustion
      have h2 : st.c + 1 = st.n := by omega
      have hfuel : 1 ≤ fuel := by omega
      obtain ⟨fuel', rfl⟩ : ∃ f, fuel = f + 1 := ⟨fuel - 1, by omega⟩
      set st' : SRState := ⟨st.n, st.c + 1, st.a⟩ with hst'
      have hdone : run gen P (srCollect (fuel' + 1) st') s r = (some [], s, r) := by
        apply run_srCollect_exhausted
        · simp [hst']; omega
        · simp [hst']; omega
      refine ⟨[srNth st.a ((st.n : ℤ) - 1)], r, ?_, ?_⟩
      · show run gen P ((srNext st).bind _) s r = _
        rw [run_bind, run_srNext_last gen P st s r h1 (Or.inl h2)]
        show run gen P ((srCollect (fuel' + 1) st').bind _) s r = _
        rw [run_bind, hdone]
        rfl
      · have hw : st.n - st.c = 1 := by omega
        have hcast : ((st.c : ℕ) : ℤ) = (st.n : ℤ) - 1 := by
          have : (st.c : ℤ) + 1 = (st.n : ℤ) := by exact_mod_cast h2
          omega
        rw [hw]
        simp [List.range'_succ, hcast]


/-- C9 (for `n ≥ 1`): for every random source whose `randint(a, b)` honours
its inclusive bounds, and every state of that source, the sequence produced
by `_shuffled_range(n)` is finite of length `n`, contains no value twice,
and is a permutation of `{0, ..., n-1}`. -/
theorem C9_shuffled_range_permutation {K R : Type} (gen : RGen R) (P : DistanceProvider K R)
    (hrand : ∀ a b : ℤ, ∀ r : R, a ≤ b → a ≤ (gen.randint a b r).1 ∧ (gen.randint a b r).1 ≤ b)
    (n : ℕ) (hn : 1 ≤ n) (s : P.σ) (r : R) :
    ∃ l r', run gen P (_shuffled_range n : Prog K (List ℤ)) s r = (some l, s, r') ∧
      l.length = n ∧ l.Nodup ∧ l.Perm ((List.range n).map (fun t : ℕ => (t : ℤ))) := by
  obtain ⟨l, r', hrun, hperm⟩ :=
    srCollect_spec gen P hrand (n + 2) ⟨n, 0, fun _ => none⟩ s r hn (by simp)
  have hW : ((List.range' 0 (n - 0)).map fun t : ℕ => srNth (fun _ => none) ((t : ℤ))) =
      (List.range n).map (fun t : ℕ => (t : ℤ)) := by
    simp [srNth, List.range_eq_range']
  rw [hW] at hperm
  have hinj : Function.Injective (fun t : ℕ => (t : ℤ)) := fun a b h => by
    simpa using h
  refine ⟨l, r', hrun, ?_, ?_, hperm⟩
  · rw [hperm.length_eq]
    simp
  · exact hperm.symm.nodup ((List.nodup_range n).map hinj)

/-- The trivial generator honours the `randint` bounds contract. -/
theorem constGen_randint_bounds :
    ∀ a b : ℤ, ∀ r : Unit, a ≤ b →
      a ≤ (constGen.randint a b r).1 ∧ (constGen.randint a b r).1 ≤ b :=
  fun a _ _ h => ⟨le_refl a, h⟩

/-- Closed witness for `C9_shuffled_range_permutation` at `n = 1`. -/
theorem C9_shuffled_range_permutation_witness :
    (∀ a b : ℤ, ∀ r : Unit, a ≤ b →
      a ≤ (constGen.randint a b r).1 ∧ (constGen.randint a b r).1 ≤ b) ∧
    (1 : ℕ) ≤ 1 ∧
    ∃ l r', run constGen zeroProvider (_shuffled_range 1 : Prog ℚ (List ℤ)) () () =
        (some l, (), r') ∧
      l.length = 1 ∧ l.Nodup ∧ l.Perm ((List.range 1).map (fun t : ℕ => (t : ℤ))) :=
  ⟨constGen_randint_bounds, le_refl 1,
    C9_shuffled_range_permutation constGen zeroProvider constGen_randint_bounds 1 (le_refl 1) () ()⟩

/-- Counterexample to C9 as stated for every `n`: at `n = 0` the generator
yields the single value `-1` (the trailing `yield nth(n - 1)` runs
unconditionally), so the sequence has length `1 ≠ 0` and is not a
permutation of the empty range. -/
theorem C9_shuffled_range_counterexample :
    run constGen zeroProvider (_shuffled_range 0 : Prog ℚ (List ℤ)) () () =
      (some [-1], (), ()) ∧
    ¬ ([(-1 : ℤ)].length = 0) ∧
    ¬ ([(-1 : ℤ)].Perm ((List.range 0).map (fun t : ℕ => (t : ℤ)))) := by
  refine ⟨rfl, by decide, ?_⟩
  intro h
  simpa using h.length_eq

end MathicsClusters

namespace MathicsClusters

/-! ### The index-addressable binary min-heap of `agglomerate`
(lines 703-769).

Heap entries are the tuples `(distance, pair-identifier, pair-of-points)` of
the source; Python compares them lexicographically, and since the
pair-identifiers of distinct live entries are distinct, the comparison never
reaches the third component — the embedded order `keyLe`/`keyLt` is the
lexicographic order on `(distance, pair-identifier)`.  `w` is the `where`
position index (`where[p]` = heap slot of the entry with pair-identifier
`p`).  All operations return `none` exactly where Python would raise
`IndexError` (or, for the loops, where the fuel — always instantiated above
the provable iteration bound — would run out). -/

/-- A heap entry: `((distance, pair-identifier), pair-of-points)`. -/
abbrev HeapEntry (β π : Type) := (β × ℕ) × π

/-- The pair-identifier of an entry. -/
def hid {β π : Type} (e : HeapEntry β π) : ℕ := e.1.2

/-- The comparison key of an entry. -/
def hkey {β π : Type} (e : HeapEntry β π) : β × ℕ := e.1

/-- Python `h1 <= h2` on heap tuples (third components never compared across
live entries, see above). -/
def keyLe {β : Type} [LinearOrder β] (a b : β × ℕ) : Prop :=
  a.1 < b.1 ∨ (a.1 = b.1 ∧ a.2 ≤ b.2)

/-- Python `h1 < h2` on heap tuples. -/
def keyLt {β : Type} [LinearOrder β] (a b : β × ℕ) : Prop :=
  a.1 < b.1 ∨ (a.1 = b.1 ∧ a.2 < b.2)

instance {β : Type} [LinearOrder β] (a b : β × ℕ) : Decidable (keyLe a b) :=
  inferInstanceAs (Decidable (_ ∨ _))

instance {β : Type} [LinearOrder β] (a b : β × ℕ) : Decidable (keyLt a b) :=
  inferInstanceAs (Decidable (_ ∨ _))

theorem keyLe_refl {β : Type} [LinearOrder β] (a : β × ℕ) : keyLe a a :=
  Or.inr ⟨rfl, le_refl _⟩

theorem keyLe_trans {β : Type} [LinearOrder β] {a b c : β × ℕ}
    (h1 : keyLe a b) (h2 : keyLe b c) : keyLe a c := by
  rcases h1 with h1 | ⟨h1e, h1le⟩ <;> rcases h2 with h2 | ⟨h2e, h2le⟩
  · exact Or.inl (lt_trans h1 h2)
  · exact Or.inl (h2e ▸ h1)
  · exact Or.inl (h1e ▸ h2)
  · exact Or.inr ⟨h1e.trans h2e, le_trans h1le h2le⟩

theorem keyLt_le {β : Type} [LinearOrder β] {a b : β × ℕ} (h : keyLt a b) : keyLe a b := by
  rcases h with h | ⟨he, hlt⟩
  · exact Or.inl h
  · exact Or.inr ⟨he, le_of_lt hlt⟩

theorem keyLe_of_not_keyLt {β : Type} [LinearOrder β] {a b : β × ℕ}
    (h : ¬ keyLt a b) : keyLe b a := by
  rcases lt_trichotomy a.1 b.1 with hlt | heq | hgt
  · exact absurd (Or.inl hlt) h
  · rcases le_or_lt b.2 a.2 with h2 | h2
    · exact Or.inr ⟨heq.symm, h2⟩
    · exact absurd (Or.inr ⟨heq, h2⟩) h
  · exact Or.inl hgt

theorem keyLt_of_not_keyLe {β : Type} [LinearOrder β] {a b : β × ℕ}
    (h : ¬ keyLe a b) : keyLt b a := by
  rcases lt_trichotomy a.1 b.1 with hlt | heq | hgt
  · exact absurd (Or.inl hlt) h
  · rcases le_or_lt a.2 b.2 with h2 | h2
    · exact absurd (Or.inr ⟨heq, h2⟩) h
    · exact Or.inr ⟨heq.symm, h2⟩
  · exact Or.inl hgt

/-! Generic permutation helpers about `List.set` / `List.eraseIdx`. -/

theorem set_getElem_self_eq {α : Type} (l : List α) (i : ℕ) (h : i < l.length) :
    l.set i l[i] = l := by
  apply List.ext_getElem?
  intro j
  rw [List.getElem?_set]
  by_cases hij : i = j
  · subst hij
    simp [h, List.getElem?_eq_getElem h]
  · simp [hij]

theorem perm_set_cons_eraseIdx {α : Type} :
    ∀ (l : List α) (i : ℕ) (a : α), i < l.length →
      (l.set i a).Perm (a :: l.eraseIdx i)
  | [], i, a, h => by simp at h
  | x :: t, 0, a, _ => by simp
  | x :: t, i + 1, a, h => by
    have ih := perm_set_cons_eraseIdx t i a (by simpa using h)
    show (x :: t.set i a).Perm (a :: x :: t.eraseIdx i)
    exact (List.Perm.cons x ih).trans (List.Perm.swap a x _)

theorem perm_getElem_cons_eraseIdx {α : Type} (l : List α) (i : ℕ) (h : i < l.length) :
    l.Perm (l[i] :: l.eraseIdx i) := by
  have h2 := perm_set_cons_eraseIdx l i l[i] h
  rwa [set_getElem_self_eq l i h] at h2

theorem perm_set_set {α : Type} :
    ∀ (l : List α) (i j : ℕ) (a b : α), i < l.length → j < l.length → i ≠ j →
      l[j]? = some b → ((l.set i b).set j a).Perm (l.set i a)
  | [], i, _, _, _, hi, _, _, _ => by simp at hi
  | x :: t, 0, 0, a, b, _, _, hij, _ => absurd rfl hij
  | x :: t, 0, j + 1, a, b, hi, hj, _, hb => by
    have hj' : j < t.length := by simpa using hj
    have hb' : t[j] = b := by
      have h2 : t[j]? = some b := by simpa using hb
      have h3 : t[j]? = some t[j] := List.getElem?_eq_getElem hj'
      rw [h3] at h2
      exact Option.some_injective _ h2
    show (b :: t.set j a).Perm (a :: t)
    have step1 : (b :: t.set j a).Perm (b :: a :: t.eraseIdx j) :=
      List.Perm.cons b (perm_set_cons_eraseIdx t j a hj')
    have step2 : (b :: a :: t.eraseIdx j).Perm (a :: b :: t.eraseIdx j) :=
      List.Perm.swap a b _
    have step3 : (a :: b :: t.eraseIdx j).Perm (a :: t) := by
      refine List.Perm.cons a ?_
      have h4 := perm_getElem_cons_eraseIdx t j hj'
      rw [hb'] at h4
      exact h4.symm
    exact (step1.trans step2).trans step3
  | x :: t, i + 1, 0, a, b, hi, _, _, hb => by
    have hi' : i < t.length := by simpa using hi
    have hb' : x = b := by simpa using hb
    subst hb'
    show (a :: t.set i x).Perm (x :: t.set i a)
    have step1 : (a :: t.set i x).Perm (a :: x :: t.eraseIdx i) :=
      List.Perm.cons a (perm_set_cons_eraseIdx t i x hi')
    have step2 : (a :: x :: t.eraseIdx i).Perm (x :: a :: t.eraseIdx i) :=
      List.Perm.swap x a _
    have step3 : (x :: a :: t.eraseIdx i).Perm (x :: t.set i a) :=
      List.Perm.cons x (perm_set_cons_eraseIdx t i a hi').symm
    exact (step1.trans step2).trans step3
  | x :: t, i + 1, j + 1, a, b, hi, hj, hij, hb => by
    have hi' : i < t.length := by simpa using hi
    have hj' : j < t.length := by simpa using hj
    have hij' : i ≠ j := fun h => hij (by rw [h])
    have hb' : t[j]? = some b := by simpa using hb
    exact List.Perm.cons x (perm_set_set t i j a b hi' hj' hij' hb')

end MathicsClusters

namespace MathicsClusters

variable {β π : Type}

/-- The child-selection step of Python `shiftdown`:
`if j < e and heap[j] > heap[j + 1]: j += 1`, returning the chosen slot and
its entry (`ej` is `heap[j]`). -/
def pickChild [LinearOrder β] (heap : List (HeapEntry β π)) (j : ℕ) (ej : HeapEntry β π) :
    ℕ × HeapEntry β π :=
  match heap[j + 1]? with
  | some ej1 => if j + 1 < heap.length ∧ keyLt (hkey ej1) (hkey ej) then (j + 1, ej1) else (j, ej)
  | none => (j, ej)

/-- Loop of Python `shiftdown` (lines 713-725): sift the pending entry `xp`
down from slot `i`, moving the smaller child up and updating `where` for
each moved entry; on exit write `xp` at the final slot and point `where` at
it.  `fuel` only bounds the iteration count (the callers pass a provably
sufficient amount). -/
def shiftdownLoop [LinearOrder β] (xp : HeapEntry β π) :
    ℕ → ℕ → List (HeapEntry β π) → (ℕ → ℕ) →
      Option (List (HeapEntry β π) × (ℕ → ℕ))
  | 0, _, _, _ => none
  | fuel + 1, i, heap, w =>
    let j := 2 * i + 1
    if heap.length ≤ j then
      -- while-condition `j <= e` fails: place xp at i
      some (heap.set i xp, Function.update w (hid xp) i)
    else
      match heap[j]? with
      | none => none
      | some ej =>
        let q : ℕ × HeapEntry β π := pickChild heap j ej
        if keyLe (hkey xp) (hkey q.2) then
          -- `if xp <= heap[j]: break`, then place xp at i
          some (heap.set i xp, Function.update w (hid xp) i)
        else
          -- `heap[i] = heap[j]; where[pp] = i; i = j`
          shiftdownLoop xp fuel q.1 (heap.set i q.2) (Function.update w (hid q.2) i)

/-- Python `shiftdown(s, heap, where)` (lines 703-726): early return when
`2*s + 1 > len(heap) - 1`, otherwise read `xp = heap[s]` and sift it down. -/
def shiftdown [LinearOrder β] (s : ℕ) (heap : List (HeapEntry β π)) (w : ℕ → ℕ) :
    Option (List (HeapEntry β π) × (ℕ → ℕ)) :=
  if heap.length ≤ 2 * s + 1 then some (heap, w)
  else
    match heap[s]? with
    | none => none
    | some xp => shiftdownLoop xp (heap.length + 1) s heap w

/-- Loop of Python `shiftup` (lines 736-744): sift the pending entry `xp` up
from slot `i`, moving the parent down while it is larger, updating `where`
for each moved entry; on exit write `xp` and point `where` at it. -/
def shiftupLoop [LinearOrder β] (xp : HeapEntry β π) :
    ℕ → ℕ → List (HeapEntry β π) → (ℕ → ℕ) →
      Option (List (HeapEntry β π) × (ℕ → ℕ))
  | 0, _, _, _ => none
  | fuel + 1, i, heap, w =>
    if i = 0 then
      -- `while j >= 0` fails next: place xp at the root
      some (heap.set i xp, Function.update w (hid xp) i)
    else
      let j := (i + 1) / 2 - 1
      match heap[j]? with
      | none => none
      | some ej =>
        if keyLe (hkey ej) (hkey xp) then
          some (heap.set i xp, Function.update w (hid xp) i)
        else
          shiftupLoop xp fuel j (heap.set i ej) (Function.update w (hid ej) i)

/-- Python `shiftup(s, heap, where)` (lines 728-747): early return when the
parent index `(s + 1) // 2 - 1` is negative, i.e. `s = 0`. -/
def shiftup [LinearOrder β] (s : ℕ) (heap : List (HeapEntry β π)) (w : ℕ → ℕ) :
    Option (List (HeapEntry β π) × (ℕ → ℕ)) :=
  if s = 0 then some (heap, w)
  else
    match heap[s]? with
    | none => none
    | some xp => shiftupLoop xp (s + 1) s heap w

/-- Python `update(s, xp, heap, where)` (lines 749-758): overwrite slot `s`
with `xp` and sift it down (`xp > heap[s]`) or up (otherwise).  (The
`assert xp != xxpp` of the source holds at every call site; when the two are
equal the `else` branch is a no-op, so it is not modelled as a crash.) -/
def update [LinearOrder β] (s : ℕ) (xp : HeapEntry β π)
    (heap : List (HeapEntry β π)) (w : ℕ → ℕ) :
    Option (List (HeapEntry β π) × (ℕ → ℕ)) :=
  match heap[s]? with
  | none => none
  | some xxpp =>
    if keyLt (hkey xxpp) (hkey xp) then shiftdown s (heap.set s xp) w
    else shiftup s (heap.set s xp) w

/-- Python `remove(s, heap, where)` (lines 760-769): pop the last entry; if
`s` was the last slot we are done, otherwise re-insert the popped entry at
slot `s` via `update` (after pointing `where` at `s`). -/
def remove [LinearOrder β] (s : ℕ) (heap : List (HeapEntry β π)) (w : ℕ → ℕ) :
    Option (List (HeapEntry β π) × (ℕ → ℕ)) :=
  if heap.length = 0 then none
  else if s = heap.length - 1 then some (heap.dropLast, w)
  else
    match heap.getLast? with
    | none => none
    | some xxpp =>
      update s xxpp heap.dropLast (Function.update w (hid xxpp) s)

/-- The binary min-heap ordering property, parent-to-child. -/
def HeapProp [LinearOrder β] (heap : List (HeapEntry β π)) : Prop :=
  ∀ c, (hc : c < heap.length) → 1 ≤ c →
    keyLe (hkey (heap.get ⟨(c - 1) / 2, Nat.lt_of_le_of_lt (Nat.le_trans (Nat.div_le_self _ 2) (Nat.pred_le c)) hc⟩))
      (hkey (heap.get ⟨c, hc⟩))

/-- The `where` position index is consistent with the heap: the slot of
every entry can be looked up by its pair-identifier. -/
def Corr (heap : List (HeapEntry β π)) (w : ℕ → ℕ) : Prop :=
  ∀ t, (ht : t < heap.length) → w (hid (heap.get ⟨t, ht⟩)) = t

instance [LinearOrder β] (heap : List (HeapEntry β π)) : Decidable (HeapProp heap) := by
  unfold HeapProp
  infer_instance

instance (heap : List (HeapEntry β π)) (w : ℕ → ℕ) : Decidable (Corr heap w) := by
  unfold Corr
  infer_instance

/-- `Corr` off one slot (the slot a sift is currently filling). -/
def CorrExcept (heap : List (HeapEntry β π)) (w : ℕ → ℕ) (i : ℕ) : Prop :=
  ∀ t, (ht : t < heap.length) → t ≠ i → w (hid (heap.get ⟨t, ht⟩)) = t

/-- The pending identifier appears nowhere but (possibly) at slot `i`. -/
def FreshOff (heap : List (HeapEntry β π)) (i p : ℕ) : Prop :=
  ∀ t, (ht : t < heap.length) → t ≠ i → hid (heap.get ⟨t, ht⟩) ≠ p

instance (heap : List (HeapEntry β π)) (i p : ℕ) : Decidable (FreshOff heap i p) := by
  unfold FreshOff
  infer_instance

end MathicsClusters

namespace MathicsClusters

variable {β π : Type}

theorem pickChild_spec [LinearOrder β] (heap : List (HeapEntry β π)) (j : ℕ)
    (ej : HeapEntry β π) (hj : j < heap.length) (hej : heap[j]? = some ej) :
    (pickChild heap j ej).1 < heap.length ∧
    heap[(pickChild heap j ej).1]? = some (pickChild heap j ej).2 ∧
    j ≤ (pickChild heap j ej).1 := by
  unfold pickChild
  cases h2 : heap[j + 1]? with
  | none => exact ⟨hj, hej, le_refl j⟩
  | some ej1 =>
    by_cases h3 : j + 1 < heap.length ∧ keyLt (hkey ej1) (hkey ej)
    · simp only [if_pos h3]
      exact ⟨h3.1, h2, Nat.le_succ j⟩
    · simp only [if_neg h3]
      exact ⟨hj, hej, le_refl j⟩

theorem shiftdownLoop_spec [LinearOrder β] (xp : HeapEntry β π) :
    ∀ (fuel i : ℕ) (heap : List (HeapEntry β π)) (w : ℕ → ℕ),
      i < heap.length → heap.length + 1 ≤ fuel + i →
      CorrExcept heap w i → FreshOff heap i (hid xp) →
      ∃ h' w', shiftdownLoop xp fuel i heap w = some (h', w') ∧
        h'.length = heap.length ∧
        (h'.map hid).Perm ((heap.map hid).set i (hid xp)) ∧
        Corr h' w' := by
  intro fuel
  induction fuel with
  | zero =>
    intro i heap w hi hfuel hcorr hfresh
    omega
  | succ fuel ih =>
    intro i heap w hi hfuel hcorr hfresh
    show ∃ h' w', (if heap.length ≤ 2 * i + 1 then _ else _) = some (h', w') ∧ _
    by_cases hj : heap.length ≤ 2 * i + 1
    · -- no children: write xp at i
      rw [if_pos hj]
      refine ⟨heap.set i xp, Function.update w (hid xp) i, rfl, by simp, ?_, ?_⟩
      · rw [List.map_set]
      · intro t ht
        have htlen : t < heap.length := by simpa using ht
        by_cases hti : t = i
        · subst hti
          have : (heap.set t xp).get ⟨t, ht⟩ = xp := by
            simp [List.get_eq_getElem, List.getElem_set]
          rw [this, Function.update_same]
        · have : (heap.set i xp).get ⟨t, ht⟩ = heap.get ⟨t, htlen⟩ := by
            simp [List.get_eq_getElem, List.getElem_set, Ne.symm hti, hti]
          rw [this, Function.update_noteq (hfresh t htlen hti)]
          exact hcorr t htlen hti
    · rw [if_neg hj]
      have hjlen : 2 * i + 1 < heap.length := by omega
      have hej : heap[2 * i + 1]? = some heap[2 * i + 1] := List.getElem?_eq_getElem hjlen
      rw [hej]
      dsimp only
      obtain ⟨hq1, hq2, hq3⟩ := pickChild_spec heap (2 * i + 1) heap[2 * i + 1] hjlen hej
      set q := pickChild heap (2 * i + 1) heap[2 * i + 1] with hqdef
      by_cases hle : keyLe (hkey xp) (hkey q.2)
      · rw [if_pos hle]
        refine ⟨heap.set i xp, Function.update w (hid xp) i, rfl, by simp, ?_, ?_⟩
        · rw [List.map_set]
        · intro t ht
          have htlen : t < heap.length := by simpa using ht
          by_cases hti : t = i
          · subst hti
            have : (heap.set t xp).get ⟨t, ht⟩ = xp := by
              simp [List.get_eq_getElem, List.getElem_set]
            rw [this, Function.update_same]
          · have : (heap.set i xp).get ⟨t, ht⟩ = heap.get ⟨t, htlen⟩ := by
              simp [List.get_eq_getElem, List.getElem_set, Ne.symm hti, hti]
            rw [this, Function.update_noteq (hfresh t htlen hti)]
            exact hcorr t htlen hti
      · rw [if_neg hle]
        have hqi : i ≠ q.1 := by omega
        have hlen' : (heap.set i q.2).length = heap.length := by simp
        -- the recursive call's preconditions
        have hq1' : q.1 < (heap.set i q.2).length := by simpa using hq1
        have hfuel' : (heap.set i q.2).length + 1 ≤ fuel + q.1 := by
          rw [hlen']
          omega
        have hcorr' : CorrExcept (heap.set i q.2) (Function.update w (hid q.2) i) q.1 := by
          intro t ht htq
          have htlen : t < heap.length := by simpa using ht
          by_cases hti : t = i
          · subst hti
            have hget : (heap.set t q.2).get ⟨t, ht⟩ = q.2 := by
              simp [List.get_eq_getElem, List.getElem_set]
            rw [hget, Function.update_same]
          · have hget : (heap.set i q.2).get ⟨t, ht⟩ = heap.get ⟨t, htlen⟩ := by
              simp [List.get_eq_getElem, List.getElem_set, Ne.symm hti, hti]
            rw [hget]
            have hne : hid (heap.get ⟨t, htlen⟩) ≠ hid q.2 := by
              intro hcontra
              have e1 : w (hid (heap.get ⟨t, htlen⟩)) = t := hcorr t htlen hti
              have hq2get : heap.get ⟨q.1, hq1⟩ = q.2 := by
                have := List.getElem?_eq_getElem hq1
                rw [this] at hq2
                simpa [List.get_eq_getElem] using Option.some_injective _ hq2
              have e2 : w (hid q.2) = q.1 := by
                rw [← hq2get]
                exact hcorr q.1 hq1 (Ne.symm hqi)
              rw [hcontra] at e1
              rw [e1] at e2
              exact htq e2
            rw [Function.update_noteq hne]
            exact hcorr t htlen hti
        have hfresh' : FreshOff (heap.set i q.2) q.1 (hid xp) := by
          intro t ht htq
          have htlen : t < heap.length := by simpa using ht
          by_cases hti : t = i
          · subst hti
            have hget : (heap.set t q.2).get ⟨t, ht⟩ = q.2 := by
              simp [List.get_eq_getElem, List.getElem_set]
            rw [hget]
            have hq2get : heap.get ⟨q.1, hq1⟩ = q.2 := by
              have := List.getElem?_eq_getElem hq1
              rw [this] at hq2
              simpa [List.get_eq_getElem] using Option.some_injective _ hq2
            rw [← hq2get]
            exact hfresh q.1 hq1 (Ne.symm hqi)
          · have hget : (heap.set i q.2).get ⟨t, ht⟩ = heap.get ⟨t, htlen⟩ := by
              simp [List.get_eq_getElem, List.getElem_set, Ne.symm hti, hti]
            rw [hget]
            exact hfresh t htlen hti
        obtain ⟨h', w', hrun, hlen'', hperm, hcorr''⟩ :=
          ih q.1 (heap.set i q.2) (Function.update w (hid q.2) i) hq1' hfuel' hcorr' hfresh'
        refine ⟨h', w', hrun, by rw [hlen'', hlen'], ?_, hcorr''⟩
        refine hperm.trans ?_
        rw [List.map_set]
        have hmapq : (heap.map hid)[q.1]? = some (hid q.2) := by
          rw [List.getElem?_map, hq2]
          rfl
        exact perm_set_set (heap.map hid) i q.1 (hid xp) (hid q.2)
          (by simpa using hi) (by simpa using hq1) hqi hmapq

end MathicsClusters

namespace MathicsClusters

variable {β π : Type}

theorem shiftupLoop_spec [LinearOrder β] (xp : HeapEntry β π) :
    ∀ (fuel i : ℕ) (heap : List (HeapEntry β π)) (w : ℕ → ℕ),
      i < heap.length → i + 1 ≤ fuel →
      CorrExcept heap w i → FreshOff heap i (hid xp) →
      ∃ h' w', shiftupLoop xp fuel i heap w = some (h', w') ∧
        h'.length = heap.length ∧
        (h'.map hid).Perm ((heap.map hid).set i (hid xp)) ∧
        Corr h' w' := by
  intro fuel
  induction fuel with
  | zero =>
    intro i heap w hi hfuel hcorr hfresh
    omega
  | succ fuel ih =>
    intro i heap w hi hfuel hcorr hfresh
    show ∃ h' w', (if i = 0 then _ else _) = some (h', w') ∧ _
    have hwrite : ∀ hcond : True,
        Corr (heap.set i xp) (Function.update w (hid xp) i) := by
      intro _
      intro t ht
      have htlen : t < heap.length := by simpa using ht
      by_cases hti : t = i
      · subst hti
        have hget : (heap.set t xp).get ⟨t, ht⟩ = xp := by
          simp [List.get_eq_getElem, List.getElem_set]
        rw [hget, Function.update_same]
      · have hget : (heap.set i xp).get ⟨t, ht⟩ = heap.get ⟨t, htlen⟩ := by
          simp [List.get_eq_getElem, List.getElem_set, Ne.symm hti, hti]
        rw [hget, Function.update_noteq (hfresh t htlen hti)]
        exact hcorr t htlen hti
    by_cases hzero : i = 0
    · rw [if_pos hzero]
      exact ⟨heap.set i xp, Function.update w (hid xp) i, rfl, by simp,
        by rw [List.map_set], hwrite trivial⟩
    · rw [if_neg hzero]
      have hjlt : (i + 1) / 2 - 1 < i := by omega
      have hjlen : (i + 1) / 2 - 1 < heap.length := lt_trans hjlt hi
      have hej : heap[(i + 1) / 2 - 1]? = some heap[(i + 1) / 2 - 1] :=
        List.getElem?_eq_getElem hjlen
      dsimp only
      rw [hej]
      dsimp only
      set j := (i + 1) / 2 - 1 with hjdef
      set ej := heap[(i + 1) / 2 - 1] with hejdef
      by_cases hle : keyLe (hkey ej) (hkey xp)
      · rw [if_pos hle]
        exact ⟨heap.set i xp, Function.update w (hid xp) i, rfl, by simp,
          by rw [List.map_set], hwrite trivial⟩
      · rw [if_neg hle]
        have hji : j ≠ i := by omega
        have hcorr' : CorrExcept (heap.set i ej) (Function.update w (hid ej) i) j := by
          intro t ht htj
          have htlen : t < heap.length := by simpa using ht
          by_cases hti : t = i
          · subst hti
            have hget : (heap.set t ej).get ⟨t, ht⟩ = ej := by
              simp [List.get_eq_getElem, List.getElem_set]
            rw [hget, Function.update_same]
          · have hget : (heap.set i ej).get ⟨t, ht⟩ = heap.get ⟨t, htlen⟩ := by
              simp [List.get_eq_getElem, List.getElem_set, Ne.symm hti, hti]
            rw [hget]
            have hne : hid (heap.get ⟨t, htlen⟩) ≠ hid ej := by
              intro hcontra
              have e1 : w (hid (heap.get ⟨t, htlen⟩)) = t := hcorr t htlen hti
              have e2 : w (hid ej) = j := by
                have hget2 : heap.get ⟨j, hjlen⟩ = ej := by
                  simp [List.get_eq_getElem, hejdef]
                rw [← hget2]
                exact hcorr j hjlen hji
              rw [hcontra, e2] at e1
              exact htj e1.symm
            rw [Function.update_noteq hne]
            exact hcorr t htlen hti
        have hfresh' : FreshOff (heap.set i ej) j (hid xp) := by
          intro t ht htj
          have htlen : t < heap.length := by simpa using ht
          by_cases hti : t = i
          · subst hti
            have hget : (heap.set t ej).get ⟨t, ht⟩ = ej := by
              simp [List.get_eq_getElem, List.getElem_set]
            rw [hget]
            have hget2 : heap.get ⟨j, hjlen⟩ = ej := by
              simp [List.get_eq_getElem, hejdef]
            rw [← hget2]
            exact hfresh j hjlen hji
          · have hget : (heap.set i ej).get ⟨t, ht⟩ = heap.get ⟨t, htlen⟩ := by
              simp [List.get_eq_getElem, List.getElem_set, Ne.symm hti, hti]
            rw [hget]
            exact hfresh t htlen hti
        obtain ⟨h', w', hrun, hlen', hperm, hcorr''⟩ :=
          ih j (heap.set i ej) (Function.update w (hid ej) i)
            (by simpa using hjlen) (by omega) hcorr' hfresh'
        refine ⟨h', w', hrun, by simpa using hlen', ?_, hcorr''⟩
        refine hperm.trans ?_
        rw [List.map_set]
        have hmapj : (heap.map hid)[j]? = some (hid ej) := by
          rw [List.getElem?_map, hej]
          rfl
        exact perm_set_set (heap.map hid) i j (hid xp) (hid ej)
          (by simpa using hi) (by simpa using hjlen) (Ne.symm hji) hmapj

/-- Combined no-ordering specification of `shiftdown`: with a consistent
position index off slot `s`, the sift completes, preserves the entry
multiset up to replacing slot `s`'s entry with itself, and restores full
consistency. -/
theorem shiftdown_spec [LinearOrder β] (s : ℕ) (heap : List (HeapEntry β π)) (w : ℕ → ℕ)
    (hs : s < heap.length) (hcorr : CorrExcept heap w s)
    (hfresh : FreshOff heap s (hid (heap.get ⟨s, hs⟩)))
    (hws : w (hid (heap.get ⟨s, hs⟩)) = s) :
    ∃ h' w', shiftdown s heap w = some (h', w') ∧
      h'.length = heap.length ∧
      (h'.map hid).Perm (heap.map hid) ∧
      Corr h' w' := by
  unfold shiftdown
  by_cases hleaf : heap.length ≤ 2 * s + 1
  · rw [if_pos hleaf]
    refine ⟨heap, w, rfl, rfl, List.Perm.refl _, ?_⟩
    intro t ht
    by_cases hts : t = s
    · subst hts
      exact hws
    · exact hcorr t ht hts
  · rw [if_neg hleaf]
    have hsget : heap[s]? = some (heap.get ⟨s, hs⟩) := by
      rw [List.getElem?_eq_getElem hs]
      simp [List.get_eq_getElem]
    rw [hsget]
    obtain ⟨h', w', hrun, hlen, hperm, hcorr'⟩ :=
      shiftdownLoop_spec (heap.get ⟨s, hs⟩) (heap.length + 1) s heap w hs (by omega) hcorr hfresh
    refine ⟨h', w', hrun, hlen, ?_, hcorr'⟩
    refine hperm.trans ?_
    have hslen : s < (heap.map hid).length := by simpa using hs
    have hmap : hid (heap.get ⟨s, hs⟩) = (heap.map hid)[s] := by
      simp [List.getElem_map, List.get_eq_getElem]
    rw [hmap, set_getElem_self_eq (heap.map hid) s hslen]

/-- Combined no-ordering specification of `shiftup`. -/
theorem shiftup_spec [LinearOrder β] (s : ℕ) (heap : List (HeapEntry β π)) (w : ℕ → ℕ)
    (hs : s < heap.length) (hcorr : CorrExcept heap w s)
    (hfresh : FreshOff heap s (hid (heap.get ⟨s, hs⟩)))
    (hws : w (hid (heap.get ⟨s, hs⟩)) = s) :
    ∃ h' w', shiftup s heap w = some (h', w') ∧
      h'.length = heap.length ∧
      (h'.map hid).Perm (heap.map hid) ∧
      Corr h' w' := by
  unfold shiftup
  by_cases hzero : s = 0
  · rw [if_pos hzero]
    refine ⟨heap, w, rfl, rfl, List.Perm.refl _, ?_⟩
    intro t ht
    by_cases hts : t = s
    · subst hts
      exact hws
    · exact hcorr t ht hts
  · rw [if_neg hzero]
    have hsget : heap[s]? = some (heap.get ⟨s, hs⟩) := by
      rw [List.getElem?_eq_getElem hs]
      simp [List.get_eq_getElem]
    rw [hsget]
    obtain ⟨h', w', hrun, hlen, hperm, hcorr'⟩ :=
      shiftupLoop_spec (heap.get ⟨s, hs⟩) (s + 1) s heap w hs (le_refl _) hcorr hfresh
    refine ⟨h', w', hrun, hlen, ?_, hcorr'⟩
    refine hperm.trans ?_
    have hslen : s < (heap.map hid).length := by simpa using hs
    have hmap : hid (heap.get ⟨s, hs⟩) = (heap.map hid)[s] := by
      simp [List.getElem_map, List.get_eq_getElem]
    rw [hmap, set_getElem_self_eq (heap.map hid) s hslen]

end MathicsClusters

namespace MathicsClusters

variable {β π : Type}

/-- Combined no-ordering specification of `update`: replacing the entry at a
slot the position index already points at (with an identifier present
nowhere else) completes, replaces exactly that slot in the entry multiset,
and preserves consistency. -/
theorem update_spec [LinearOrder β] (s : ℕ) (xp : HeapEntry β π)
    (heap : List (HeapEntry β π)) (w : ℕ → ℕ)
    (hs : s < heap.length) (hcorr : Corr heap w)
    (hfresh : FreshOff heap s (hid xp)) (hws : w (hid xp) = s) :
    ∃ h' w', update s xp heap w = some (h', w') ∧
      h'.length = heap.length ∧
      (h'.map hid).Perm ((heap.map hid).set s (hid xp)) ∧
      Corr h' w' := by
  unfold update
  have hsget : heap[s]? = some (heap.get ⟨s, hs⟩) := by
    rw [List.getElem?_eq_getElem hs]
    simp [List.get_eq_getElem]
  rw [hsget]
  dsimp only
  have hs1 : s < (heap.set s xp).length := by simpa using hs
  have hget1 : (heap.set s xp).get ⟨s, hs1⟩ = xp := by
    simp [List.get_eq_getElem, List.getElem_set]
  have hcorr1 : CorrExcept (heap.set s xp) w s := by
    intro t ht hts
    have htlen : t < heap.length := by simpa using ht
    have hget : (heap.set s xp).get ⟨t, ht⟩ = heap.get ⟨t, htlen⟩ := by
      simp [List.get_eq_getElem, List.getElem_set, Ne.symm hts, hts]
    rw [hget]
    exact hcorr t htlen
  have hfresh1 : FreshOff (heap.set s xp) s (hid ((heap.set s xp).get ⟨s, hs1⟩)) := by
    rw [hget1]
    intro t ht hts
    have htlen : t < heap.length := by simpa using ht
    have hget : (heap.set s xp).get ⟨t, ht⟩ = heap.get ⟨t, htlen⟩ := by
      simp [List.get_eq_getElem, List.getElem_set, Ne.symm hts, hts]
    rw [hget]
    exact hfresh t htlen hts
  have hws1 : w (hid ((heap.set s xp).get ⟨s, hs1⟩)) = s := by
    rw [hget1]
    exact hws
  have hmapset : ((heap.set s xp).map hid) = (heap.map hid).set s (hid xp) :=
    List.map_set ..
  by_cases hcmp : keyLt (hkey (heap.get ⟨s, hs⟩)) (hkey xp)
  · rw [if_pos hcmp]
    obtain ⟨h', w', hrun, hlen, hperm, hcorr'⟩ :=
      shiftdown_spec s (heap.set s xp) w hs1 hcorr1 hfresh1 hws1
    refine ⟨h', w', hrun, by simpa using hlen, ?_, hcorr'⟩
    refine hperm.trans ?_
    rw [hmapset]
  · rw [if_neg hcmp]
    obtain ⟨h', w', hrun, hlen, hperm, hcorr'⟩ :=
      shiftup_spec s (heap.set s xp) w hs1 hcorr1 hfresh1 hws1
    refine ⟨h', w', hrun, by simpa using hlen, ?_, hcorr'⟩
    refine hperm.trans ?_
    rw [hmapset]

/-- Combined no-ordering specification of `remove`: removing the entry at a
valid slot completes, shrinks the heap by one, removes exactly that entry
from the multiset, and preserves consistency. -/
theorem remove_spec [LinearOrder β] (s : ℕ) (heap : List (HeapEntry β π)) (w : ℕ → ℕ)
    (hs : s < heap.length) (hcorr : Corr heap w) :
    ∃ h' w', remove s heap w = some (h', w') ∧
      h'.length = heap.length - 1 ∧
      (h'.map hid).Perm ((heap.map hid).eraseIdx s) ∧
      Corr h' w' := by
  unfold remove
  have hne : ¬ heap.length = 0 := by omega
  rw [if_neg hne]
  by_cases hlast : s = heap.length - 1
  · rw [if_pos hlast]
    refine ⟨heap.dropLast, w, rfl, by simp, ?_, ?_⟩
    · have herase : (heap.map hid).eraseIdx s =
          (heap.map hid).take s ++ (heap.map hid).drop (s + 1) :=
        List.eraseIdx_eq_take_drop_succ ..
      have hdrop : (heap.map hid).drop (s + 1) = [] := by
        apply List.drop_eq_nil_of_le
        simp only [List.length_map]
        omega
      have htake : (heap.map hid).take s = heap.dropLast.map hid := by
        rw [← List.map_take, List.dropLast_eq_take, hlast]
      rw [herase, hdrop, List.append_nil, htake]
    · intro t ht
      have htlen : t < heap.length := lt_of_lt_of_le (by simpa using ht) (by simp [List.length_dropLast])
      have hget : heap.dropLast.get ⟨t, ht⟩ = heap.get ⟨t, htlen⟩ := by
        simp [List.get_eq_getElem, List.getElem_dropLast]
      rw [hget]
      exact hcorr t htlen
  · rw [if_neg hlast]
    have hlen1 : 1 ≤ heap.length := by omega
    have hlastlt : heap.length - 1 < heap.length := by omega
    have hgetlast : heap.getLast? = some (heap.get ⟨heap.length - 1, hlastlt⟩) := by
      rw [List.getLast?_eq_getElem?, List.getElem?_eq_getElem hlastlt]
      simp [List.get_eq_getElem]
    rw [hgetlast]
    dsimp only
    set xxpp := heap.get ⟨heap.length - 1, hlastlt⟩ with hxxpp
    have hslt : s < heap.length - 1 := by omega
    have hs1 : s < heap.dropLast.length := by
      simpa [List.length_dropLast] using hslt
    have hgetdrop : ∀ t (ht : t < heap.dropLast.length),
        heap.dropLast.get ⟨t, ht⟩ = heap.get ⟨t, lt_of_lt_of_le (by simpa [List.length_dropLast] using ht) (Nat.sub_le _ _)⟩ := by
      intro t ht
      simp [List.get_eq_getElem, List.getElem_dropLast]
    have hinj : ∀ t (ht : t < heap.length), t ≠ heap.length - 1 →
        hid (heap.get ⟨t, ht⟩) ≠ hid xxpp := by
      intro t ht htne hcontra
      have e1 : w (hid (heap.get ⟨t, ht⟩)) = t := hcorr t ht
      have e2 : w (hid xxpp) = heap.length - 1 := hcorr (heap.length - 1) hlastlt
      rw [hcontra, e2] at e1
      exact htne e1.symm
    have hcorr1 : Corr heap.dropLast (Function.update w (hid xxpp) s) := by
      intro t ht
      have htlen : t < heap.length := lt_of_lt_of_le (by simpa [List.length_dropLast] using ht) (Nat.sub_le _ _)
      have htne : t ≠ heap.length - 1 := by
        have := ht
        simp [List.length_dropLast] at this
        omega
      rw [hgetdrop t ht, Function.update_noteq (hinj t htlen htne)]
      exact hcorr t htlen
  -- wait: Corr heap.dropLast w' means for all t; but this is Corr, update_spec wants Corr; ok
    have hfresh1 : FreshOff heap.dropLast s (hid xxpp) := by
      intro t ht hts
      have htlen : t < heap.length := lt_of_lt_of_le (by simpa [List.length_dropLast] using ht) (Nat.sub_le _ _)
      have htne : t ≠ heap.length - 1 := by
        have := ht
        simp [List.length_dropLast] at this
        omega
      rw [hgetdrop t ht]
      exact hinj t htlen htne
    have hws1 : Function.update w (hid xxpp) s (hid xxpp) = s := Function.update_same ..
    obtain ⟨h', w', hrun, hlen, hperm, hcorr'⟩ :=
      update_spec s xxpp heap.dropLast (Function.update w (hid xxpp) s) hs1 hcorr1 hfresh1 hws1
    refine ⟨h', w', hrun, by simp [hlen, List.length_dropLast], ?_, hcorr'⟩
    refine hperm.trans ?_
    -- ids heap = ids of dropLast ++ [hid xxpp]
    have h0 : heap ≠ [] := List.ne_nil_of_length_pos (by omega)
    have hconcat : heap.dropLast ++ [xxpp] = heap := by
      have h1 := List.dropLast_append_getLast h0
      have h2 : heap.getLast h0 = xxpp := by
        rw [List.getLast_eq_getElem]
        simp [hxxpp, List.get_eq_getElem]
      rw [← h2]
      exact h1
    have hsplit : heap.map hid = (heap.dropLast.map hid) ++ [hid xxpp] := by
      rw [← hconcat, List.map_append]
      simp
    rw [hsplit]
    have hslen2 : s < (heap.dropLast.map hid).length := by simpa using hs1
    have herase2 : ((heap.dropLast.map hid) ++ [hid xxpp]).eraseIdx s =
        ((heap.dropLast.map hid).eraseIdx s) ++ [hid xxpp] := by
      rw [List.eraseIdx_append_of_lt_length hslen2]
    rw [herase2]
    refine (perm_set_cons_eraseIdx (heap.dropLast.map hid) s (hid xxpp) hslen2).trans ?_
    exact (List.perm_append_singleton _ _).symm

end MathicsClusters

namespace MathicsClusters

variable {β π : Type}

/-- Order relation between two heap slots, vacuous when either is out of
range (used for the heap-shape invariants of the sift loops). -/
def leAt [LinearOrder β] (heap : List (HeapEntry β π)) (p c : ℕ) : Prop :=
  ∀ ep ec, heap[p]? = some ep → heap[c]? = some ec → keyLe (hkey ep) (hkey ec)

theorem heapProp_iff_leAt [LinearOrder β] (heap : List (HeapEntry β π)) :
    HeapProp heap ↔ ∀ c, 1 ≤ c → leAt heap ((c - 1) / 2) c := by
  constructor
  · intro hp c hc ep ec hep hec
    have hclen : c < heap.length := by
      by_contra hcon
      rw [List.getElem?_eq_none (by omega)] at hec
      exact Option.noConfusion hec
    have hplen : (c - 1) / 2 < heap.length := by omega
    have h1 := hp c hclen hc
    have hep' : ep = heap.get ⟨(c - 1) / 2, hplen⟩ := by
      have := List.getElem?_eq_getElem hplen
      rw [this] at hep
      simpa [List.get_eq_getElem] using (Option.some_injective _ hep).symm
    have hec' : ec = heap.get ⟨c, hclen⟩ := by
      have := List.getElem?_eq_getElem hclen
      rw [this] at hec
      simpa [List.get_eq_getElem] using (Option.some_injective _ hec).symm
    rw [hep', hec']
    exact h1
  · intro h c hclen hc
    have hplen : (c - 1) / 2 < heap.length := by omega
    exact h c hc _ _ (by rw [List.getElem?_eq_getElem hplen]; simp [List.get_eq_getElem])
      (by rw [List.getElem?_eq_getElem hclen]; simp [List.get_eq_getElem])

/-- The slot `pickChild` selects is `j` or `j + 1`, and its entry is a
`keyLe`-lower bound of both children. -/
theorem pickChild_min [LinearOrder β] (heap : List (HeapEntry β π)) (j : ℕ)
    (ej : HeapEntry β π) (hj : j < heap.length) (hej : heap[j]? = some ej) :
    ((pickChild heap j ej).1 = j ∨ (pickChild heap j ej).1 = j + 1) ∧
    (∀ ec, heap[j]? = some ec → keyLe (hkey (pickChild heap j ej).2) (hkey ec)) ∧
    (∀ ec, heap[j + 1]? = some ec → keyLe (hkey (pickChild heap j ej).2) (hkey ec)) := by
  unfold pickChild
  cases h2 : heap[j + 1]? with
  | none =>
    dsimp only
    refine ⟨Or.inl rfl, ?_, ?_⟩
    · intro ec hec
      rw [hej] at hec
      have he : ej = ec := Option.some_injective _ hec
      subst he
      exact keyLe_refl _
    · intro ec hec
      exact Option.noConfusion hec
  | some ej1 =>
    dsimp only
    by_cases h3 : j + 1 < heap.length ∧ keyLt (hkey ej1) (hkey ej)
    · rw [if_pos h3]
      refine ⟨Or.inr rfl, ?_, ?_⟩
      · intro ec hec
        rw [hej] at hec
        have he : ej = ec := Option.some_injective _ hec
        subst he
        exact keyLt_le h3.2
      · intro ec hec
        have he : ej1 = ec := Option.some_injective _ hec
        subst he
        exact keyLe_refl _
    · rw [if_neg h3]
      have hlt : ¬ keyLt (hkey ej1) (hkey ej) := by
        intro hcon
        have hlen : j + 1 < heap.length := by
          by_contra hcon2
          rw [List.getElem?_eq_none (by omega)] at h2
          exact Option.noConfusion h2
        exact h3 ⟨hlen, hcon⟩
      refine ⟨Or.inl rfl, ?_, ?_⟩
      · intro ec hec
        rw [hej] at hec
        have he : ej = ec := Option.some_injective _ hec
        subst he
        exact keyLe_refl _
      · intro ec hec
        have he : ej1 = ec := Option.some_injective _ hec
        subst he
        exact keyLe_of_not_keyLt hlt

/-- Sift-down restores the heap ordering: if all parent-child relations away
from the pending slot `i` hold, the pending entry dominates its would-be
parent, and the bridge relation from `i`'s parent to `i`'s children holds,
then the completed loop yields a heap satisfying every parent-child
relation. -/
theorem shiftdownLoop_heapProp [LinearOrder β] (xp : HeapEntry β π) :
    ∀ (fuel i : ℕ) (heap : List (HeapEntry β π)) (w : ℕ → ℕ),
      (∀ c, 1 ≤ c → (c - 1) / 2 ≠ i → c ≠ i → leAt heap ((c - 1) / 2) c) →
      (1 ≤ i → ∀ ep, heap[(i - 1) / 2]? = some ep → keyLe (hkey ep) (hkey xp)) →
      (1 ≤ i → ∀ c, 1 ≤ c → (c - 1) / 2 = i →
        leAt heap ((i - 1) / 2) c) →
      ∀ h' w', shiftdownLoop xp fuel i heap w = some (h', w') →
        HeapProp h' := by
  intro fuel
  induction fuel with
  | zero =>
    intro i heap w _ _ _ h' w' hrun
    exact Option.noConfusion hrun
  | succ fuel ih =>
    intro i heap w hD1 hD2 hD3 h' w' hrun
    rw [show shiftdownLoop xp (fuel + 1) i heap w =
      (if heap.length ≤ 2 * i + 1 then
        some (heap.set i xp, Function.update w (hid xp) i)
      else
        match heap[2 * i + 1]? with
        | none => none
        | some ej =>
          let q : ℕ × HeapEntry β π := pickChild heap (2 * i + 1) ej
          if keyLe (hkey xp) (hkey q.2) then
            some (heap.set i xp, Function.update w (hid xp) i)
          else
            shiftdownLoop xp fuel q.1 (heap.set i q.2) (Function.update w (hid q.2) i))
      from rfl] at hrun
    by_cases hleaf : heap.length ≤ 2 * i + 1
    · rw [if_pos hleaf] at hrun
      obtain ⟨hh, hw⟩ := Prod.mk.injEq .. ▸ (Option.some_injective _ hrun)
      subst hh
      rw [heapProp_iff_leAt]
      intro c hc ep ec hep hec
      rw [List.getElem?_set] at hep hec
      by_cases hci : c = i
      · subst hci
        rw [if_pos rfl] at hec
        have hclen : c < heap.length := by
          by_contra hcon
          rw [if_neg hcon] at hec
          exact Option.noConfusion hec
        rw [if_pos hclen] at hec
        have hpc : (c - 1) / 2 ≠ c := by omega
        rw [if_neg (fun h => hpc h.symm)] at hep
        have := hD2 hc ep hep
        rw [← Option.some_injective _ hec]
        exact this
      · rw [if_neg (fun h => hci h.symm)] at hec
        by_cases hpi : (c - 1) / 2 = i
        · -- c is a child of i, but i has no children in range
          have hclen : c < heap.length := by
            by_contra hcon
            rw [List.getElem?_eq_none (by omega)] at hec
            exact Option.noConfusion hec
          omega
        · rw [if_neg (fun h => hpi h.symm)] at hep
          exact hD1 c hc hpi hci ep ec hep hec
    · rw [if_neg hleaf] at hrun
      have hjlen : 2 * i + 1 < heap.length := by omega
      have hej : heap[2 * i + 1]? = some heap[2 * i + 1] := List.getElem?_eq_getElem hjlen
      rw [hej] at hrun
      dsimp only at hrun
      obtain ⟨hq1, hq2, hq3⟩ := pickChild_spec heap (2 * i + 1) heap[2 * i + 1] hjlen hej
      obtain ⟨hqor, hminl, hminr⟩ := pickChild_min heap (2 * i + 1) heap[2 * i + 1] hjlen hej
      set q := pickChild heap (2 * i + 1) heap[2 * i + 1] with hqdef
      have hqchild : ∀ c, 1 ≤ c → (c - 1) / 2 = i → ∀ ec, heap[c]? = some ec →
          keyLe (hkey q.2) (hkey ec) := by
        intro c hc hpc ec hec
        have : c = 2 * i + 1 ∨ c = 2 * i + 2 := by omega
        rcases this with hcc | hcc
        · subst hcc
          exact hminl ec hec
        · subst hcc
          exact hminr ec (by
            have : 2 * i + 1 + 1 = 2 * i + 2 := by omega
            rw [this]
            exact hec)
      by_cases hle : keyLe (hkey xp) (hkey q.2)
      · rw [if_pos hle] at hrun
        obtain ⟨hh, hw⟩ := Prod.mk.injEq .. ▸ (Option.some_injective _ hrun)
        subst hh
        rw [heapProp_iff_leAt]
        intro c hc ep ec hep hec
        rw [List.getElem?_set] at hep hec
        by_cases hci : c = i
        · subst hci
          rw [if_pos rfl] at hec
          have hclen : c < heap.length := by omega
          rw [if_pos hclen] at hec
          have hpc : (c - 1) / 2 ≠ c := by omega
          rw [if_neg (fun h => hpc h.symm)] at hep
          have := hD2 hc ep hep
          rw [← Option.some_injective _ hec]
          exact this
        · rw [if_neg (fun h => hci h.symm)] at hec
          by_cases hpi : (c - 1) / 2 = i
          · rw [if_pos hpi.symm, if_pos (by omega : i < heap.length)] at hep
            rw [← Option.some_injective _ hep]
            exact keyLe_trans hle (hqchild c hc hpi ec hec)
          · rw [if_neg (fun h => hpi h.symm)] at hep
            exact hD1 c hc hpi hci ep ec hep hec
      · rw [if_neg hle] at hrun
        have hqi : q.1 ≠ i := by omega
        have hilen : i < heap.length := by omega
        have hset : ∀ t, t ≠ i → (heap.set i q.2)[t]? = heap[t]? := by
          intro t ht
          rw [List.getElem?_set, if_neg (fun h => ht h.symm)]
        have hseti : (heap.set i q.2)[i]? = some q.2 := by
          rw [List.getElem?_set, if_pos rfl, if_pos hilen]
        have hqp : (q.1 - 1) / 2 = i := by omega
        refine ih q.1 (heap.set i q.2) (Function.update w (hid q.2) i) ?_ ?_ ?_ h' w' hrun
        · -- D1 for the new pending slot q.1
          intro c hc hpq hcq ep ec hep hec
          by_cases hci : c = i
          · subst hci
            rw [hseti] at hec
            have hecq : q.2 = ec := Option.some_injective _ hec
            have hppi : (c - 1) / 2 ≠ c := by omega
            rw [hset _ hppi] at hep
            rw [← hecq]
            exact hD3 hc q.1 (by omega) hqp ep q.2 hep hq2
          · rw [hset _ hci] at hec
            by_cases hpi : (c - 1) / 2 = i
            · rw [hpi, hseti] at hep
              rw [← Option.some_injective _ hep]
              exact hqchild c hc hpi ec hec
            · rw [hset _ hpi] at hep
              exact hD1 c hc hpi hci ep ec hep hec
        · -- D2 for the new pending slot
          intro hq1pos ep hep
          rw [hqp, hseti] at hep
          rw [← Option.some_injective _ hep]
          exact keyLt_le (keyLt_of_not_keyLe hle)
        · -- D3 bridge for the new pending slot
          intro hq1pos c hc hpc ep ec hep hec
          rw [hqp, hseti] at hep
          have hcq : c ≠ i := by omega
          rw [hset _ hcq] at hec
          rw [← Option.some_injective _ hep]
          have h1 := hD1 c hc (by omega) hcq
          have hq2' : heap[q.1]? = some q.2 := hq2
          have := h1 q.2 ec (by rw [hpc]; exact hq2') hec
          exact this

end MathicsClusters

namespace MathicsClusters

variable {β π : Type}

/-- Sift-up restores the heap ordering: if all parent-child relations whose
child is away from the pending slot `i` hold, the pending entry is below
`i`'s children, and the bridge relation from `i`'s parent to `i`'s children
holds, then the completed loop yields a heap satisfying every parent-child
relation. -/
theorem shiftupLoop_heapProp [LinearOrder β] (xp : HeapEntry β π) :
    ∀ (fuel i : ℕ) (heap : List (HeapEntry β π)) (w : ℕ → ℕ),
      (∀ c, 1 ≤ c → (c - 1) / 2 ≠ i → c ≠ i → leAt heap ((c - 1) / 2) c) →
      (∀ c, 1 ≤ c → (c - 1) / 2 = i → ∀ ec, heap[c]? = some ec →
        keyLe (hkey xp) (hkey ec)) →
      (1 ≤ i → ∀ c, 1 ≤ c → (c - 1) / 2 = i → leAt heap ((i - 1) / 2) c) →
      ∀ h' w', shiftupLoop xp fuel i heap w = some (h', w') →
        HeapProp h' := by
  intro fuel
  induction fuel with
  | zero =>
    intro i heap w _ _ _ h' w' hrun
    exact Option.noConfusion hrun
  | succ fuel ih =>
    intro i heap w hU1 hU2 hU3 h' w' hrun
    rw [show shiftupLoop xp (fuel + 1) i heap w =
      (if i = 0 then some (heap.set i xp, Function.update w (hid xp) i)
       else
        match heap[(i + 1) / 2 - 1]? with
        | none => none
        | some ej =>
          if keyLe (hkey ej) (hkey xp) then
            some (heap.set i xp, Function.update w (hid xp) i)
          else
            shiftupLoop xp fuel ((i + 1) / 2 - 1) (heap.set i ej)
              (Function.update w (hid ej) i)) from rfl] at hrun
    have hset : ∀ (a : HeapEntry β π) t, t ≠ i → (heap.set i a)[t]? = heap[t]? := by
      intro a t ht
      rw [List.getElem?_set, if_neg (fun h => ht h.symm)]
    by_cases hzero : i = 0
    · rw [if_pos hzero] at hrun
      obtain ⟨hh, hw⟩ := Prod.mk.injEq .. ▸ (Option.some_injective _ hrun)
      subst hh
      rw [heapProp_iff_leAt]
      intro c hc ep ec hep hec
      have hci : c ≠ i := by omega
      rw [List.getElem?_set] at hep hec
      rw [if_neg (fun h => hci h.symm)] at hec
      by_cases hpi : (c - 1) / 2 = i
      · rw [if_pos hpi.symm] at hep
        have hilen : i < heap.length := by
          by_contra hcon
          rw [if_neg hcon] at hep
          exact Option.noConfusion hep
        rw [if_pos hilen] at hep
        have hxep : xp = ep := Option.some_injective _ hep
        subst hxep
        exact hU2 c hc hpi ec hec
      · rw [if_neg (fun h => hpi h.symm)] at hep
        exact hU1 c hc hpi hci ep ec hep hec
    · rw [if_neg hzero] at hrun
      have hipos : 1 ≤ i := by omega
      have hjeq : (i + 1) / 2 - 1 = (i - 1) / 2 := by omega
      have hjlt : (i - 1) / 2 < i := by omega
      cases hej : heap[(i + 1) / 2 - 1]? with
      | none =>
        rw [hej] at hrun
        exact Option.noConfusion hrun
      | some ej =>
        rw [hej] at hrun
        dsimp only at hrun
        rw [hjeq] at hej
        have hji : (i - 1) / 2 ≠ i := by omega
        by_cases hle : keyLe (hkey ej) (hkey xp)
        · rw [if_pos hle] at hrun
          obtain ⟨hh, hw⟩ := Prod.mk.injEq .. ▸ (Option.some_injective _ hrun)
          subst hh
          rw [heapProp_iff_leAt]
          intro c hc ep ec hep hec
          rw [List.getElem?_set] at hep hec
          by_cases hci : c = i
          · subst hci
            rw [if_pos rfl] at hec
            have hclen : c < heap.length := by
              by_contra hcon
              rw [if_neg hcon] at hec
              exact Option.noConfusion hec
            rw [if_pos hclen] at hec
            have hxec : xp = ec := Option.some_injective _ hec
            subst hxec
            rw [if_neg (fun h => hji h.symm)] at hep
            rw [hep] at hej
            have he : ep = ej := Option.some_injective _ hej
            subst he
            exact hle
          · rw [if_neg (fun h => hci h.symm)] at hec
            by_cases hpi : (c - 1) / 2 = i
            · rw [if_pos hpi.symm] at hep
              have hilen : i < heap.length := by
                by_contra hcon
                rw [if_neg hcon] at hep
                exact Option.noConfusion hep
              rw [if_pos hilen] at hep
              have hxep : xp = ep := Option.some_injective _ hep
              subst hxep
              exact hU2 c hc hpi ec hec
            · rw [if_neg (fun h => hpi h.symm)] at hep
              exact hU1 c hc hpi hci ep ec hep hec
        · rw [if_neg hle] at hrun
          rw [hjeq] at hrun
          have hklt : keyLt (hkey xp) (hkey ej) := keyLt_of_not_keyLe hle
          refine ih ((i - 1) / 2) (heap.set i ej) (Function.update w (hid ej) i) ?_ ?_ ?_ h' w' hrun
          · -- U1 for the new pending slot
            intro c hc hpj hcj ep ec hep hec
            have hci : c ≠ i := by
              intro hcon
              subst hcon
              omega
            rw [hset _ _ hci] at hec
            by_cases hpi : (c - 1) / 2 = i
            · rw [List.getElem?_set, if_pos hpi.symm] at hep
              have hilen : i < heap.length := by
                by_contra hcon
                rw [if_neg hcon] at hep
                exact Option.noConfusion hep
              rw [if_pos hilen] at hep
              have he : ej = ep := Option.some_injective _ hep
              subst he
              exact hU3 hipos c hc hpi ej ec hej hec
            · rw [hset _ _ hpi] at hep
              exact hU1 c hc hpi hci ep ec hep hec
          · -- U2 for the new pending slot
            intro c hc hpj ec hec
            by_cases hci : c = i
            · subst hci
              rw [List.getElem?_set, if_pos rfl] at hec
              have hilen : c < heap.length := by
                by_contra hcon
                rw [if_neg hcon] at hec
                exact Option.noConfusion hec
              rw [if_pos hilen] at hec
              have he : ej = ec := Option.some_injective _ hec
              subst he
              exact keyLt_le hklt
            · rw [hset _ _ hci] at hec
              have h1 := hU1 c hc (by omega) hci ej ec (hpj ▸ hej) hec
              exact keyLe_trans (keyLt_le hklt) h1
          · -- U3 bridge for the new pending slot
            intro hjpos c hc hpj ep ec hep hec
            have hppj : ((i - 1) / 2 - 1) / 2 ≠ i := by omega
            rw [hset _ _ hppj] at hep
            have h1 := hU1 ((i - 1) / 2) hjpos (by omega) hji ep ej hep hej
            by_cases hci : c = i
            · subst hci
              rw [List.getElem?_set, if_pos rfl] at hec
              have hilen : c < heap.length := by
                by_contra hcon
                rw [if_neg hcon] at hec
                exact Option.noConfusion hec
              rw [if_pos hilen] at hec
              have he : ej = ec := Option.some_injective _ hec
              subst he
              exact h1
            · rw [hset _ _ hci] at hec
              have h2 := hU1 c hc (by omega) hci ej ec (hpj ▸ hej) hec
              exact keyLe_trans h1 h2

end MathicsClusters

namespace MathicsClusters

variable {β π : Type}

theorem leAt_trans_at [LinearOrder β] {heap : List (HeapEntry β π)} {a b c : ℕ}
    (hab : leAt heap a b) (hbc : leAt heap b c) (hb : b < heap.length) :
    leAt heap a c := by
  intro ep ec hep hec
  have hbe : heap[b]? = some heap[b] := List.getElem?_eq_getElem hb
  exact keyLe_trans (hab ep heap[b] hep hbe) (hbc heap[b] ec hbe hec)

theorem shiftdown_heapProp [LinearOrder β] (s : ℕ) (heap : List (HeapEntry β π)) (w : ℕ → ℕ)
    (hD1 : ∀ c, 1 ≤ c → (c - 1) / 2 ≠ s → c ≠ s → leAt heap ((c - 1) / 2) c)
    (hD2 : 1 ≤ s → leAt heap ((s - 1) / 2) s)
    (hD3 : 1 ≤ s → ∀ c, 1 ≤ c → (c - 1) / 2 = s → leAt heap ((s - 1) / 2) c) :
    ∀ h' w', shiftdown s heap w = some (h', w') → HeapProp h' := by
  intro h' w' hrun
  unfold shiftdown at hrun
  by_cases hleaf : heap.length ≤ 2 * s + 1
  · rw [if_pos hleaf] at hrun
    obtain ⟨hh, hw⟩ := Prod.mk.injEq .. ▸ (Option.some_injective _ hrun)
    subst hh
    rw [heapProp_iff_leAt]
    intro c hc
    by_cases hci : c = s
    · subst hci
      exact hD2 hc
    · by_cases hpi : (c - 1) / 2 = s
      · -- c would be a child of s, which is out of range
        intro ep ec hep hec
        have : c < heap.length := by
          by_contra hcon
          rw [List.getElem?_eq_none (by omega)] at hec
          exact Option.noConfusion hec
        omega
      · exact hD1 c hc hpi hci
  · rw [if_neg hleaf] at hrun
    have hs : s < heap.length := by omega
    have hsget : heap[s]? = some heap[s] := List.getElem?_eq_getElem hs
    rw [hsget] at hrun
    dsimp only at hrun
    refine shiftdownLoop_heapProp heap[s] (heap.length + 1) s heap w hD1 ?_ hD3 h' w' hrun
    intro hpos ep hep
    exact hD2 hpos ep heap[s] hep hsget

theorem shiftup_heapProp [LinearOrder β] (s : ℕ) (heap : List (HeapEntry β π)) (w : ℕ → ℕ)
    (hU1 : ∀ c, 1 ≤ c → (c - 1) / 2 ≠ s → c ≠ s → leAt heap ((c - 1) / 2) c)
    (hU2 : ∀ c, 1 ≤ c → (c - 1) / 2 = s → leAt heap s c)
    (hU3 : 1 ≤ s → ∀ c, 1 ≤ c → (c - 1) / 2 = s → leAt heap ((s - 1) / 2) c) :
    ∀ h' w', shiftup s heap w = some (h', w') → HeapProp h' := by
  intro h' w' hrun
  unfold shiftup at hrun
  by_cases hzero : s = 0
  · rw [if_pos hzero] at hrun
    obtain ⟨hh, hw⟩ := Prod.mk.injEq .. ▸ (Option.some_injective _ hrun)
    subst hh
    rw [heapProp_iff_leAt]
    intro c hc
    by_cases hpi : (c - 1) / 2 = s
    · subst hzero
      rw [hpi]
      exact hU2 c hc hpi
    · exact hU1 c hc hpi (by omega)
  · rw [if_neg hzero] at hrun
    cases hsget : heap[s]? with
    | none =>
      rw [hsget] at hrun
      exact Option.noConfusion hrun
    | some xp =>
      rw [hsget] at hrun
      dsimp only at hrun
      refine shiftupLoop_heapProp xp (s + 1) s heap w hU1 ?_ hU3 h' w' hrun
      intro c hc hpc ec hec
      exact hU2 c hc hpc xp ec hsget hec

theorem update_heapProp [LinearOrder β] (s : ℕ) (xp : HeapEntry β π)
    (heap : List (HeapEntry β π)) (w : ℕ → ℕ) (hp : HeapProp heap) :
    ∀ h' w', update s xp heap w = some (h', w') → HeapProp h' := by
  intro h' w' hrun
  unfold update at hrun
  cases hsget : heap[s]? with
  | none =>
    rw [hsget] at hrun
    exact Option.noConfusion hrun
  | some xxpp =>
    rw [hsget] at hrun
    dsimp only at hrun
    have hs : s < heap.length := by
      by_contra hcon
      rw [List.getElem?_eq_none (by omega)] at hsget
      exact Option.noConfusion hsget
    have hxv : heap[s] = xxpp := by
      have := List.getElem?_eq_getElem hs
      rw [this] at hsget
      exact Option.some_injective _ hsget
    have hle := (heapProp_iff_leAt heap).mp hp
    have hset : ∀ t, t ≠ s → (heap.set s xp)[t]? = heap[t]? := by
      intro t ht
      rw [List.getElem?_set, if_neg (fun h => ht h.symm)]
    have hseti : (heap.set s xp)[s]? = some xp := by
      rw [List.getElem?_set, if_pos rfl, if_pos hs]
    have hA1 : ∀ c, 1 ≤ c → (c - 1) / 2 ≠ s → c ≠ s →
        leAt (heap.set s xp) ((c - 1) / 2) c := by
      intro c hc hpc hcs ep ec hep hec
      rw [hset _ hpc] at hep
      rw [hset _ hcs] at hec
      exact hle c hc ep ec hep hec
    have hA3base : ∀ c, 1 ≤ c → (c - 1) / 2 = s → leAt heap s c := by
      intro c hc hpc
      have := hle c hc
      rw [hpc] at this
      exact this
    by_cases hcmp : keyLt (hkey xxpp) (hkey xp)
    · rw [if_pos hcmp] at hrun
      refine shiftdown_heapProp s (heap.set s xp) w hA1 ?_ ?_ h' w' hrun
      · -- parent of s is below the new entry via the old one
        intro hpos ep ec hep hec
        have hps : (s - 1) / 2 ≠ s := by omega
        rw [hset _ hps] at hep
        rw [hseti] at hec
        have he : xp = ec := Option.some_injective _ hec
        subst he
        have h1 := hle s hpos ep xxpp hep (by rw [hsget])
        exact keyLe_trans h1 (keyLt_le hcmp)
      · -- bridge: parent of s is below s's children (through the old entry)
        intro hpos c hc hpc ep ec hep hec
        have hps : (s - 1) / 2 ≠ s := by omega
        have hcs : c ≠ s := by omega
        rw [hset _ hps] at hep
        rw [hset _ hcs] at hec
        have h1 := hle s hpos ep xxpp hep (by rw [hsget])
        have h2 := hA3base c hc hpc xxpp ec (by rw [hsget]) hec
        exact keyLe_trans h1 h2
    · rw [if_neg hcmp] at hrun
      have hxple : keyLe (hkey xp) (hkey xxpp) := keyLe_of_not_keyLt hcmp
      refine shiftup_heapProp s (heap.set s xp) w hA1 ?_ ?_ h' w' hrun
      · -- children of s are above the new (smaller) entry
        intro c hc hpc ep ec hep hec
        have hcs : c ≠ s := by omega
        rw [hseti] at hep
        rw [hset _ hcs] at hec
        have he : xp = ep := Option.some_injective _ hep
        subst he
        have h2 := hA3base c hc hpc xxpp ec (by rw [hsget]) hec
        exact keyLe_trans hxple h2
      · -- bridge
        intro hpos c hc hpc ep ec hep hec
        have hps : (s - 1) / 2 ≠ s := by omega
        have hcs : c ≠ s := by omega
        rw [hset _ hps] at hep
        rw [hset _ hcs] at hec
        have h1 := hle s hpos ep xxpp hep (by rw [hsget])
        have h2 := hA3base c hc hpc xxpp ec (by rw [hsget]) hec
        exact keyLe_trans h1 h2

theorem dropLast_heapProp [LinearOrder β] (heap : List (HeapEntry β π))
    (hp : HeapProp heap) : HeapProp heap.dropLast := by
  intro c hc h1c
  have hc' : c < heap.length := lt_of_lt_of_le (by simpa [List.length_dropLast] using hc) (Nat.sub_le _ _)
  have hp' : (c - 1) / 2 < heap.length := by omega
  have hg1 : heap.dropLast.get ⟨c, hc⟩ = heap.get ⟨c, hc'⟩ := by
    simp [List.get_eq_getElem, List.getElem_dropLast]
  have hplen : (c - 1) / 2 < heap.dropLast.length := by
    have := hc
    simp only [List.length_dropLast] at this ⊢
    omega
  have hg2 : heap.dropLast.get ⟨(c - 1) / 2, hplen⟩ = heap.get ⟨(c - 1) / 2, hp'⟩ := by
    simp [List.get_eq_getElem, List.getElem_dropLast]
  rw [List.get_eq_getElem] at hg1 hg2
  simp only [List.get_eq_getElem]
  rw [hg1, hg2]
  exact hp c hc' h1c

theorem remove_heapProp [LinearOrder β] (s : ℕ) (heap : List (HeapEntry β π)) (w : ℕ → ℕ)
    (hp : HeapProp heap) :
    ∀ h' w', remove s heap w = some (h', w') → HeapProp h' := by
  intro h' w' hrun
  unfold remove at hrun
  by_cases hz : heap.length = 0
  · rw [if_pos hz] at hrun
    exact Option.noConfusion hrun
  · rw [if_neg hz] at hrun
    by_cases hlast : s = heap.length - 1
    · rw [if_pos hlast] at hrun
      obtain ⟨hh, hw⟩ := Prod.mk.injEq .. ▸ (Option.some_injective _ hrun)
      subst hh
      exact dropLast_heapProp heap hp
    · rw [if_neg hlast] at hrun
      cases hgl : heap.getLast? with
      | none =>
        rw [hgl] at hrun
        exact Option.noConfusion hrun
      | some xxpp =>
        rw [hgl] at hrun
        dsimp only at hrun
        exact update_heapProp s xxpp heap.dropLast _ (dropLast_heapProp heap hp) h' w' hrun

end MathicsClusters

namespace MathicsClusters

/-- C10: the agglomerative engine's heap and its position index stay
mutually consistent: whenever the heap satisfies the min-heap property and
`where[p] = s` holds for every slot `s` holding the entry with
pair-identifier `p`, then after any of `shiftdown`, `shiftup`, `update`, or
`remove` (at a valid slot; for `update`, with a replacement entry whose
identifier lives nowhere else and is already indexed at that slot, as at
every call site), the operation completes and the heap property and the
position-index correspondence both hold again. -/
theorem C10_heap_position_index_consistency {β π : Type} [LinearOrder β]
    (heap : List (HeapEntry β π)) (w : ℕ → ℕ) (s : ℕ) (xp : HeapEntry β π)
    (hheap : HeapProp heap) (hcorr : Corr heap w) (hs : s < heap.length)
    (hfresh : FreshOff heap s (hid xp)) (hws : w (hid xp) = s) :
    (∃ h' w', shiftdown s heap w = some (h', w') ∧ HeapProp h' ∧ Corr h' w') ∧
    (∃ h' w', shiftup s heap w = some (h', w') ∧ HeapProp h' ∧ Corr h' w') ∧
    (∃ h' w', update s xp heap w = some (h', w') ∧ HeapProp h' ∧ Corr h' w') ∧
    (∃ h' w', remove s heap w = some (h', w') ∧ HeapProp h' ∧ Corr h' w') := by
  have hle := (heapProp_iff_leAt heap).mp hheap
  have hcex : CorrExcept heap w s := fun t ht _ => hcorr t ht
  have hfreshSelf : FreshOff heap s (hid (heap.get ⟨s, hs⟩)) := by
    intro t ht hts hcon
    have e1 : w (hid (heap.get ⟨t, ht⟩)) = t := hcorr t ht
    have e2 : w (hid (heap.get ⟨s, hs⟩)) = s := hcorr s hs
    rw [hcon, e2] at e1
    exact hts e1.symm
  have hwsSelf : w (hid (heap.get ⟨s, hs⟩)) = s := hcorr s hs
  have hD1 : ∀ c, 1 ≤ c → (c - 1) / 2 ≠ s → c ≠ s → leAt heap ((c - 1) / 2) c :=
    fun c hc _ _ => hle c hc
  have hD2 : 1 ≤ s → leAt heap ((s - 1) / 2) s := fun hpos => hle s hpos
  have hD3 : 1 ≤ s → ∀ c, 1 ≤ c → (c - 1) / 2 = s → leAt heap ((s - 1) / 2) c := by
    intro hpos c hc hpc
    refine leAt_trans_at (hle s hpos) ?_ hs
    have := hle c hc
    rw [hpc] at this
    exact this
  have hU2 : ∀ c, 1 ≤ c → (c - 1) / 2 = s → leAt heap s c := by
    intro c hc hpc
    have := hle c hc
    rw [hpc] at this
    exact this
  refine ⟨?_, ?_, ?_, ?_⟩
  · obtain ⟨h', w', hrun, _, _, hcorr'⟩ := shiftdown_spec s heap w hs hcex hfreshSelf hwsSelf
    exact ⟨h', w', hrun, shiftdown_heapProp s heap w hD1 hD2 hD3 h' w' hrun, hcorr'⟩
  · obtain ⟨h', w', hrun, _, _, hcorr'⟩ := shiftup_spec s heap w hs hcex hfreshSelf hwsSelf
    exact ⟨h', w', hrun, shiftup_heapProp s heap w hD1 hU2 hD3 h' w' hrun, hcorr'⟩
  · obtain ⟨h', w', hrun, _, _, hcorr'⟩ := update_spec s xp heap w hs hcorr hfresh hws
    exact ⟨h', w', hrun, update_heapProp s xp heap w hheap h' w' hrun, hcorr'⟩
  · obtain ⟨h', w', hrun, _, _, hcorr'⟩ := remove_spec s heap w hs hcorr
    exact ⟨h', w', hrun, remove_heapProp s heap w hheap h' w' hrun, hcorr'⟩

/-- Concrete heap for the C10 witness. -/
def c10Heap : List (HeapEntry ℕ Unit) := [((0, 0), ()), ((1, 1), ()), ((2, 2), ())]

/-- Concrete position index for the C10 witness (also routes the fresh
identifier `7` to slot `1`). -/
def c10W : ℕ → ℕ := fun p => if p = 7 then 1 else p

/-- Closed witness for `C10_heap_position_index_consistency` on a concrete
three-entry heap. -/
theorem C10_heap_position_index_consistency_witness :
    HeapProp c10Heap ∧ Corr c10Heap c10W ∧ 1 < c10Heap.length ∧
    FreshOff c10Heap 1 (hid (((5, 7), ()) : HeapEntry ℕ Unit)) ∧
    c10W (hid (((5, 7), ()) : HeapEntry ℕ Unit)) = 1 ∧
    ((∃ h' w', shiftdown 1 c10Heap c10W = some (h', w') ∧ HeapProp h' ∧ Corr h' w') ∧
     (∃ h' w', shiftup 1 c10Heap c10W = some (h', w') ∧ HeapProp h' ∧ Corr h' w') ∧
     (∃ h' w', update 1 ((5, 7), ()) c10Heap c10W = some (h', w') ∧ HeapProp h' ∧ Corr h' w') ∧
     (∃ h' w', remove 1 c10Heap c10W = some (h', w') ∧ HeapProp h' ∧ Corr h' w')) := by
  refine ⟨?_, ?_, ?_, ?_, ?_, ?_⟩
  · decide
  · decide
  · decide
  · decide
  · decide
  · exact C10_heap_position_index_consistency c10Heap c10W 1 ((5, 7), ())
      (by decide) (by decide) (by decide) (by decide) (by decide)

end MathicsClusters

namespace MathicsClusters

/-! ### The agglomerative engine `agglomerate` (lines 609-870). -/

variable {K R π : Type}

/-- A distance provider as `agglomerate` consumes it (only `matrix()` is
called). -/
inductive AggProvider (K R : Type) where
  | pre (p : PrecomputedDistances K)
  | lazy (L : LazyDistances K R)

/-- Dispatch of `distances.matrix()`. -/
def AggProvider.matrix : AggProvider K R → Except String (List K)
  | .pre p => p.matrix
  | .lazy L => L.matrix

/-- The `k` argument of `agglomerate`: a fixed cluster count, or the
`(AutomaticMergeCriterion, kwargs)` pair (the module's only built-in merge
criterion, `_DunnMergeCriterion`, whose sole keyword option is
`merge_limit`). -/
inductive AggK (K : Type) where
  | fixed (k : ℤ)
  | auto (merge_limit : Option K)

/-- The result of `agglomerate`/`optimize`: a list of clusters of points, or
the per-point cluster-id array of `mode='components'`. -/
inductive ClusterResult (π : Type) where
  | clustersRes (cs : List (List π))
  | componentsRes (cs : List ℕ)
  deriving DecidableEq

/-- State of Python `_DunnMergeCriterion` (lines 625-668). -/
structure DunnState (K : Type) where
  distances : List K
  n : ℕ
  _diameters : List (Option K)
  _max_diameter : K
  _best_dunn : Option (K × K)
  _best_partition : Option (List (List ℕ))
  _merge_limit : Option K

/-- `_DunnMergeCriterion(distances, n, merge_limit)` constructor. -/
def dunnInit [LinearOrderedField K] (distances : List K) (n : ℕ) (merge_limit : Option K) :
    DunnState K :=
  ⟨distances, n, List.replicate n (some 0), 0, none, none, merge_limit⟩

/-- `MergeCriterion._fast_distance()` lookup. -/
def fastDistance (distances : List K) (x y : ℕ) : Option K :=
  distances[_index (max x y) (min x y)]?

/-- Truthy filter `[c[:] for c in clusters if c]`: drops `None` tombstones
and (vacuously, they never occur live) empty lists. -/
def truthyClusters (clusters : List (Option (List ℕ))) : List (List ℕ) :=
  clusters.filterMap (fun c => match c with
    | none => none
    | some l => if l = [] then none else some l)

/-- `max(distance(x, y) for x in clusters[i] for y in clusters[j])`
(`none` on an empty product — Python `ValueError` — or an out-of-range
matrix read). -/
def maxCrossDistance [LinearOrderedField K] (distances : List K) (ci cj : List ℕ) :
    Option K := do
  let ds ← (ci.flatMap (fun x => cj.map (fun y => (x, y)))).mapM
    (fun xy => fastDistance distances xy.1 xy.2)
  ds.max?

/-- The diameter update on the accepted-merge path of `save_and_merge`
(lines 659-668). -/
def DunnState.mergeStep [LinearOrderedField K] (st1 : DunnState K)
    (clusters : List (Option (List ℕ))) (i j : ℕ) : Option (Bool × DunnState K) := do
  let ci ← ← clusters[i]?
  let cj ← ← clusters[j]?
  let new_diameter ← maxCrossDistance st1.distances ci cj
  let di ← ← st1._diameters[i]?
  let dj ← ← st1._diameters[j]?
  let d := max (max di dj) new_diameter
  let diameters := (st1._diameters.set i (some d)).set j none
  some (true, { st1 with
    _diameters := diameters
    _max_diameter := max st1._max_diameter d })

/-- Python `_DunnMergeCriterion.save_and_merge(clusters, i, j, d_min)`
(lines 646-668): record the current partition when its Dunn ratio beats the
best seen; refuse the merge past `merge_limit`; otherwise update the merged
cluster diameters via `mergeStep` and proceed. -/
def DunnState.save_and_merge [LinearOrderedField K] (st : DunnState K)
    (clusters : List (Option (List ℕ))) (i j : ℕ) (d_min : K) :
    Option (Bool × DunnState K) := do
  let dunn := (d_min, st._max_diameter)
  let st1 :=
    if st._best_dunn.isNone ∨ (∃ b, st._best_dunn = some b ∧ _ratio_bigger_than dunn b) then
      { st with
        _best_partition := some (truthyClusters clusters)
        _best_dunn := if 0 < st._max_diameter then some dunn else st._best_dunn }
    else st
  match st1._merge_limit with
  | some lim =>
    if lim < d_min then
      some (false, st1)
    else st1.mergeStep clusters i j
  | none => st1.mergeStep clusters i j

/-- The pair-id decoding table
`lookup = [(i, j) for i in range(n) for j in range(i)]` (line 805); the
`pairs` payload list (line 804) follows the same layout. -/
def lookupList (n : ℕ) : List (ℕ × ℕ) :=
  (List.range n).flatMap (fun i => (List.range i).map (fun j => (i, j)))

/-- Python truthiness of `clusters[r]` (`None` and the empty list are both
falsy; in runs started from `agglomerate` a live cluster is never empty). -/
def liveAt (clusters : List (Option (List ℕ))) (r : ℕ) : Bool :=
  match clusters[r]? with
  | some (some (_ :: _)) => true
  | _ => false

/-- Python `unmerged_pairs(i, j, n)` (lines 771-788), materialized in yield
order: pair indices `_index(i, r)` for live `r < i`, then `_index(r, i)` for
live `r > i`, skipping `j`. -/
def unmergedPairs (clusters : List (Option (List ℕ))) (i j n : ℕ) : List ℕ :=
  ((List.range i).filter (fun r => decide (r ≠ j) && liveAt clusters r)).map
    (fun r => _index i r) ++
  ((List.range' (i + 1) (n - (i + 1))).filter
    (fun r => decide (r ≠ j) && liveAt clusters r)).map
    (fun r => _index r i)

/-- Guarded read of the `where` list (Python `where[p]`, `IndexError` out of
range; `wlen = len(triangular_distance_matrix)`). -/
def wread (w : ℕ → ℕ) (wlen p : ℕ) : Option ℕ :=
  if p < wlen then some (w p) else none

/-- The loop state of `reduce()`. -/
structure AggState (K π : Type) where
  clusters : List (Option (List ℕ))
  heap : List (HeapEntry K (Option π × Option π))
  w : ℕ → ℕ
  n_clusters : ℕ
  dominant : Option (List (Option ℕ))
  criterion : Option (DunnState K)

/-- The `for a, b in zip(unmerged_pairs(i, j, n), unmerged_pairs(j, i, n))`
loop (lines 838-844): single-linkage re-keying of the surviving pair `a`
with the minimum of the two old distances, removing pair `b`. -/
def aggPairLoop [LinearOrderedField K] (wlen : ℕ) :
    List (ℕ × ℕ) → List (HeapEntry K (Option π × Option π)) → (ℕ → ℕ) →
      Option (List (HeapEntry K (Option π × Option π)) × (ℕ → ℕ))
  | [], heap, w => some (heap, w)
  | ab :: rest, heap, w => do
    let sb ← wread w wlen ab.2
    let eb ← heap[sb]?
    let hw1 ← remove sb heap w
    let sa ← wread hw1.2 wlen ab.1
    let ea ← hw1.1[sa]?
    if eb.1.1 < ea.1.1 then do
      let hw2 ← update sa ((eb.1.1, ea.1.2), eb.2) hw1.1 hw1.2
      aggPairLoop wlen rest hw2.1 hw2.2
    else
      aggPairLoop wlen rest hw1.1 hw1.2

/-- The criterion consultation of one merge step (line 833): absent
criterion proceeds, otherwise `save_and_merge` decides. -/
def aggCritStep [LinearOrderedField K] (clusters : List (Option (List ℕ)))
    (criterion : Option (DunnState K)) (i j : ℕ) (d : K) :
    Option (Bool × Option (DunnState K)) :=
  match criterion with
  | none => some (true, none)
  | some ds => do
    let pr ← ds.save_and_merge clusters i j d
    some (pr.1, some pr.2)

/-- The dominant-representative update of one merge step (lines 846-849):
`if dominant: if len(clusters[j]) > len(clusters[i]): dominant[i] =
dominant[j]; dominant[j] = None`. -/
def aggDomStep (dominant : Option (List (Option ℕ))) (ci cj : List ℕ) (i j : ℕ) :
    Option (Option (List (Option ℕ))) :=
  match dominant with
  | none => some none
  | some dl =>
    if dl = [] then some (some dl)
    else do
      let dl1 ←
        if ci.length < cj.length then do
          let dlj ← dl[j]?
          some (dl.set i dlj)
        else some dl
      some (some (dl1.set j none))

/-- One iteration of the merge loop of `reduce()` (lines 825-854).  Returns
`(stop, st')` where `stop` signals the `break` on a refused merge. -/
def aggBody [LinearOrderedField K] (n wlen : ℕ) (lookup : List (ℕ × ℕ))
    (st : AggState K π) : Option (Bool × AggState K π) := do
  let e0 ← st.heap[0]?
  let d := e0.1.1
  let p := e0.1.2
  let ij ← lookup[p]?
  let i := if ij.2 < ij.1 then ij.2 else ij.1
  let j := if ij.2 < ij.1 then ij.1 else ij.2
  let critStep ← aggCritStep st.clusters st.criterion i j d
  if critStep.1 = false then
    some (true, { st with criterion := critStep.2 })
  else do
    let sp ← wread st.w wlen p
    let hw1 ← remove sp st.heap st.w
    let ab := (unmergedPairs st.clusters i j n).zip (unmergedPairs st.clusters j i n)
    let hw2 ← aggPairLoop wlen ab hw1.1 hw1.2
    let ci ← ← st.clusters[i]?
    let cj ← ← st.clusters[j]?
    let dominant' ← aggDomStep st.dominant ci cj i j
    let clusters' := (st.clusters.set i (some (ci ++ cj))).set j none
    some (false, { st with
      clusters := clusters'
      heap := hw2.1
      w := hw2.2
      n_clusters := st.n_clusters - 1
      dominant := dominant'
      criterion := critStep.2 })

/-- The `while len(heap) > 0 and n_clusters > n_clusters_target` loop. -/
def aggLoop [LinearOrderedField K] (n wlen : ℕ) (lookup : List (ℕ × ℕ)) (target : ℤ) :
    ℕ → AggState K π → Option (AggState K π)
  | 0, _ => none
  | fuel + 1, st =>
    if 0 < st.heap.length ∧ target < (st.n_clusters : ℤ) then do
      let step ← aggBody n wlen lookup st
      if step.1 then some step.2
      else aggLoop n wlen lookup target fuel step.2
    else some st

/-- The initial heapify `for s in range(len(heap) // 2 - 1, -1, -1):
shiftdown(s, heap, where)` (lines 811-812). -/
def aggHeapify [LinearOrderedField K] :
    List ℕ → List (HeapEntry K (Option π × Option π)) → (ℕ → ℕ) →
      Option (List (HeapEntry K (Option π × Option π)) × (ℕ → ℕ))
  | [], heap, w => some (heap, w)
  | s :: rest, heap, w => do
    let hw ← shiftdown s heap w
    aggHeapify rest hw.1 hw.2

/-- Finalization of `reduce()` (lines 856-868): `criterion.best`, the truthy
filter, member sort, cluster sort by first member, and mode rendering.  For
`mode='dominant'` every call fails before returning (`sorted` over the
representative integers raises `TypeError` when the list is non-empty, and
the final mode dispatch raises `ValueError` otherwise), so the embedded
finalization is `none` there. -/
def aggFinal [LinearOrderedField K] (points : List π) (n : ℕ) (mode : String)
    (st : AggState K π) : Option (ClusterResult π) := do
  if mode = "dominant" then none
  else do
    let base ← match st.criterion with
      | some ds => ds._best_partition
      | none => some (truthyClusters st.clusters)
    let sortedMembers := base.map (fun c => List.insertionSort (fun x y : ℕ => x ≤ y) c)
    let result := List.insertionSort
      (fun c1 c2 : List ℕ => c1.headD 0 ≤ c2.headD 0)
      (sortedMembers.filterMap (fun c => if c = [] then none else some c))
    if mode = "components" then
      some (.componentsRes (_components result n))
    else do
      let cs ← result.mapM (fun c => c.mapM (fun i => points[i]?))
      some (.clustersRes cs)

/-- Python `agglomerate(points, k, distances, mode)` (lines 674-870). -/
def agglomerate [LinearOrderedField K] (points : List π) (k : AggK K)
    (distances : AggProvider K R) (mode : String) : Option (ClusterResult π) := do
  let n := points.length
  let clusters0 : List (Option (List ℕ)) := (List.range n).map (fun i => some [i])
  let tdm ← distances.matrix.toOption
  let crit : Option (DunnState K) := match k with
    | .auto ml => some (dunnInit tdm n ml)
    | .fixed _ => none
  let target : ℤ := match k with
    | .auto _ => 1
    | .fixed kk => kk
  let lookup := lookupList n
  let pairs : List (Option π × Option π) :=
    lookup.map (fun ij => (points[ij.1]?, points[ij.2]?))
  let w0 : ℕ → ℕ := fun p => p
  let heap0 := ((tdm.zip (List.range tdm.length)).zip pairs).map
    (fun x => ((x.1.1, x.1.2), x.2))
  let hw ← aggHeapify ((List.range (heap0.length / 2)).reverse) heap0 w0
  let dominant0 : Option (List (Option ℕ)) ←
    if mode = "dominant" then some (some ((List.range n).map some))
    else if mode = "clusters" ∨ mode = "components" then some none
    else none
  let st0 : AggState K π :=
    ⟨clusters0, hw.1, hw.2, n, dominant0, crit⟩
  let stf ← aggLoop n tdm.length lookup target (hw.1.length + 1) st0
  aggFinal points n mode stf

end MathicsClusters

namespace MathicsClusters

/-! ### Arithmetic of the triangular pair index, and the decoding table. -/

theorem _index_eq_choose (i j : ℕ) : _index i j = j + i.choose 2 := by
  rw [_index, Nat.choose_two_right, Nat.mul_comm]

theorem choose_two_succ (i : ℕ) : (i + 1).choose 2 = i + i.choose 2 := by
  rw [Nat.choose_succ_succ, Nat.choose_one_right]

theorem _index_lt_choose_succ {i j : ℕ} (h : j < i) : _index i j < (i + 1).choose 2 := by
  rw [_index_eq_choose, choose_two_succ]
  omega

theorem _index_lt_choose {i j n : ℕ} (h : j < i) (hn : i < n) : _index i j < n.choose 2 := by
  have h1 := _index_lt_choose_succ h
  have h2 : (i + 1).choose 2 ≤ n.choose 2 := Nat.choose_le_choose 2 hn
  omega

theorem _index_inj {i j i₂ j₂ : ℕ} (h : j < i) (h₂ : j₂ < i₂)
    (heq : _index i j = _index i₂ j₂) : i = i₂ ∧ j = j₂ := by
  rcases lt_trichotomy i i₂ with hlt | heqi | hgt
  · exact absurd heq (by
      have := _index_lt_choose h hlt
      rw [_index_eq_choose i₂ j₂]
      omega)
  · subst heqi
    rw [_index_eq_choose, _index_eq_choose] at heq
    omega
  · exact absurd heq.symm (by
      have := _index_lt_choose h₂ hgt
      rw [_index_eq_choose i j]
      omega)

theorem lookupList_succ (n : ℕ) :
    lookupList (n + 1) = lookupList n ++ (List.range n).map (fun j => (n, j)) := by
  rw [lookupList, lookupList, List.range_succ, List.flatMap_append]
  simp

theorem lookupList_map_index (n : ℕ) :
    (lookupList n).map (fun ij => _index ij.1 ij.2) = List.range (n.choose 2) := by
  induction n with
  | zero => rfl
  | succ n ih =>
    rw [lookupList_succ, List.map_append, ih, List.map_map, choose_two_succ,
      Nat.add_comm n (n.choose 2), List.range_add]
    congr 1
    apply List.map_congr_left
    intro j _
    simp [Function.comp, _index_eq_choose, Nat.add_comm]

theorem lookupList_length (n : ℕ) : (lookupList n).length = n.choose 2 := by
  have := congrArg List.length (lookupList_map_index n)
  simpa using this

theorem lookupList_nodup (n : ℕ) : (lookupList n).Nodup := by
  have h : ((lookupList n).map (fun ij => _index ij.1 ij.2)).Nodup := by
    rw [lookupList_map_index]
    exact List.nodup_range _
  exact h.of_map _

theorem mem_lookupList {n : ℕ} {ij : ℕ × ℕ} :
    ij ∈ lookupList n ↔ ij.2 < ij.1 ∧ ij.1 < n := by
  cases ij with
  | mk i j =>
    simp only [lookupList, List.mem_flatMap, List.mem_map, List.mem_range]
    constructor
    · rintro ⟨a, ha, b, hb, heq⟩
      obtain ⟨h1, h2⟩ := Prod.mk.injEq .. ▸ heq
      cases heq
      exact ⟨hb, ha⟩
    · rintro ⟨h1, h2⟩
      exact ⟨i, h2, j, h1, rfl⟩

theorem lookupList_getElem {n i j : ℕ} (h : j < i) (hn : i < n) :
    (lookupList n)[_index i j]? = some (i, j) := by
  induction n with
  | zero => omega
  | succ n ih =>
    rw [lookupList_succ]
    rcases Nat.lt_or_ge i n with hin | hin
    · rw [List.getElem?_append_left]
      · exact ih hin
      · rw [lookupList_length]
        exact _index_lt_choose h hin
    · have hieq : i = n := by omega
      subst hieq
      have hlen : (lookupList i).length = i.choose 2 := lookupList_length i
      have hge : (lookupList i).length ≤ _index i j := by
        rw [hlen, _index_eq_choose]
        omega
      rw [List.getElem?_append_right hge, hlen]
      have hsub : _index i j - i.choose 2 = j := by
        rw [_index_eq_choose]
        omega
      rw [hsub, List.getElem?_map, List.getElem?_range h]
      rfl

end MathicsClusters

namespace MathicsClusters

/-! ### Cluster membership bookkeeping for the partition invariant. -/

/-- All point indexes stored across the cluster slots (`None` contributing
nothing). -/
def allMembers (cl : List (Option (List ℕ))) : List ℕ :=
  cl.flatMap (fun c => c.getD [])

theorem truthyClusters_flatten (cl : List (Option (List ℕ))) :
    (truthyClusters cl).flatten = allMembers cl := by
  induction cl with
  | nil => rfl
  | cons c rest ih =>
    cases c with
    | none => simpa [truthyClusters, allMembers] using ih
    | some l =>
      by_cases hl : l = []
      · subst hl
        simpa [truthyClusters, allMembers] using ih
      · simp only [truthyClusters, allMembers, List.filterMap_cons, List.flatMap_cons, if_neg hl]
        rw [List.flatten_cons]
        simp only [truthyClusters, allMembers] at ih
        rw [ih]
        rfl

theorem flatMap_set_perm {α β : Type} (f : α → List β) :
    ∀ (l : List α) (i : ℕ) (a b : α), l[i]? = some b →
      ((l.set i a).flatMap f ++ f b).Perm (l.flatMap f ++ f a)
  | x :: xs, 0, a, b, hb => by
    have hxb : x = b := by
      rw [List.getElem?_cons_zero] at hb
      exact Option.some_inj.mp hb
    subst hxb
    simp only [List.set_cons_zero, List.flatMap_cons]
    refine List.perm_append_comm.trans ?_
    rw [List.append_assoc]
    exact List.perm_append_comm.append_left (f x)
  | x :: xs, i + 1, a, b, hb => by
    have hb2 : xs[i]? = some b := by
      rw [List.getElem?_cons_succ] at hb
      exact hb
    have hp := flatMap_set_perm f xs i a b hb2
    simp only [List.set_cons_succ, List.flatMap_cons]
    rw [List.append_assoc, List.append_assoc]
    exact List.Perm.append_left (f x) (by simpa using hp)

end MathicsClusters

namespace MathicsClusters

/-! ### Live pairs: the identifiers the reduce loop keeps in its heap. -/

/-- The pair identifiers of all pairs of live clusters. -/
def livePairs (cl : List (Option (List ℕ))) (n : ℕ) : List ℕ :=
  ((lookupList n).filter (fun ij => liveAt cl ij.1 && liveAt cl ij.2)).map
    (fun ij => _index ij.1 ij.2)

/-- The indexes `r` of live clusters other than `i` and `j`, in increasing
order: the common enumeration behind both `unmerged_pairs` generators of one
merge step. -/
def commonFilter (cl : List (Option (List ℕ))) (i j n : ℕ) : List ℕ :=
  (List.range n).filter (fun r => decide (r ≠ i) && (decide (r ≠ j) && liveAt cl r))

theorem mem_commonFilter {cl : List (Option (List ℕ))} {i j n r : ℕ} :
    r ∈ commonFilter cl i j n ↔ r < n ∧ r ≠ i ∧ r ≠ j ∧ liveAt cl r = true := by
  simp [commonFilter, and_assoc]

theorem commonFilter_nodup (cl : List (Option (List ℕ))) (i j n : ℕ) :
    (commonFilter cl i j n).Nodup :=
  (List.nodup_range n).filter _

theorem commonFilter_comm (cl : List (Option (List ℕ))) (i j n : ℕ) :
    commonFilter cl j i n = commonFilter cl i j n := by
  apply List.filter_congr
  intro r _
  cases hri : decide (r ≠ i) <;> cases hrj : decide (r ≠ j) <;> simp [hri, hrj]

theorem mem_livePairs {cl : List (Option (List ℕ))} {n p : ℕ} :
    p ∈ livePairs cl n ↔
      ∃ i j, j < i ∧ i < n ∧ liveAt cl i = true ∧ liveAt cl j = true ∧ p = _index i j := by
  simp only [livePairs, List.mem_map, List.mem_filter, Bool.and_eq_true]
  constructor
  · rintro ⟨⟨i, j⟩, ⟨hmem, hli, hlj⟩, heq⟩
    obtain ⟨hji, hin⟩ := mem_lookupList.mp hmem
    exact ⟨i, j, hji, hin, hli, hlj, heq.symm⟩
  · rintro ⟨i, j, hji, hin, hli, hlj, heq⟩
    exact ⟨(i, j), ⟨mem_lookupList.mpr ⟨hji, hin⟩, hli, hlj⟩, heq.symm⟩

theorem livePairs_nodup (cl : List (Option (List ℕ))) (n : ℕ) :
    (livePairs cl n).Nodup := by
  apply List.Nodup.map_on
  · intro x hx y hy heq
    obtain ⟨hxl, -⟩ := List.mem_filter.mp hx
    obtain ⟨hyl, -⟩ := List.mem_filter.mp hy
    obtain ⟨hx1, -⟩ := mem_lookupList.mp hxl
    obtain ⟨hy1, -⟩ := mem_lookupList.mp hyl
    obtain ⟨h1, h2⟩ := _index_inj hx1 hy1 heq
    exact Prod.ext h1 h2
  · exact (lookupList_nodup n).filter _

theorem livePairs_lt {cl : List (Option (List ℕ))} {n p : ℕ} (hp : p ∈ livePairs cl n) :
    p < n.choose 2 := by
  obtain ⟨i, j, hji, hin, -, -, heq⟩ := mem_livePairs.mp hp
  exact heq ▸ _index_lt_choose hji hin

theorem _index_maxmin {u v : ℕ} (h : v < u) :
    _index (max u v) (min u v) = _index u v := by
  rw [Nat.max_eq_left (le_of_lt h), Nat.min_eq_right (le_of_lt h)]

theorem _index_pair_inj {a r b s : ℕ} (h1 : a ≠ r) (h2 : b ≠ s)
    (heq : _index (max a r) (min a r) = _index (max b s) (min b s)) :
    (a = b ∧ r = s) ∨ (a = s ∧ r = b) := by
  have hlt1 : min a r < max a r := min_lt_max.mpr h1
  have hlt2 : min b s < max b s := min_lt_max.mpr h2
  obtain ⟨hmax, hmin⟩ := _index_inj hlt1 hlt2 heq
  omega

end MathicsClusters

namespace MathicsClusters

theorem unmergedPairs_eq {cl : List (Option (List ℕ))} {i j n : ℕ} (hi : i < n) :
    unmergedPairs cl i j n =
      (commonFilter cl i j n).map (fun r => _index (max i r) (min i r)) := by
  have hsplit : List.range n = List.range i ++ List.range' i (n - i) := by
    rw [List.range_eq_range', List.range_eq_range']
    have h := List.range'_append 0 i (n - i) 1
    rw [one_mul, Nat.zero_add] at h
    have h2 : n - i + i = n := by omega
    rw [h2] at h
    exact h.symm
  have hcons : List.range' i (n - i) = i :: List.range' (i + 1) (n - (i + 1)) := by
    have hn : n - i = (n - (i + 1)) + 1 := by omega
    rw [hn, List.range'_succ]
  rw [commonFilter, hsplit, hcons, List.filter_append, List.filter_cons, List.map_append]
  have hati : (decide (i ≠ i) && (decide (i ≠ j) && liveAt cl i)) = false := by simp
  rw [hati]
  simp only [Bool.false_eq_true, if_false]
  unfold unmergedPairs
  congr 1
  · rw [List.filter_congr (fun r hr => ?_), List.map_congr_left (fun r hr => ?_)]
    · have hr' : r < i := by
        have := List.mem_filter.mp hr
        exact List.mem_range.mp this.1
      rw [Nat.max_eq_left (le_of_lt hr'), Nat.min_eq_right (le_of_lt hr')]
    · have hr' : r < i := List.mem_range.mp hr
      have : decide (r ≠ i) = true := by simp; omega
      rw [this, Bool.true_and]
  · rw [List.filter_congr (fun r hr => ?_), List.map_congr_left (fun r hr => ?_)]
    · have hr' : i < r := by
        have := List.mem_filter.mp hr
        have hm := List.mem_range'_1.mp this.1
        omega
      rw [Nat.max_eq_right (le_of_lt hr'), Nat.min_eq_left (le_of_lt hr')]
    · have hr' : i < r := by
        have hm := List.mem_range'_1.mp hr
        omega
      have : decide (r ≠ i) = true := by simp; omega
      rw [this, Bool.true_and]

/-- The zipped double `unmerged_pairs` traversal of one merge step, as a
single map over the common live-index enumeration. -/
theorem unmergedPairs_zip {cl : List (Option (List ℕ))} {i j n : ℕ}
    (hi : i < n) (hj : j < n) :
    (unmergedPairs cl i j n).zip (unmergedPairs cl j i n) =
      (commonFilter cl i j n).map
        (fun r => (_index (max i r) (min i r), _index (max j r) (min j r))) := by
  rw [unmergedPairs_eq hi, unmergedPairs_eq hj, commonFilter_comm, List.zip_map']

end MathicsClusters

namespace MathicsClusters

theorem _index_of_pair {u v a b : ℕ} (hvu : v < u)
    (hset : (u = a ∧ v = b) ∨ (u = b ∧ v = a)) :
    _index u v = _index (max a b) (min a b) := by
  rcases hset with ⟨h1, h2⟩ | ⟨h1, h2⟩
  · subst h1; subst h2
    rw [Nat.max_eq_left (le_of_lt hvu), Nat.min_eq_right (le_of_lt hvu)]
  · subst h1; subst h2
    rw [Nat.max_eq_right (le_of_lt hvu), Nat.min_eq_left (le_of_lt hvu)]

/-- One merge step from the live-pair point of view: killing live index `b`
(with `a` the live index it merges into) splits the live pairs into the
merged pair itself, the pairs joining `b` to the other live indexes, and the
live pairs of the updated cluster table `cl₂`. -/
theorem livePairs_split {cl cl₂ : List (Option (List ℕ))} {a b n : ℕ}
    (hab : a ≠ b) (ha : a < n) (hb : b < n)
    (hla : liveAt cl a = true) (hlb : liveAt cl b = true)
    (h₂a : liveAt cl₂ a = true) (h₂b : liveAt cl₂ b = false)
    (h₂ : ∀ r, r ≠ a → r ≠ b → liveAt cl₂ r = liveAt cl r) :
    (livePairs cl n).Perm
      (_index (max a b) (min a b) ::
        ((commonFilter cl a b n).map (fun r => _index (max b r) (min b r)) ++
          livePairs cl₂ n)) := by
  have hlive2 : ∀ u, liveAt cl₂ u = true → u ≠ b ∧ liveAt cl u = true := by
    intro u hu
    have hub : u ≠ b := by
      intro h
      rw [h, h₂b] at hu
      exact Bool.false_ne_true hu
    refine ⟨hub, ?_⟩
    by_cases hua : u = a
    · rw [hua]; exact hla
    · rw [← h₂ u hua hub]; exact hu
  have hliveMax : liveAt cl (max a b) = true := by
    rcases le_total a b with h | h
    · rw [Nat.max_eq_right h]; exact hlb
    · rw [Nat.max_eq_left h]; exact hla
  have hliveMin : liveAt cl (min a b) = true := by
    rcases le_total a b with h | h
    · rw [Nat.min_eq_left h]; exact hla
    · rw [Nat.min_eq_right h]; exact hlb
  have hbmap : ∀ x, x ∈ (commonFilter cl a b n).map (fun r => _index (max b r) (min b r)) ↔
      ∃ r, r < n ∧ r ≠ a ∧ r ≠ b ∧ liveAt cl r = true ∧ x = _index (max b r) (min b r) := by
    intro x
    simp only [List.mem_map]
    constructor
    · rintro ⟨r, hr, heq⟩
      obtain ⟨h1, h2, h3, h4⟩ := mem_commonFilter.mp hr
      exact ⟨r, h1, h2, h3, h4, heq.symm⟩
    · rintro ⟨r, h1, h2, h3, h4, heq⟩
      exact ⟨r, mem_commonFilter.mpr ⟨h1, h2, h3, h4⟩, heq.symm⟩
  apply (List.perm_ext_iff_of_nodup (livePairs_nodup cl n) ?_).mpr
  · intro x
    rw [mem_livePairs, List.mem_cons, List.mem_append, hbmap, mem_livePairs]
    constructor
    · rintro ⟨u, v, hvu, hun, hlu, hlv, rfl⟩
      have hvn : v < n := lt_trans hvu hun
      by_cases hub : u = b
      · by_cases hva : v = a
        · exact Or.inl (_index_of_pair hvu (Or.inr ⟨hub, hva⟩))
        · refine Or.inr (Or.inl ⟨v, hvn, hva, by omega, hlv, ?_⟩)
          exact _index_of_pair hvu (Or.inl ⟨hub, rfl⟩)
      · by_cases hvb : v = b
        · by_cases hua : u = a
          · exact Or.inl (_index_of_pair hvu (Or.inl ⟨hua, hvb⟩))
          · refine Or.inr (Or.inl ⟨u, hun, hua, hub, hlu, ?_⟩)
            exact _index_of_pair hvu (Or.inr ⟨rfl, hvb⟩)
        · refine Or.inr (Or.inr ⟨u, v, hvu, hun, ?_, ?_, rfl⟩)
          · by_cases hua : u = a
            · rw [hua]; exact h₂a
            · rw [h₂ u hua hub]; exact hlu
          · by_cases hva : v = a
            · rw [hva]; exact h₂a
            · rw [h₂ v hva hvb]; exact hlv
    · rintro (heq | ⟨r, h1, h2, h3, h4, heq⟩ | ⟨u, v, hvu, hun, hlu, hlv, rfl⟩)
      · exact ⟨max a b, min a b, min_lt_max.mpr hab, max_lt ha hb, hliveMax, hliveMin, heq⟩
      · refine ⟨max b r, min b r, min_lt_max.mpr (Ne.symm h3), max_lt hb h1, ?_, ?_, heq⟩
        · rcases le_total b r with h | h
          · rw [Nat.max_eq_right h]; exact h4
          · rw [Nat.max_eq_left h]; exact hlb
        · rcases le_total b r with h | h
          · rw [Nat.min_eq_left h]; exact hlb
          · rw [Nat.min_eq_right h]; exact h4
      · obtain ⟨hub, hlu'⟩ := hlive2 u hlu
        obtain ⟨hvb, hlv'⟩ := hlive2 v hlv
        exact ⟨u, v, hvu, hun, hlu', hlv', rfl⟩
  · refine List.nodup_cons.mpr ⟨?_, List.Nodup.append ?_ (livePairs_nodup cl₂ n) ?_⟩
    · intro hmem
      rcases List.mem_append.mp hmem with hm | hm
      · obtain ⟨r, hr, heq⟩ := List.mem_map.mp hm
        obtain ⟨-, h2, h3, -⟩ := mem_commonFilter.mp hr
        rcases _index_pair_inj (Ne.symm h3) hab heq with ⟨hx, -⟩ | ⟨-, hy⟩
        · exact hab hx.symm
        · exact h2 hy
      · obtain ⟨u, v, hvu, hun, hlu, hlv, heq⟩ := mem_livePairs.mp hm
        have huv : u ≠ v := by omega
        rw [← _index_maxmin hvu] at heq
        rcases _index_pair_inj hab huv heq with ⟨-, hy⟩ | ⟨-, hy⟩
        · obtain ⟨hvb, -⟩ := hlive2 v hlv
          exact hvb hy.symm
        · obtain ⟨hub, -⟩ := hlive2 u hlu
          exact hub hy.symm
    · apply List.Nodup.map_on ?_ (commonFilter_nodup cl a b n)
      intro x hx y hy heq
      obtain ⟨-, -, hxb, -⟩ := mem_commonFilter.mp hx
      obtain ⟨-, -, hyb, -⟩ := mem_commonFilter.mp hy
      rcases _index_pair_inj (Ne.symm hxb) (Ne.symm hyb) heq with ⟨-, hy'⟩ | ⟨hx', -⟩
      · exact hy'
      · exact absurd hx'.symm hyb
    · intro x hx hx2
      obtain ⟨r, hr, heq⟩ := List.mem_map.mp hx
      obtain ⟨-, -, h3, -⟩ := mem_commonFilter.mp hr
      obtain ⟨u, v, hvu, hun, hlu, hlv, heq2⟩ := mem_livePairs.mp hx2
      have huv : u ≠ v := by omega
      rw [← heq] at heq2
      rw [← _index_maxmin hvu] at heq2
      rcases _index_pair_inj (Ne.symm h3) huv heq2 with ⟨hx', -⟩ | ⟨hy', -⟩
      · obtain ⟨hub, -⟩ := hlive2 u hlu
        exact hub hx'.symm
      · obtain ⟨hvb, -⟩ := hlive2 v hlv
        exact hvb hy'.symm

end MathicsClusters

namespace MathicsClusters

variable {β π : Type}

/-! ### Totality of the heap phases of the reduce loop. -/

theorem corr_slot (heap : List (HeapEntry β π)) (w : ℕ → ℕ) (hcorr : Corr heap w) {p : ℕ}
    (hp : p ∈ heap.map hid) :
    ∃ ht : w p < heap.length, hid (heap.get ⟨w p, ht⟩) = p := by
  obtain ⟨t, ht, heq⟩ := List.mem_iff_getElem.mp hp
  have htl : t < heap.length := by simpa using ht
  have hidt : hid (heap.get ⟨t, htl⟩) = p := by
    rw [List.get_eq_getElem, ← List.getElem_map hid]
    exact heq
  have hw : w p = t := by
    have := hcorr t htl
    rw [hidt] at this
    exact this
  rw [hw]
  exact ⟨htl, hidt⟩

theorem freshOff_of_nodup {heap : List (HeapEntry β π)} (hnd : (heap.map hid).Nodup)
    (t : ℕ) (ht : t < heap.length) :
    FreshOff heap t (hid (heap.get ⟨t, ht⟩)) := by
  intro s hs hst heq
  have hinj := List.nodup_iff_injective_get.mp hnd
  have hsl : s < (heap.map hid).length := by simpa using hs
  have htl : t < (heap.map hid).length := by simpa using ht
  have : (heap.map hid).get ⟨s, hsl⟩ = (heap.map hid).get ⟨t, htl⟩ := by
    simp only [List.get_eq_getElem, List.getElem_map]
    simpa [List.get_eq_getElem] using heq
  have := hinj this
  exact hst (by simpa using congrArg Fin.val this)

theorem corr_except_of_corr {heap : List (HeapEntry β π)} {w : ℕ → ℕ}
    (hcorr : Corr heap w) (s : ℕ) : CorrExcept heap w s :=
  fun t ht _ => hcorr t ht

end MathicsClusters

namespace MathicsClusters

variable {K R π : Type}

theorem aggHeapify_spec [LinearOrderedField K] (slots : List ℕ) :
    ∀ (heap : List (HeapEntry K (Option π × Option π))) (w : ℕ → ℕ),
      (∀ s ∈ slots, s < heap.length) → Corr heap w →
      ∃ h' w', aggHeapify slots heap w = some (h', w') ∧ h'.length = heap.length ∧
        (h'.map hid).Perm (heap.map hid) ∧ Corr h' w' := by
  induction slots with
  | nil =>
    intro heap w _ hcorr
    exact ⟨heap, w, rfl, rfl, List.Perm.refl _, hcorr⟩
  | cons s rest ih =>
    intro heap w hlt hcorr
    have hs : s < heap.length := hlt s (List.mem_cons_self ..)
    obtain ⟨h1, w1, hrun, hlen, hperm, hcorr1⟩ :=
      shiftdown_spec s heap w hs (corr_except_of_corr hcorr s)
        (by
          intro t ht hts
          exact fun heq => hts ((hcorr t ht).symm.trans ((congrArg w heq).trans (hcorr s hs)) |>.symm ▸ rfl))
        (hcorr s hs)
    obtain ⟨h2, w2, hrun2, hlen2, hperm2, hcorr2⟩ :=
      ih h1 w1 (by intro t htm; rw [hlen]; exact hlt t (List.mem_cons_of_mem _ htm)) hcorr1
    refine ⟨h2, w2, ?_, hlen2.trans hlen, hperm2.trans hperm, hcorr2⟩
    rw [aggHeapify, hrun]
    exact hrun2

end MathicsClusters

namespace MathicsClusters

variable {K R π : Type}

theorem nodup_of_corr {β : Type} {heap : List (HeapEntry β π)} {w : ℕ → ℕ}
    (hcorr : Corr heap w) : (heap.map hid).Nodup := by
  apply List.nodup_iff_injective_get.mpr
  intro ⟨s, hs⟩ ⟨t, ht⟩ heq
  have hsl : s < heap.length := by simpa using hs
  have htl : t < heap.length := by simpa using ht
  have heq2 : hid (heap.get ⟨s, hsl⟩) = hid (heap.get ⟨t, htl⟩) := by
    simpa [List.get_eq_getElem, List.getElem_map] using heq
  have := (hcorr s hsl).symm.trans ((congrArg w heq2).trans (hcorr t htl))
  exact Fin.ext (by simpa using this)

theorem set_self_perm {α : Type} (l : List α) (i : ℕ) (v : α) (hi : i < l.length)
    (hv : l.get ⟨i, hi⟩ = v) : (l.set i v).Perm l := by
  rw [List.get_eq_getElem] at hv
  subst hv
  rw [set_getElem_self_eq _ _ hi]

theorem aggPairLoop_spec [LinearOrderedField K] (wlen : ℕ) :
    ∀ (ab : List (ℕ × ℕ)) (heap : List (HeapEntry K (Option π × Option π))) (w : ℕ → ℕ),
      Corr heap w →
      (∀ x ∈ ab, x.1 ∈ heap.map hid ∧ x.2 ∈ heap.map hid ∧ x.1 < wlen ∧ x.2 < wlen) →
      (ab.map Prod.snd).Nodup →
      (∀ x ∈ ab, ∀ y ∈ ab, x.1 ≠ y.2) →
      ∃ h' w', aggPairLoop wlen ab heap w = some (h', w') ∧
        h'.length + ab.length = heap.length ∧
        ((h'.map hid) ++ ab.map Prod.snd).Perm (heap.map hid) ∧
        Corr h' w' := by
  intro ab
  induction ab with
  | nil =>
    intro heap w hcorr _ _ _
    exact ⟨heap, w, rfl, by simp, by simp, hcorr⟩
  | cons hd rest ih =>
    intro heap w hcorr hmem hsnd hcross
    obtain ⟨ha, hb, haw, hbw⟩ := hmem hd (List.mem_cons_self ..)
    have hsnd2 : hd.2 ∉ rest.map Prod.snd ∧ (rest.map Prod.snd).Nodup := by
      apply List.nodup_cons.mp
      rw [← List.map_cons]
      exact hsnd
    obtain ⟨hsb, hidb⟩ := corr_slot heap w hcorr hb
    have hidb2 : hid heap[w hd.2] = hd.2 := by
      simpa [List.get_eq_getElem] using hidb
    have hgetb : heap[w hd.2]? = some (heap.get ⟨w hd.2, hsb⟩) := by
      rw [List.getElem?_eq_getElem hsb]
      simp [List.get_eq_getElem]
    obtain ⟨h1, w1, hrem, hlen1, hperm1, hcorr1⟩ := remove_spec (w hd.2) heap w hsb hcorr
    have hperm1b : (heap.map hid).Perm (hd.2 :: (h1.map hid)) := by
      have h0 := perm_getElem_cons_eraseIdx (heap.map hid) (w hd.2) (by simpa using hsb)
      rw [List.getElem_map, hidb2] at h0
      exact h0.trans (List.Perm.cons hd.2 hperm1.symm)
    have hmem1 : ∀ q, q ∈ heap.map hid → q ≠ hd.2 → q ∈ h1.map hid := by
      intro q hq hqb
      rcases List.mem_cons.mp (hperm1b.mem_iff.mp hq) with h | h
      · exact absurd h hqb
      · exact h
    have hane : hd.1 ≠ hd.2 := hcross hd (List.mem_cons_self ..) hd (List.mem_cons_self ..)
    have ha1 : hd.1 ∈ h1.map hid := hmem1 hd.1 ha hane
    obtain ⟨hsa, hida⟩ := corr_slot h1 w1 hcorr1 ha1
    have hgeta : h1[w1 hd.1]? = some (h1.get ⟨w1 hd.1, hsa⟩) := by
      rw [List.getElem?_eq_getElem hsa]
      simp [List.get_eq_getElem]
    have hrest : ∀ (h2 : List (HeapEntry K (Option π × Option π))) (w2 : ℕ → ℕ),
        Corr h2 w2 → (h2.map hid).Perm (h1.map hid) →
        ∃ h' w', aggPairLoop wlen rest h2 w2 = some (h', w') ∧
          h'.length + rest.length = h2.length ∧
          ((h'.map hid) ++ rest.map Prod.snd).Perm (h2.map hid) ∧
          Corr h' w' := by
      intro h2 w2 hcorr2 hperm2
      apply ih h2 w2 hcorr2
      · intro x hx
        obtain ⟨hx1, hx2, hx3, hx4⟩ := hmem x (List.mem_cons_of_mem _ hx)
        have hx1b : x.1 ≠ hd.2 := hcross x (List.mem_cons_of_mem _ hx) hd (List.mem_cons_self ..)
        have hx2b : x.2 ≠ hd.2 := by
          intro hcontra
          exact hsnd2.1 (hcontra ▸ List.mem_map_of_mem Prod.snd hx)
        exact ⟨hperm2.mem_iff.mpr (hmem1 x.1 hx1 hx1b),
          hperm2.mem_iff.mpr (hmem1 x.2 hx2 hx2b), hx3, hx4⟩
      · exact hsnd2.2
      · intro x hx y hy
        exact hcross x (List.mem_cons_of_mem _ hx) y (List.mem_cons_of_mem _ hy)
    have hwreadb : wread w wlen hd.2 = some (w hd.2) := by
      rw [wread, if_pos hbw]
    have hwreada : wread w1 wlen hd.1 = some (w1 hd.1) := by
      rw [wread, if_pos haw]
    by_cases hcmp : (heap.get ⟨w hd.2, hsb⟩).1.1 < (h1.get ⟨w1 hd.1, hsa⟩).1.1
    · obtain ⟨h2, w2, hupd, hlen2, hperm2, hcorr2⟩ :=
        update_spec (w1 hd.1)
          (((heap.get ⟨w hd.2, hsb⟩).1.1, (h1.get ⟨w1 hd.1, hsa⟩).1.2),
            (heap.get ⟨w hd.2, hsb⟩).2) h1 w1 hsa hcorr1
          (freshOff_of_nodup (nodup_of_corr hcorr1) (w1 hd.1) hsa)
          (congrArg w1 hida)
      have hperm2b : (h2.map hid).Perm (h1.map hid) := by
        refine hperm2.trans ?_
        exact set_self_perm (h1.map hid) (w1 hd.1) _ (by simpa using hsa)
          (by
            rw [List.get_eq_getElem, List.getElem_map]
            rfl)
      obtain ⟨h', w', hrun, hlen', hperm', hcorr'⟩ := hrest h2 w2 hcorr2 hperm2b
      refine ⟨h', w', ?_, by simp only [List.length_cons]; omega, ?_, hcorr'⟩
      · rw [aggPairLoop, hwreadb]
        simp only [Option.bind_eq_bind, Option.some_bind, hgetb]
        rw [hrem]
        simp only [Option.some_bind, hwreada, hgeta]
        rw [if_pos hcmp, hupd]
        simpa using hrun
      · have hstep : (h'.map hid) ++ (hd :: rest).map Prod.snd
            = (h'.map hid) ++ hd.2 :: rest.map Prod.snd := by simp
        rw [hstep]
        refine List.Perm.trans List.perm_middle ?_
        exact List.Perm.trans (List.Perm.cons hd.2 (hperm'.trans hperm2b)) hperm1b.symm
    · obtain ⟨h', w', hrun, hlen', hperm', hcorr'⟩ := hrest h1 w1 hcorr1 (List.Perm.refl _)
      refine ⟨h', w', ?_, by simp only [List.length_cons]; omega, ?_, hcorr'⟩
      · rw [aggPairLoop, hwreadb]
        simp only [Option.bind_eq_bind, Option.some_bind, hgetb]
        rw [hrem]
        simp only [Option.some_bind, hwreada, hgeta]
        rw [if_neg hcmp]
        simpa using hrun
      · have hstep : (h'.map hid) ++ (hd :: rest).map Prod.snd
            = (h'.map hid) ++ hd.2 :: rest.map Prod.snd := by simp
        rw [hstep]
        refine List.Perm.trans List.perm_middle ?_
        exact List.Perm.trans (List.Perm.cons hd.2 hperm') hperm1b.symm

end MathicsClusters

namespace MathicsClusters

/-! ### Cluster-table facts used by the reduce-loop invariant. -/

theorem liveAt_of_getElem {cl : List (Option (List ℕ))} {r x : ℕ} {l : List ℕ}
    (h : cl[r]? = some (some (x :: l))) : liveAt cl r = true := by
  rw [liveAt, h]

theorem liveAt_elim {cl : List (Option (List ℕ))} {r : ℕ} (h : liveAt cl r = true) :
    ∃ x l, cl[r]? = some (some (x :: l)) := by
  rw [liveAt] at h
  rcases hg : cl[r]? with - | c
  · rw [hg] at h
    exact absurd h (by simp)
  · rcases c with - | l
    · rw [hg] at h
      exact absurd h (by simp)
    · rcases l with - | ⟨x, l⟩
      · rw [hg] at h
        exact absurd h (by simp)
      · exact ⟨x, l, rfl⟩

theorem liveAt_set_ne {cl : List (Option (List ℕ))} {r t : ℕ} (v : Option (List ℕ))
    (hne : r ≠ t) : liveAt (cl.set t v) r = liveAt cl r := by
  rw [liveAt, liveAt, List.getElem?_set_ne (Ne.symm hne)]

theorem liveAt_set_cons {cl : List (Option (List ℕ))} {t x : ℕ} {l : List ℕ}
    (ht : t < cl.length) : liveAt (cl.set t (some (x :: l))) t = true := by
  rw [liveAt, List.getElem?_set_self (by simpa using ht)]

theorem liveAt_set_none {cl : List (Option (List ℕ))} {t : ℕ} (ht : t < cl.length) :
    liveAt (cl.set t none) t = false := by
  rw [liveAt, List.getElem?_set_self (by simpa using ht)]

theorem perm_append_cancel_right {α : Type} {l₁ l₂ t₁ t₂ : List α}
    (h : (l₁ ++ t₁).Perm (l₂ ++ t₂)) (ht : t₁.Perm t₂) : l₁.Perm l₂ := by
  have h1 : (l₁ : Multiset α) + (t₁ : Multiset α) = (l₂ : Multiset α) + (t₂ : Multiset α) := by
    rw [Multiset.coe_add, Multiset.coe_add]
    exact Multiset.coe_eq_coe.mpr h
  have h2 : (t₁ : Multiset α) = (t₂ : Multiset α) := Multiset.coe_eq_coe.mpr ht
  rw [h2] at h1
  exact Multiset.coe_eq_coe.mp (add_right_cancel h1)

theorem filter_length_update {p q : ℕ → Bool} {n t : ℕ} (ht : t < n)
    (hpt : p t = true) (hqt : q t = false)
    (hpq : ∀ r, r ≠ t → q r = p r) :
    ((List.range n).filter q).length + 1 = ((List.range n).filter p).length := by
  have hsplit : List.range n = List.range t ++ List.range' t (n - t) := by
    rw [List.range_eq_range', List.range_eq_range']
    have h := List.range'_append 0 t (n - t) 1
    rw [one_mul, Nat.zero_add] at h
    have h2 : n - t + t = n := by omega
    rw [h2] at h
    exact h.symm
  have hcons : List.range' t (n - t) = t :: List.range' (t + 1) (n - (t + 1)) := by
    have hn : n - t = (n - (t + 1)) + 1 := by omega
    rw [hn, List.range'_succ]
  rw [hsplit, hcons, List.filter_append, List.filter_append, List.filter_cons,
    List.filter_cons, hpt, hqt]
  have hlow : (List.range t).filter q = (List.range t).filter p := by
    apply List.filter_congr
    intro r hr
    exact hpq r (by have := List.mem_range.mp hr; omega)
  have hhigh : (List.range' (t + 1) (n - (t + 1))).filter q =
      (List.range' (t + 1) (n - (t + 1))).filter p := by
    apply List.filter_congr
    intro r hr
    exact hpq r (by have := List.mem_range'_1.mp hr; omega)
  rw [hlow, hhigh]
  simp only [Bool.false_eq_true, if_false, if_pos]
  rw [List.length_append, List.length_append, List.length_cons]
  omega

theorem two_le_length_of_mem_ne {α : Type} [DecidableEq α] {l : List α} {a b : α}
    (ha : a ∈ l) (hb : b ∈ l) (hab : a ≠ b) : 2 ≤ l.length := by
  have hb2 : b ∈ l.erase a := List.mem_erase_of_ne (Ne.symm hab) |>.mpr hb
  have h1 : 0 < (l.erase a).length := List.length_pos.mpr (List.ne_nil_of_mem hb2)
  have h2 := List.length_erase_of_mem ha
  omega

theorem truthyClusters_length (cl : List (Option (List ℕ))) :
    (truthyClusters cl).length =
      ((List.range cl.length).filter (fun r => liveAt cl r)).length := by
  induction cl with
  | nil => rfl
  | cons c rest ih =>
    have hrange : List.range (rest.length + 1) = 0 :: (List.range rest.length).map Nat.succ :=
      List.range_succ_eq_map rest.length
    have hshift : ∀ r : ℕ, liveAt (c :: rest) (r + 1) = liveAt rest r := by
      intro r
      rw [liveAt, liveAt, List.getElem?_cons_succ]
    have hmapped : ((List.range rest.length).map Nat.succ).filter
        (fun r => liveAt (c :: rest) r) =
        ((List.range rest.length).filter (fun r => liveAt rest r)).map Nat.succ := by
      rw [List.filter_map]
      congr 1
      apply List.filter_congr
      intro r _
      exact hshift r
    rcases c with - | l
    · rw [List.length_cons, hrange, List.filter_cons]
      have h0 : liveAt ((none : Option (List ℕ)) :: rest) 0 = false := by
        rw [liveAt, List.getElem?_cons_zero]
      rw [h0]
      simp only [Bool.false_eq_true, if_false]
      rw [hmapped, List.length_map, ← ih]
      rfl
    · rcases l with - | ⟨x, xs⟩
      · rw [List.length_cons, hrange, List.filter_cons]
        have h0 : liveAt (some ([] : List ℕ) :: rest) 0 = false := by
          rw [liveAt, List.getElem?_cons_zero]
        rw [h0]
        simp only [Bool.false_eq_true, if_false]
        rw [hmapped, List.length_map, ← ih]
        simp [truthyClusters]
      · rw [List.length_cons, hrange, List.filter_cons]
        have h0 : liveAt (some (x :: xs) :: rest) 0 = true := by
          rw [liveAt, List.getElem?_cons_zero]
        rw [h0, if_pos rfl, hmapped]
        have hlhs : truthyClusters (some (x :: xs) :: rest) = (x :: xs) :: truthyClusters rest := by
          simp [truthyClusters]
        rw [hlhs, List.length_cons, List.length_cons, List.length_map, ih]

end MathicsClusters

namespace MathicsClusters

variable {K R π : Type}

/-- The reduce-loop invariant for a fixed-`k` run (no merge criterion, no
dominant bookkeeping): the cluster slots still partition the point indexes,
the heap holds exactly the live pairs, and the position index matches. -/
structure AggInv (n : ℕ) (st : AggState K π) : Prop where
  len : st.clusters.length = n
  mem : (allMembers st.clusters).Perm (List.range n)
  ids : (st.heap.map hid).Perm (livePairs st.clusters n)
  corr : Corr st.heap st.w
  count : st.n_clusters = ((List.range n).filter (fun r => liveAt st.clusters r)).length
  dom : st.dominant = none
  crit : st.criterion = none

set_option maxHeartbeats 1600000 in
theorem aggBody_spec [LinearOrderedField K] {n wlen : ℕ} {st : AggState K π}
    (hinv : AggInv n st) (hne : st.heap.length ≠ 0) (hwlen : n.choose 2 ≤ wlen) :
    ∃ st', aggBody n wlen (lookupList n) st = some (false, st') ∧
      AggInv n st' ∧ st'.n_clusters + 1 = st.n_clusters ∧ 2 ≤ st.n_clusters := by
  have h0 : 0 < st.heap.length := Nat.pos_of_ne_zero hne
  have hget0 : st.heap[0]? = some (st.heap.get ⟨0, h0⟩) := by
    rw [List.getElem?_eq_getElem h0]
    simp [List.get_eq_getElem]
  set e0 := st.heap.get ⟨0, h0⟩ with he0
  have hpmem : hid e0 ∈ st.heap.map hid :=
    List.mem_map_of_mem hid (List.get_mem ..)
  have hplive : hid e0 ∈ livePairs st.clusters n := hinv.ids.mem_iff.mp hpmem
  obtain ⟨i0, j0, hj0i0, hi0n, hli0, hlj0, hp⟩ := mem_livePairs.mp hplive
  have hj0n : j0 < n := lt_trans hj0i0 hi0n
  have hji : j0 ≠ i0 := by omega
  have hlook : (lookupList n)[hid e0]? = some (i0, j0) := by
    rw [hp]
    exact lookupList_getElem hj0i0 hi0n
  have hplt : hid e0 < n.choose 2 := livePairs_lt hplive
  have hwr : wread st.w wlen (hid e0) = some (st.w (hid e0)) := by
    rw [wread, if_pos (lt_of_lt_of_le hplt hwlen)]
  obtain ⟨hsp, hidp⟩ := corr_slot st.heap st.w hinv.corr hpmem
  obtain ⟨h1, w1, hrem, hlen1, hperm1, hcorr1⟩ :=
    remove_spec (st.w (hid e0)) st.heap st.w hsp hinv.corr
  have hidp2 : hid st.heap[st.w (hid e0)] = hid e0 := by
    simpa [List.get_eq_getElem] using hidp
  have hperm1b : (st.heap.map hid).Perm (hid e0 :: (h1.map hid)) := by
    have hb0 := perm_getElem_cons_eraseIdx (st.heap.map hid) (st.w (hid e0)) (by simpa using hsp)
    rw [List.getElem_map, hidp2] at hb0
    exact hb0.trans (List.Perm.cons (hid e0) hperm1.symm)
  have hmem1 : ∀ q, q ∈ st.heap.map hid → q ≠ hid e0 → q ∈ h1.map hid := by
    intro q hq hqb
    rcases List.mem_cons.mp (hperm1b.mem_iff.mp hq) with h | h
    · exact absurd h hqb
    · exact h
  -- the zipped pair list of this merge step
  have hzip := @unmergedPairs_zip st.clusters j0 i0 n hj0n hi0n
  set F := commonFilter st.clusters j0 i0 n with hF
  set ab := F.map (fun r => (_index (max j0 r) (min j0 r), _index (max i0 r) (min i0 r)))
    with hab
  have habsnd : ab.map Prod.snd = F.map (fun r => _index (max i0 r) (min i0 r)) := by
    rw [hab, List.map_map]
    rfl
  have hFfacts : ∀ r ∈ F, r < n ∧ r ≠ j0 ∧ r ≠ i0 ∧ liveAt st.clusters r = true := by
    intro r hr
    exact mem_commonFilter.mp hr
  have hpairlive : ∀ u r, u < n → r < n → u ≠ r →
      liveAt st.clusters u = true → liveAt st.clusters r = true →
      _index (max u r) (min u r) ∈ livePairs st.clusters n := by
    intro u r hun hrn hur hu hr
    refine mem_livePairs.mpr ⟨max u r, min u r, min_lt_max.mpr hur, max_lt hun hrn, ?_, ?_, rfl⟩
    · rcases le_total u r with h | h
      · rw [Nat.max_eq_right h]; exact hr
      · rw [Nat.max_eq_left h]; exact hu
    · rcases le_total u r with h | h
      · rw [Nat.min_eq_left h]; exact hu
      · rw [Nat.min_eq_right h]; exact hr
  have htop : hid e0 = _index (max j0 i0) (min j0 i0) := by
    rw [Nat.max_eq_right (le_of_lt hj0i0), Nat.min_eq_left (le_of_lt hj0i0)]
    exact hp
  obtain ⟨h2, w2, hploop, hlen2, hperm2, hcorr2⟩ :=
    aggPairLoop_spec (K := K) (π := π) wlen ab h1 w1 hcorr1
      (by
        intro x hx
        obtain ⟨r, hrF, hxr⟩ := List.mem_map.mp hx
        obtain ⟨hrn, hrj0, hri0, hrl⟩ := hFfacts r hrF
        subst hxr
        refine ⟨?_, ?_, ?_, ?_⟩
        · apply hmem1 _ (hinv.ids.mem_iff.mpr
            (hpairlive j0 r hj0n hrn (Ne.symm hrj0) hlj0 hrl))
          rw [htop]
          intro hcontra
          rcases _index_pair_inj (Ne.symm hrj0) hji hcontra with ⟨-, hy1⟩ | ⟨hx1, -⟩
          · exact hri0 hy1
          · exact hji hx1
        · apply hmem1 _ (hinv.ids.mem_iff.mpr
            (hpairlive i0 r hi0n hrn (Ne.symm hri0) hli0 hrl))
          rw [htop]
          intro hcontra
          rcases _index_pair_inj (Ne.symm hri0) hji hcontra with ⟨hx1, -⟩ | ⟨-, hy1⟩
          · exact hji hx1.symm
          · exact hrj0 hy1
        · exact lt_of_lt_of_le
            (_index_lt_choose (min_lt_max.mpr (Ne.symm hrj0)) (max_lt hj0n hrn)) hwlen
        · exact lt_of_lt_of_le
            (_index_lt_choose (min_lt_max.mpr (Ne.symm hri0)) (max_lt hi0n hrn)) hwlen)
      (by
        rw [habsnd]
        apply List.Nodup.map_on ?_ (commonFilter_nodup ..)
        intro x hx y hy heq
        obtain ⟨-, -, hxi0, -⟩ := hFfacts x hx
        obtain ⟨-, -, hyi0, -⟩ := hFfacts y hy
        rcases _index_pair_inj (Ne.symm hxi0) (Ne.symm hyi0) heq with ⟨-, h⟩ | ⟨h, -⟩
        · exact h
        · exact absurd h.symm hyi0)
      (by
        intro x hx y hy
        obtain ⟨r, hrF, hxr⟩ := List.mem_map.mp hx
        obtain ⟨s, hsF, hys⟩ := List.mem_map.mp hy
        obtain ⟨-, hrj0, hri0, -⟩ := hFfacts r hrF
        obtain ⟨-, -, hsi0, -⟩ := hFfacts s hsF
        subst hxr
        subst hys
        intro hcontra
        rcases _index_pair_inj (Ne.symm hrj0) (Ne.symm hsi0) hcontra
          with ⟨hx1, -⟩ | ⟨-, hy1⟩
        · exact hji hx1
        · exact hri0 hy1)
  -- the live member lists at the merge endpoints
  obtain ⟨x1, l1, hcj0⟩ := liveAt_elim hlj0
  obtain ⟨x2, l2, hci0⟩ := liveAt_elim hli0
  have hj0len : j0 < st.clusters.length := hinv.len ▸ hj0n
  have hi0len : i0 < st.clusters.length := hinv.len ▸ hi0n
  set cl₁ := st.clusters.set j0 (some ((x1 :: l1) ++ (x2 :: l2))) with hcl₁
  set cl₂ := cl₁.set i0 none with hcl₂
  have hi0len1 : i0 < cl₁.length := by
    rw [hcl₁, List.length_set]
    exact hi0len
  -- liveness in the updated table
  have h₂a : liveAt cl₂ j0 = true := by
    rw [hcl₂, liveAt_set_ne _ hji]
    exact liveAt_set_cons hj0len
  have h₂b : liveAt cl₂ i0 = false := by
    rw [hcl₂]
    exact liveAt_set_none hi0len1
  have h₂ : ∀ r, r ≠ j0 → r ≠ i0 → liveAt cl₂ r = liveAt st.clusters r := by
    intro r hrj hri
    rw [hcl₂, liveAt_set_ne _ hri, hcl₁, liveAt_set_ne _ hrj]
  -- partition invariant of the updated table
  have hci0' : cl₁[i0]? = some (some (x2 :: l2)) := by
    rw [hcl₁, List.getElem?_set_ne hji]
    exact hci0
  have hmem' : (allMembers cl₂).Perm (allMembers st.clusters) := by
    have hpermA := flatMap_set_perm (fun c : Option (List ℕ) => c.getD [])
      st.clusters j0 (some ((x1 :: l1) ++ (x2 :: l2))) (some (x1 :: l1)) hcj0
    have hpermB := flatMap_set_perm (fun c : Option (List ℕ) => c.getD [])
      cl₁ i0 none (some (x2 :: l2)) hci0'
    have hA : (allMembers cl₁ ++ (x1 :: l1)).Perm
        (allMembers st.clusters ++ ((x1 :: l1) ++ (x2 :: l2))) := hpermA
    have hB : (allMembers cl₂ ++ (x2 :: l2)).Perm (allMembers cl₁) := by
      simpa [allMembers] using hpermB
    have hchain : (allMembers cl₂ ++ ((x2 :: l2) ++ (x1 :: l1))).Perm
        (allMembers st.clusters ++ ((x1 :: l1) ++ (x2 :: l2))) := by
      rw [← List.append_assoc]
      exact (hB.append_right (x1 :: l1)).trans hA
    refine perm_append_cancel_right hchain List.perm_append_comm
  -- heap ids of the updated state
  have hsplit := @livePairs_split st.clusters cl₂ j0 i0 n
    hji hj0n hi0n hlj0 hli0 h₂a h₂b h₂
  have hids' : (h2.map hid).Perm (livePairs cl₂ n) := by
    have hc1 : (hid e0 :: (h1.map hid)).Perm
        (hid e0 :: (ab.map Prod.snd ++ livePairs cl₂ n)) := by
      refine hperm1b.symm.trans (hinv.ids.trans ?_)
      rw [htop, habsnd]
      exact hsplit
    have hc2 : (h1.map hid).Perm (ab.map Prod.snd ++ livePairs cl₂ n) := hc1.cons_inv
    have hc3 : ((h2.map hid) ++ ab.map Prod.snd).Perm
        ((livePairs cl₂ n) ++ ab.map Prod.snd) := by
      refine (hperm2.trans hc2).trans List.perm_append_comm
    exact perm_append_cancel_right hc3 (List.Perm.refl _)
  -- the live count of the updated table
  have hcount' : ((List.range n).filter (fun r => liveAt cl₂ r)).length + 1 =
      ((List.range n).filter (fun r => liveAt st.clusters r)).length := by
    apply filter_length_update hi0n hli0 h₂b
    intro r hri
    by_cases hrj : r = j0
    · rw [hrj, h₂a, hlj0]
    · exact h₂ r hrj hri
  have hcount2 : 2 ≤ st.n_clusters := by
    rw [hinv.count]
    refine two_le_length_of_mem_ne (a := i0) (b := j0) ?_ ?_ (by omega)
    · exact List.mem_filter.mpr ⟨List.mem_range.mpr hi0n, hli0⟩
    · exact List.mem_filter.mpr ⟨List.mem_range.mpr hj0n, hlj0⟩
  refine ⟨⟨cl₂, h2, w2, st.n_clusters - 1, none, none⟩, ?_, ?_, ?_, hcount2⟩
  · -- evaluate the body
    unfold aggBody
    rw [hget0]
    try simp only [Option.bind_eq_bind, Option.some_bind]
    try dsimp only
    rw [show (lookupList n)[e0.1.2]? = some (i0, j0) from hlook]
    try simp only [Option.some_bind]
    try dsimp only
    rw [hinv.crit]
    try dsimp only [aggCritStep]
    try simp only [Option.some_bind]
    try simp only [if_pos hj0i0]
    try simp only [Bool.true_eq_false, if_false]
    rw [show wread st.w wlen e0.1.2 = some (st.w e0.1.2) from hwr]
    try simp only [Option.some_bind]
    rw [show remove (st.w e0.1.2) st.heap st.w = some (h1, w1) from hrem]
    try simp only [Option.some_bind]
    try dsimp only
    rw [hzip, hploop]
    try simp only [Option.some_bind]
    try dsimp only
    rw [hcj0]
    try simp only [Option.some_bind]
    rw [hci0]
    try simp only [Option.some_bind]
    rw [hinv.dom]
    try dsimp only [aggDomStep]
    try simp only [Option.some_bind]
  · exact {
      len := by
        rw [hcl₂, hcl₁]
        simp [hinv.len]
      mem := hmem'.trans hinv.mem
      ids := hids'
      corr := hcorr2
      count := by
        show st.n_clusters - 1 = ((List.range n).filter (fun r => liveAt cl₂ r)).length
        have hc := hinv.count
        omega
      dom := rfl
      crit := rfl }
  · show st.n_clusters - 1 + 1 = st.n_clusters
    omega

end MathicsClusters

namespace MathicsClusters

variable {K R π : Type}

theorem heap_ne_of_two_live {n : ℕ} {st : AggState K π} (hinv : AggInv n st)
    (h2 : 2 ≤ st.n_clusters) : st.heap.length ≠ 0 := by
  intro hzero
  have hnil : st.heap = [] := List.length_eq_zero.mp hzero
  have hemp : livePairs st.clusters n = [] := by
    have hperm := hinv.ids
    rw [hnil] at hperm
    exact (List.Perm.nil_eq hperm).symm
  have hcnt := hinv.count
  set l := (List.range n).filter (fun r => liveAt st.clusters r) with hl
  have hnodup : l.Nodup := (List.nodup_range n).filter _
  have hlen2 : 2 ≤ l.length := by omega
  obtain ⟨u, rest, hcons⟩ : ∃ u rest, l = u :: rest := by
    rcases l with - | ⟨u, rest⟩
    · simp at hlen2
    · exact ⟨u, rest, rfl⟩
  obtain ⟨v, rest2, hcons2⟩ : ∃ v rest2, rest = v :: rest2 := by
    rcases rest with - | ⟨v, rest2⟩
    · rw [hcons] at hlen2
      simp at hlen2
    · exact ⟨v, rest2, rfl⟩
  have huv : u ≠ v := by
    have := hnodup
    rw [hcons, hcons2] at this
    exact (List.nodup_cons.mp this).1 ∘ (by intro h; rw [h]; exact List.mem_cons_self ..)
  have humem : u ∈ l := by rw [hcons]; exact List.mem_cons_self ..
  have hvmem : v ∈ l := by
    rw [hcons, hcons2]
    exact List.mem_cons_of_mem _ (List.mem_cons_self ..)
  obtain ⟨hun, hul⟩ := List.mem_filter.mp humem
  obtain ⟨hvn, hvl⟩ := List.mem_filter.mp hvmem
  have hpair : _index (max u v) (min u v) ∈ livePairs st.clusters n := by
    refine mem_livePairs.mpr ⟨max u v, min u v, min_lt_max.mpr huv,
      max_lt (List.mem_range.mp hun) (List.mem_range.mp hvn), ?_, ?_, rfl⟩
    · rcases le_total u v with h | h
      · rw [Nat.max_eq_right h]; exact hvl
      · rw [Nat.max_eq_left h]; exact hul
    · rcases le_total u v with h | h
      · rw [Nat.min_eq_left h]; exact hul
      · rw [Nat.min_eq_right h]; exact hvl
  rw [hemp] at hpair
  exact absurd hpair (List.not_mem_nil _)

theorem aggLoop_spec [LinearOrderedField K] {n wlen : ℕ} (k : ℕ) (hk : 1 ≤ k)
    (hwlen : n.choose 2 ≤ wlen) :
    ∀ (fuel : ℕ) (st : AggState K π), AggInv n st → 1 ≤ fuel →
      st.n_clusters + 1 ≤ fuel + k →
      ∃ st', aggLoop n wlen (lookupList n) ((k : ℕ) : ℤ) fuel st = some st' ∧
        AggInv n st' ∧ st'.n_clusters = min st.n_clusters k := by
  intro fuel
  induction fuel with
  | zero =>
    intro st _ hf _
    omega
  | succ fuel ih =>
    intro st hinv _ hfuel
    by_cases hcond : k < st.n_clusters
    · have h2le : 2 ≤ st.n_clusters := by omega
      have hne : st.heap.length ≠ 0 := heap_ne_of_two_live hinv h2le
      obtain ⟨st1, hbody, hinv1, hdec, -⟩ := aggBody_spec hinv hne hwlen
      obtain ⟨st', hrun, hinv', hmin⟩ := ih st1 hinv1 (by omega) (by omega)
      refine ⟨st', ?_, hinv', by omega⟩
      rw [aggLoop, if_pos ⟨Nat.pos_of_ne_zero hne, by omega⟩, hbody]
      try simp only [Option.some_bind]
      try simp only [Option.bind_eq_bind, Option.some_bind]
      rw [if_neg (by simp)]
      exact hrun
    · refine ⟨st, ?_, hinv, by omega⟩
      rw [aggLoop, if_neg]
      rintro ⟨-, hc⟩
      have : k < st.n_clusters := by exact_mod_cast hc
      omega

end MathicsClusters

namespace MathicsClusters

/-! ### Behaviour of `_components` on a partition. -/

theorem _components_concat (cs : List (List ℕ)) (c : List ℕ) (n : ℕ) :
    _components (cs ++ [c]) n =
      c.foldl (fun a j => a.set j (cs.length + 1)) (_components cs n) := by
  rw [_components, _components, List.enum_append, List.foldl_append]
  rfl

theorem foldl_set_length (c : List ℕ) (v : ℕ) :
    ∀ a : List ℕ, (c.foldl (fun a j => a.set j v) a).length = a.length := by
  induction c with
  | nil => intro a; rfl
  | cons x rest ih =>
    intro a
    rw [List.foldl_cons, ih, List.length_set]

theorem _components_length (cs : List (List ℕ)) (n : ℕ) :
    (_components cs n).length = n := by
  induction cs using List.reverseRecOn with
  | nil => simp [_components]
  | append_singleton cs c ih =>
    rw [_components_concat, foldl_set_length, ih]

theorem foldl_set_not_mem {c : List ℕ} {t v : ℕ} (h : t ∉ c) :
    ∀ a : List ℕ, (c.foldl (fun a j => a.set j v) a)[t]? = a[t]? := by
  induction c with
  | nil => intro a; rfl
  | cons x rest ih =>
    intro a
    have hx : t ≠ x := fun hc => h (hc ▸ List.mem_cons_self ..)
    rw [List.foldl_cons, ih (fun hc => h (List.mem_cons_of_mem _ hc)),
      List.getElem?_set_ne (Ne.symm hx)]

theorem foldl_set_mem {c : List ℕ} {t v : ℕ} (h : t ∈ c) :
    ∀ a : List ℕ, t < a.length → (c.foldl (fun a j => a.set j v) a)[t]? = some v := by
  induction c with
  | nil => exact absurd h (List.not_mem_nil t)
  | cons x rest ih =>
    intro a ha
    rw [List.foldl_cons]
    by_cases hrest : t ∈ rest
    · exact ih hrest _ (by rw [List.length_set]; exact ha)
    · have hx : t = x := by
        rcases List.mem_cons.mp h with h | h
        · exact h
        · exact absurd h hrest
      rw [foldl_set_not_mem hrest, hx, List.getElem?_set_self (hx ▸ ha)]

theorem _components_getElem (cs : List (List ℕ)) (n t : ℕ) (ht : t < n) :
    ∀ ci c, cs[ci]? = some c → t ∈ c →
      (∀ cj c2, ci < cj → cs[cj]? = some c2 → t ∉ c2) →
      (_components cs n)[t]? = some (ci + 1) := by
  induction cs using List.reverseRecOn with
  | nil =>
    intro ci c h
    simp at h
  | append_singleton cs c ihc =>
    intro ci cc hget hmem hnot
    rw [_components_concat]
    by_cases hci : ci = cs.length
    · subst hci
      have hcc : cc = c := by
        rw [List.getElem?_append_right (le_refl _), Nat.sub_self] at hget
        simpa using hget.symm
      subst hcc
      rw [foldl_set_mem hmem _ (by rw [_components_length]; exact ht)]
    · have hlt : ci < cs.length := by
        obtain ⟨hb, -⟩ := List.getElem?_eq_some_iff.mp hget
        rw [List.length_append, List.length_cons, List.length_nil] at hb
        omega
      have htc : t ∉ c := hnot cs.length c hlt (by
        rw [List.getElem?_append_right (le_refl _), Nat.sub_self]
        rfl)
      rw [foldl_set_not_mem htc]
      refine ihc ci cc ?_ hmem ?_
      · rw [List.getElem?_append_left hlt] at hget
        exact hget
      · intro cj c2 hcij hg
        obtain ⟨hcj, -⟩ := List.getElem?_eq_some_iff.mp hg
        refine hnot cj c2 hcij ?_
        rw [List.getElem?_append_left hcj]
        exact hg

theorem _components_not_mem (cs : List (List ℕ)) (n t : ℕ) (ht : t < n)
    (hnot : ∀ (ci : ℕ) (c : List ℕ), cs[ci]? = some c → t ∉ c) :
    (_components cs n)[t]? = some 0 := by
  induction cs using List.reverseRecOn with
  | nil =>
    show (List.replicate n 0)[t]? = some 0
    rw [List.getElem?_replicate, if_pos ht]
  | append_singleton cs c ihc =>
    rw [_components_concat]
    have htc : t ∉ c := hnot cs.length c (by
      rw [List.getElem?_append_right (le_refl _), Nat.sub_self]
      rfl)
    rw [foldl_set_not_mem htc]
    refine ihc ?_
    intro ci c2 hg
    obtain ⟨hci, -⟩ := List.getElem?_eq_some_iff.mp hg
    refine hnot ci c2 ?_
    rw [List.getElem?_append_left hci]
    exact hg

end MathicsClusters

namespace MathicsClusters

theorem mem_of_getElem_some {α : Type} {l : List α} {i : ℕ} {a : α}
    (h : l[i]? = some a) : a ∈ l := by
  obtain ⟨hb, he⟩ := List.getElem?_eq_some_iff.mp h
  exact he ▸ List.getElem_mem hb

/-- `_components` on a list of clusters that partitions `0..n-1`: the result
has length `n`, and its values are exactly the 1-based cluster numbers. -/
theorem _components_spec (cs : List (List ℕ)) (n : ℕ)
    (hflat : cs.flatten.Perm (List.range n)) (hne : ∀ c ∈ cs, c ≠ []) :
    (_components cs n).length = n ∧
      ∀ v, v ∈ _components cs n ↔ 1 ≤ v ∧ v ≤ cs.length := by
  have hnodup : cs.flatten.Nodup := hflat.nodup_iff.mpr (List.nodup_range n)
  have hdisj : List.Pairwise List.Disjoint cs := (List.nodup_flatten.mp hnodup).2
  have hdisj2 : ∀ (ci cj : ℕ) (c c2 : List ℕ), ci < cj → cs[ci]? = some c →
      cs[cj]? = some c2 → ∀ t, t ∈ c → t ∉ c2 := by
    intro ci cj c c2 hij hgi hgj t htc
    obtain ⟨hbi, hei⟩ := List.getElem?_eq_some_iff.mp hgi
    obtain ⟨hbj, hej⟩ := List.getElem?_eq_some_iff.mp hgj
    have hd := List.pairwise_iff_get.mp hdisj ⟨ci, hbi⟩ ⟨cj, hbj⟩ hij
    rw [List.get_eq_getElem, List.get_eq_getElem, hei, hej] at hd
    exact hd htc
  have hcover : ∀ t, t < n → ∃ (ci : ℕ) (c : List ℕ), cs[ci]? = some c ∧ t ∈ c := by
    intro t ht
    have : t ∈ cs.flatten := hflat.mem_iff.mpr (List.mem_range.mpr ht)
    obtain ⟨c, hc, htc⟩ := List.mem_flatten.mp this
    obtain ⟨ci, hci, he⟩ := List.mem_iff_getElem.mp hc
    exact ⟨ci, c, by rw [List.getElem?_eq_getElem hci, he], htc⟩
  refine ⟨_components_length cs n, ?_⟩
  intro v
  constructor
  · intro hv
    obtain ⟨t, htl, he⟩ := List.mem_iff_getElem.mp hv
    have htn : t < n := by
      rw [_components_length] at htl
      exact htl
    obtain ⟨ci, c, hgc, htc⟩ := hcover t htn
    have hval : (_components cs n)[t]? = some (ci + 1) :=
      _components_getElem cs n t htn ci c hgc htc
        (fun cj c2 hlt hg => hdisj2 ci cj c c2 hlt hgc hg t htc)
    have hvv : v = ci + 1 := by
      rw [List.getElem?_eq_getElem htl, he] at hval
      exact Option.some_inj.mp hval
    obtain ⟨hci, -⟩ := List.getElem?_eq_some_iff.mp hgc
    omega
  · rintro ⟨hv1, hv2⟩
    have hci : v - 1 < cs.length := by omega
    have hgc : cs[v - 1]? = some (cs.get ⟨v - 1, hci⟩) := by
      rw [List.getElem?_eq_getElem hci]
      simp [List.get_eq_getElem]
    have hcne : cs.get ⟨v - 1, hci⟩ ≠ [] := hne _ (List.get_mem ..)
    obtain ⟨t, htc⟩ := List.exists_mem_of_ne_nil _ hcne
    have htn : t < n := by
      have h1 : t ∈ cs.flatten := List.mem_flatten.mpr ⟨_, List.get_mem .., htc⟩
      exact List.mem_range.mp (hflat.mem_iff.mp h1)
    have hval : (_components cs n)[t]? = some ((v - 1) + 1) :=
      _components_getElem cs n t htn (v - 1) _ hgc htc
        (fun cj c2 hlt hg => hdisj2 (v - 1) cj _ c2 hlt hgc hg t htc)
    have hveq : (v - 1) + 1 = v := by omega
    rw [hveq] at hval
    exact mem_of_getElem_some hval

end MathicsClusters

namespace MathicsClusters

variable {K R π : Type}

/-! ### The initial state of `reduce()` and the finalization. -/

theorem zip_range'_ids {γ α : Type} :
    ∀ (l : List γ) (p : List α) (s : ℕ), l.length = p.length →
      (((l.zip (List.range' s l.length)).zip p).map
        (fun x => hid ((x.1.1, x.1.2), x.2))) = List.range' s l.length
  | [], _, s, _ => rfl
  | x :: xs, [], s, h => by simp at h
  | x :: xs, y :: ys, s, h => by
    have h2 : xs.length = ys.length := by simpa using h
    simp only [List.length_cons, List.range'_succ, List.zip_cons_cons, List.map_cons]
    rw [zip_range'_ids xs ys (s + 1) h2]
    rfl

theorem zip_range_ids {γ α : Type} (l : List γ) (p : List α) (h : l.length = p.length) :
    (((l.zip (List.range l.length)).zip p).map
      (fun x => hid ((x.1.1, x.1.2), x.2))) = List.range l.length := by
  rw [List.range_eq_range']
  exact zip_range'_ids l p 0 h

theorem allMembers_init : ∀ l : List ℕ, allMembers (l.map (fun i => some [i])) = l := by
  intro l
  induction l with
  | nil => rfl
  | cons x rest ih =>
    simp only [List.map_cons, allMembers, List.flatMap_cons] at *
    rw [ih]
    rfl

theorem liveAt_init {n r : ℕ} (h : r < n) :
    liveAt ((List.range n).map (fun i => some [i])) r = true := by
  apply liveAt_of_getElem (x := r) (l := [])
  rw [List.getElem?_map, List.getElem?_range h]
  rfl

theorem livePairs_init (n : ℕ) :
    livePairs ((List.range n).map (fun i => some [i])) n = List.range (n.choose 2) := by
  rw [livePairs, List.filter_eq_self.mpr, lookupList_map_index]
  intro ij hij
  obtain ⟨h1, h2⟩ := mem_lookupList.mp hij
  rw [liveAt_init h2, liveAt_init (lt_trans h1 h2)]
  rfl

theorem mem_truthyClusters_ne_nil {cl : List (Option (List ℕ))} {c : List ℕ}
    (h : c ∈ truthyClusters cl) : c ≠ [] := by
  obtain ⟨a, -, ha⟩ := List.mem_filterMap.mp h
  rcases a with - | l
  · exact absurd ha (by simp)
  · by_cases hl : l = []
    · rw [hl] at ha
      exact absurd ha (by simp)
    · have : l = c := by
        by_cases hl2 : l = []
        · exact absurd hl2 hl
        · simpa [hl2] using ha
      rw [← this]
      exact hl

theorem filterMap_ne_nil_eq : ∀ {l : List (List ℕ)}, (∀ c ∈ l, c ≠ []) →
    l.filterMap (fun c => if c = [] then none else some c) = l := by
  intro l
  induction l with
  | nil => intro _; rfl
  | cons c rest ih =>
    intro h
    rw [List.filterMap_cons]
    have hc : c ≠ [] := h c (List.mem_cons_self ..)
    simp only [if_neg hc]
    rw [ih (fun x hx => h x (List.mem_cons_of_mem _ hx))]

theorem flatten_map_sort_perm (l : List (List ℕ)) :
    ((l.map (fun c => List.insertionSort (fun x y : ℕ => x ≤ y) c)).flatten).Perm
      l.flatten := by
  induction l with
  | nil => exact List.Perm.refl _
  | cons c rest ih =>
    simp only [List.map_cons, List.flatten_cons]
    exact (List.perm_insertionSort _ c).append ih

theorem aggFinal_components_spec [LinearOrderedField K] {n : ℕ} {st : AggState K π}
    (points : List π) (hinv : AggInv n st) :
    ∃ result : List (List ℕ),
      aggFinal points n "components" st =
        some (ClusterResult.componentsRes (_components result n)) ∧
      result.length = st.n_clusters ∧
      (result.flatten).Perm (List.range n) ∧ (∀ c ∈ result, c ≠ []) := by
  have htr_flat : ((truthyClusters st.clusters).flatten).Perm (List.range n) := by
    rw [truthyClusters_flatten]
    exact hinv.mem
  have htr_len : (truthyClusters st.clusters).length = st.n_clusters := by
    rw [truthyClusters_length, hinv.len, hinv.count]
  set sorted1 := (truthyClusters st.clusters).map
    (fun c => List.insertionSort (fun x y : ℕ => x ≤ y) c) with hs1
  have hs1ne : ∀ c ∈ sorted1, c ≠ [] := by
    intro c hc
    obtain ⟨a, haT, ha⟩ := List.mem_map.mp hc
    have hane : a ≠ [] := mem_truthyClusters_ne_nil haT
    intro hcontra
    apply hane
    have hst := List.perm_insertionSort (fun x y : ℕ => x ≤ y) a
    rw [ha, hcontra] at hst
    exact (List.Perm.nil_eq hst).symm
  set result := List.insertionSort (fun c1 c2 : List ℕ => c1.headD 0 ≤ c2.headD 0)
    (sorted1.filterMap (fun c => if c = [] then none else some c)) with hres
  have hfm : sorted1.filterMap (fun c => if c = [] then none else some c) = sorted1 :=
    filterMap_ne_nil_eq hs1ne
  have hperm_r : result.Perm sorted1 := by
    rw [hres, hfm]
    exact List.perm_insertionSort _ _
  refine ⟨result, ?_, ?_, ?_, ?_⟩
  · unfold aggFinal
    rw [if_neg (by decide)]
    rw [hinv.crit]
    try dsimp only
    try simp only [Option.bind_eq_bind, Option.some_bind]
    rw [if_pos trivial]
  · rw [hperm_r.length_eq, hs1, List.length_map, htr_len]
  · exact ((hperm_r.flatten).trans (flatten_map_sort_perm _)).trans htr_flat
  · intro c hc
    exact hs1ne c (hperm_r.mem_iff.mp hc)

end MathicsClusters

namespace MathicsClusters

theorem sub_one_le_choose_two (n : ℕ) : n - 1 ≤ n.choose 2 := by
  rw [Nat.choose_two_right]
  rcases Nat.lt_or_ge n 2 with h | h
  · omega
  · have h1 : 2 * (n - 1) ≤ n * (n - 1) := Nat.mul_le_mul_right _ h
    have h2 : 2 * (n - 1) / 2 ≤ n * (n - 1) / 2 := Nat.div_le_div_right h1
    rw [Nat.mul_div_cancel_left _ (by norm_num)] at h2
    exact h2

set_option maxHeartbeats 1600000 in
/-- C3: for `1 ≤ k ≤ n` and a well-formed precomputed provider,
`agglomerate(points, k, distances, mode='components')` (no merge criterion
active) returns an array of length `n` whose values are exactly the cluster
ids `1..k`, each occurring at least once. -/
theorem C3_fixed_k_sizing {K π : Type} [LinearOrderedField K] (points : List π) (k : ℕ)
    (distances : PrecomputedDistances K)
    (hlen : distances._distances.length = points.length * (points.length - 1) / 2)
    (hk1 : 1 ≤ k) (hkn : k ≤ points.length) :
    ∃ arr : List ℕ,
      agglomerate (R := Unit) points (AggK.fixed ((k : ℕ) : ℤ))
        (AggProvider.pre distances) "components" =
        some (ClusterResult.componentsRes arr) ∧
      arr.length = points.length ∧
      (∀ v : ℕ, v ∈ arr ↔ 1 ≤ v ∧ v ≤ k) := by
  set n := points.length with hn
  have hlen2 : distances._distances.length = n.choose 2 := by
    rw [hlen, Nat.choose_two_right]
  set tdm := distances._distances with htdm
  set clusters0 : List (Option (List ℕ)) := (List.range n).map (fun i => some [i]) with hcl0
  set pairs : List (Option π × Option π) :=
    (lookupList n).map (fun ij => (points[ij.1]?, points[ij.2]?)) with hpairs
  set heap0 := ((tdm.zip (List.range tdm.length)).zip pairs).map
    (fun x => ((x.1.1, x.1.2), x.2)) with hheap0
  have hpairslen : pairs.length = n.choose 2 := by
    rw [hpairs, List.length_map, lookupList_length]
  have hids0 : heap0.map hid = List.range tdm.length := by
    rw [hheap0, List.map_map]
    exact zip_range_ids tdm pairs (by rw [hpairslen, hlen2])
  have hlen0 : heap0.length = n.choose 2 := by
    have h := congrArg List.length hids0
    rw [List.length_map, List.length_range, hlen2] at h
    exact h
  have hcorr0 : Corr heap0 (fun p => p) := by
    intro t ht
    show hid (heap0.get ⟨t, ht⟩) = t
    have h1 : (heap0.map hid)[t]? = some (hid (heap0.get ⟨t, ht⟩)) := by
      rw [List.getElem?_map, List.getElem?_eq_getElem ht]
      simp [List.get_eq_getElem]
    rw [hids0] at h1
    have ht2 : t < tdm.length := by
      rw [htdm, hlen2, ← hlen0]
      exact ht
    rw [List.getElem?_range ht2] at h1
    exact (Option.some_inj.mp h1).symm
  obtain ⟨hh, hww, hrunH, hlenH, hpermH, hcorrH⟩ :=
    aggHeapify_spec (K := K) (π := π) ((List.range (heap0.length / 2)).reverse) heap0
      (fun p => p)
      (by
        intro s hs
        have hs2 := List.mem_range.mp (List.mem_reverse.mp hs)
        omega)
      hcorr0
  have hinv0 : AggInv n (⟨clusters0, hh, hww, n, none, none⟩ : AggState K π) := by
    refine ⟨?_, ?_, ?_, hcorrH, ?_, rfl, rfl⟩
    · show clusters0.length = n
      rw [hcl0, List.length_map, List.length_range]
    · show (allMembers clusters0).Perm (List.range n)
      rw [hcl0, allMembers_init]
    · show (hh.map hid).Perm (livePairs clusters0 n)
      refine hpermH.trans ?_
      rw [hids0, hcl0, livePairs_init, htdm, hlen2]
    · show n = ((List.range n).filter (fun r => liveAt clusters0 r)).length
      rw [hcl0, List.filter_eq_self.mpr (fun r hr => liveAt_init (List.mem_range.mp hr)),
        List.length_range]
  have hchoose : n - 1 ≤ n.choose 2 := sub_one_le_choose_two n
  obtain ⟨stf, hrunL, hinvf, hncf⟩ :=
    @aggLoop_spec K π _ n tdm.length k hk1
      (by rw [htdm, hlen2]) (hh.length + 1)
      (⟨clusters0, hh, hww, n, none, none⟩ : AggState K π) hinv0 (by omega)
      (by
        show n + 1 ≤ hh.length + 1 + k
        rw [hlenH, hlen0]
        omega)
  have hncf2 : stf.n_clusters = k := by
    rw [hncf]
    show min n k = k
    exact min_eq_right hkn
  obtain ⟨result, hrunF, hreslen, hresflat, hresne⟩ := aggFinal_components_spec points hinvf
  obtain ⟨hclen, hcvals⟩ := _components_spec result n hresflat hresne
  refine ⟨_components result n, ?_, hclen, ?_⟩
  · unfold agglomerate
    rw [show ((AggProvider.pre (R := Unit) distances).matrix).toOption = some tdm from rfl]
    try simp only [Option.bind_eq_bind, Option.some_bind]
    try dsimp only
    rw [← hn, ← hcl0, ← hpairs, ← hheap0, hrunH]
    try simp only [Option.some_bind]
    try dsimp only
    rw [if_neg (by decide), if_pos (Or.inr trivial)]
    try simp only [Option.some_bind]
    try dsimp only
    rw [hrunL]
    try simp only [Option.some_bind]
    rw [hrunF]
  · intro v
    rw [hcvals v, hreslen, hncf2]

end MathicsClusters

namespace MathicsClusters

theorem C3_fixed_k_sizing_witness :
    ∃ arr : List ℕ,
      agglomerate (R := Unit) [true, false] (AggK.fixed ((1 : ℕ) : ℤ))
        (AggProvider.pre (⟨[(0 : ℚ)]⟩ : PrecomputedDistances ℚ)) "components" =
        some (ClusterResult.componentsRes arr) ∧
      arr.length = 2 ∧ (∀ v : ℕ, v ∈ arr ↔ 1 ≤ v ∧ v ≤ 1) :=
  C3_fixed_k_sizing [true, false] 1 ⟨[(0 : ℚ)]⟩ rfl (le_refl 1) (by decide)

end MathicsClusters

namespace MathicsClusters

variable {K R π : Type}

/-! ### Crash-tolerant partition invariant (any mode, any provider, any
criterion): whatever `reduce()` manages to do before returning or raising,
the cluster slots keep partitioning the point indexes. -/

/-- The partition part of the loop invariant, with no assumption on the
heap, the dominant array, or the merge criterion. -/
structure PartInv (n : ℕ) (st : AggState K π) : Prop where
  mem : (allMembers st.clusters).Perm (List.range n)
  best : ∀ ds bp, st.criterion = some ds → ds._best_partition = some bp →
    bp.flatten.Perm (List.range n)

theorem truthy_flatten_perm {n : ℕ} {cl : List (Option (List ℕ))}
    (h : (allMembers cl).Perm (List.range n)) :
    ((truthyClusters cl).flatten).Perm (List.range n) := by
  rw [truthyClusters_flatten]
  exact h

theorem mergeStep_best [LinearOrderedField K] {st1 : DunnState K}
    {clusters : List (Option (List ℕ))} {i j : ℕ} {pr : Bool × DunnState K}
    (hrun : st1.mergeStep clusters i j = some pr) :
    pr.2._best_partition = st1._best_partition := by
  rw [DunnState.mergeStep] at hrun
  simp only [Option.bind_eq_bind] at hrun
  rcases h1 : clusters[i]? with - | ci0
  · rw [h1, Option.none_bind] at hrun
    exact Option.noConfusion hrun
  rw [h1, Option.some_bind] at hrun
  rcases ci0 with - | ci
  · rw [Option.none_bind] at hrun
    exact Option.noConfusion hrun
  rw [Option.some_bind] at hrun
  rcases h2 : clusters[j]? with - | cj0
  · rw [h2, Option.none_bind] at hrun
    exact Option.noConfusion hrun
  rw [h2, Option.some_bind] at hrun
  rcases cj0 with - | cj
  · rw [Option.none_bind] at hrun
    exact Option.noConfusion hrun
  rw [Option.some_bind] at hrun
  rcases h3 : maxCrossDistance st1.distances ci cj with - | nd
  · rw [h3, Option.none_bind] at hrun
    exact Option.noConfusion hrun
  rw [h3, Option.some_bind] at hrun
  rcases h4 : st1._diameters[i]? with - | di0
  · rw [h4, Option.none_bind] at hrun
    exact Option.noConfusion hrun
  rw [h4, Option.some_bind] at hrun
  rcases di0 with - | di
  · rw [Option.none_bind] at hrun
    exact Option.noConfusion hrun
  rw [Option.some_bind] at hrun
  rcases h5 : st1._diameters[j]? with - | dj0
  · rw [h5, Option.none_bind] at hrun
    exact Option.noConfusion hrun
  rw [h5, Option.some_bind] at hrun
  rcases dj0 with - | dj
  · rw [Option.none_bind] at hrun
    exact Option.noConfusion hrun
  rw [Option.some_bind] at hrun
  have := Option.some_inj.mp hrun
  rw [← this]

theorem save_and_merge_best [LinearOrderedField K] {n : ℕ} {st : DunnState K}
    {clusters : List (Option (List ℕ))} {i j : ℕ} {d : K} {pr : Bool × DunnState K}
    (hrun : st.save_and_merge clusters i j d = some pr)
    (hbest : ∀ bp, st._best_partition = some bp → bp.flatten.Perm (List.range n))
    (hcl : (allMembers clusters).Perm (List.range n)) :
    ∀ bp, pr.2._best_partition = some bp → bp.flatten.Perm (List.range n) := by
  rw [DunnState.save_and_merge] at hrun
  set st1 := if st._best_dunn.isNone ∨
      (∃ b, st._best_dunn = some b ∧ _ratio_bigger_than (d, st._max_diameter) b) then
    { st with
      _best_partition := some (truthyClusters clusters)
      _best_dunn := if 0 < st._max_diameter then some (d, st._max_diameter)
        else st._best_dunn }
    else st with hst1
  have hbest1 : ∀ bp, st1._best_partition = some bp → bp.flatten.Perm (List.range n) := by
    intro bp hbp
    rw [hst1] at hbp
    by_cases hcond : st._best_dunn.isNone ∨
        (∃ b, st._best_dunn = some b ∧ _ratio_bigger_than (d, st._max_diameter) b)
    · rw [if_pos hcond] at hbp
      have : truthyClusters clusters = bp := Option.some_inj.mp hbp
      rw [← this]
      exact truthy_flatten_perm hcl
    · rw [if_neg hcond] at hbp
      exact hbest bp hbp
  rcases hml : st1._merge_limit with - | lim
  · rw [hml] at hrun
    try dsimp only at hrun
    try simp only at hrun
    intro bp hbp
    rw [mergeStep_best hrun] at hbp
    exact hbest1 bp hbp
  · rw [hml] at hrun
    try dsimp only at hrun
    try simp only at hrun
    by_cases hlim : lim < d
    · rw [if_pos hlim] at hrun
      have := Option.some_inj.mp hrun
      rw [← this]
      exact hbest1
    · rw [if_neg hlim] at hrun
      intro bp hbp
      rw [mergeStep_best hrun] at hbp
      exact hbest1 bp hbp

end MathicsClusters

namespace MathicsClusters

variable {K R π : Type}

theorem allMembers_merge_perm {cl : List (Option (List ℕ))} {i j : ℕ} {ci cj : List ℕ}
    (hij : i ≠ j) (hci : cl[i]? = some (some ci)) (hcj : cl[j]? = some (some cj)) :
    (allMembers ((cl.set i (some (ci ++ cj))).set j none)).Perm (allMembers cl) := by
  have hcj' : (cl.set i (some (ci ++ cj)))[j]? = some (some cj) := by
    rw [List.getElem?_set_ne hij]
    exact hcj
  have hpermA := flatMap_set_perm (fun c : Option (List ℕ) => c.getD [])
    cl i (some (ci ++ cj)) (some ci) hci
  have hpermB := flatMap_set_perm (fun c : Option (List ℕ) => c.getD [])
    (cl.set i (some (ci ++ cj))) j none (some cj) hcj'
  have hA : (allMembers (cl.set i (some (ci ++ cj))) ++ ci).Perm
      (allMembers cl ++ (ci ++ cj)) := hpermA
  have hB : (allMembers ((cl.set i (some (ci ++ cj))).set j none) ++ cj).Perm
      (allMembers (cl.set i (some (ci ++ cj)))) := by
    simpa [allMembers] using hpermB
  have hchain : (allMembers ((cl.set i (some (ci ++ cj))).set j none) ++ (cj ++ ci)).Perm
      (allMembers cl ++ (ci ++ cj)) := by
    rw [← List.append_assoc]
    exact (hB.append_right ci).trans hA
  exact perm_append_cancel_right hchain List.perm_append_comm

theorem aggCritStep_best [LinearOrderedField K] {n : ℕ}
    {clusters : List (Option (List ℕ))} {criterion : Option (DunnState K)} {i j : ℕ}
    {d : K} {cst : Bool × Option (DunnState K)}
    (hrun : aggCritStep clusters criterion i j d = some cst)
    (hbest : ∀ ds bp, criterion = some ds → ds._best_partition = some bp →
      bp.flatten.Perm (List.range n))
    (hcl : (allMembers clusters).Perm (List.range n)) :
    ∀ ds2 bp, cst.2 = some ds2 → ds2._best_partition = some bp →
      bp.flatten.Perm (List.range n) := by
  rcases criterion with - | ds
  · have heq := Option.some_inj.mp hrun
    intro ds2 bp h1 h2
    rw [← heq] at h1
    exact Option.noConfusion h1
  · rw [aggCritStep] at hrun
    rw [Option.bind_eq_bind, Option.bind_eq_some] at hrun
    obtain ⟨pr, hsm, hsome⟩ := hrun
    have heq := Option.some_inj.mp hsome
    intro ds2 bp h1 h2
    rw [← heq] at h1
    have hds2 : pr.2 = ds2 := Option.some_inj.mp h1
    exact save_and_merge_best hsm (fun bp2 hbp2 => hbest ds bp2 rfl hbp2) hcl bp (hds2 ▸ h2)

set_option maxHeartbeats 1600000 in
theorem aggBody_part [LinearOrderedField K] {n wlen : ℕ} {lookup : List (ℕ × ℕ)}
    {st st' : AggState K π} {stop : Bool}
    (hlk : ∀ (p : ℕ) (ij : ℕ × ℕ), lookup[p]? = some ij → ij.2 < ij.1)
    (hpart : PartInv n st)
    (hrun : aggBody n wlen lookup st = some (stop, st')) :
    PartInv n st' := by
  rw [aggBody] at hrun
  simp only [Option.bind_eq_bind] at hrun
  rw [Option.bind_eq_some] at hrun
  obtain ⟨e0, hget0, hrun⟩ := hrun
  try dsimp only at hrun
  rw [Option.bind_eq_some] at hrun
  obtain ⟨ij, hlook, hrun⟩ := hrun
  try dsimp only at hrun
  have hij : ij.2 < ij.1 := hlk _ _ hlook
  simp only [if_pos hij] at hrun
  rw [Option.bind_eq_some] at hrun
  obtain ⟨cst, hcst, hrun⟩ := hrun
  try dsimp only at hrun
  have hbest2 : ∀ ds2 bp, cst.2 = some ds2 → ds2._best_partition = some bp →
      bp.flatten.Perm (List.range n) :=
    aggCritStep_best hcst hpart.best hpart.mem
  by_cases hstop : cst.1 = false
  · rw [if_pos hstop] at hrun
    have heq := Option.some_inj.mp hrun
    have hst' : st' = { st with criterion := cst.2 } := (congrArg Prod.snd heq).symm
    rw [hst']
    exact ⟨hpart.mem, hbest2⟩
  · rw [if_neg hstop] at hrun
    rw [Option.bind_eq_some] at hrun
    obtain ⟨sp, hwr, hrun⟩ := hrun
    try dsimp only at hrun
    rw [Option.bind_eq_some] at hrun
    obtain ⟨hw1, hrem, hrun⟩ := hrun
    try dsimp only at hrun
    rw [Option.bind_eq_some] at hrun
    obtain ⟨hw2, hpl, hrun⟩ := hrun
    try dsimp only at hrun
    rw [Option.bind_eq_some] at hrun
    obtain ⟨tci, hci1, hrun⟩ := hrun
    try dsimp only at hrun
    rw [Option.bind_eq_some] at hrun
    obtain ⟨ci, hci2, hrun⟩ := hrun
    try dsimp only at hrun
    rw [Option.bind_eq_some] at hrun
    obtain ⟨tcj, hcj1, hrun⟩ := hrun
    try dsimp only at hrun
    rw [Option.bind_eq_some] at hrun
    obtain ⟨cj, hcj2, hrun⟩ := hrun
    try dsimp only at hrun
    rw [Option.bind_eq_some] at hrun
    obtain ⟨dmv, hdm, hrun⟩ := hrun
    try dsimp only at hrun
    have heq := Option.some_inj.mp hrun
    have hst' : st' = { st with
        clusters := (st.clusters.set ij.2 (some (ci ++ cj))).set ij.1 none
        heap := hw2.1
        w := hw2.2
        n_clusters := st.n_clusters - 1
        dominant := dmv
        criterion := cst.2 } := (congrArg Prod.snd heq).symm
    rw [hst']
    have hci : st.clusters[ij.2]? = some (some ci) := by
      rw [hci1, hci2]
    have hcj : st.clusters[ij.1]? = some (some cj) := by
      rw [hcj1, hcj2]
    refine ⟨?_, hbest2⟩
    exact (allMembers_merge_perm (by omega) hci hcj).trans hpart.mem

end MathicsClusters

namespace MathicsClusters

variable {K R π : Type}

theorem lookupList_getElem_lt {n p : ℕ} {ij : ℕ × ℕ}
    (h : (lookupList n)[p]? = some ij) : ij.2 < ij.1 :=
  (mem_lookupList.mp (mem_of_getElem_some h)).1

theorem flatten_filterMap_truthy (l : List (List ℕ)) :
    ((l.filterMap (fun c => if c = [] then none else some c)).flatten) = l.flatten := by
  induction l with
  | nil => rfl
  | cons c rest ih =>
    rw [List.filterMap_cons]
    by_cases hc : c = []
    · rw [if_pos hc, List.flatten_cons, ih, hc]
      rfl
    · rw [if_neg hc, List.flatten_cons, List.flatten_cons, ih]

theorem aggLoop_part [LinearOrderedField K] {n wlen : ℕ} {lookup : List (ℕ × ℕ)}
    {target : ℤ}
    (hlk : ∀ (p : ℕ) (ij : ℕ × ℕ), lookup[p]? = some ij → ij.2 < ij.1) :
    ∀ (fuel : ℕ) (st st' : AggState K π), PartInv n st →
      aggLoop n wlen lookup target fuel st = some st' → PartInv n st' := by
  intro fuel
  induction fuel with
  | zero =>
    intro st st' _ hrun
    exact absurd hrun (by rw [aggLoop]; simp)
  | succ fuel ih =>
    intro st st' hpart hrun
    rw [aggLoop] at hrun
    by_cases hcond : 0 < st.heap.length ∧ target < (st.n_clusters : ℤ)
    · rw [if_pos hcond] at hrun
      rw [Option.bind_eq_bind, Option.bind_eq_some] at hrun
      obtain ⟨step, hbody, hrun⟩ := hrun
      have hbody2 : aggBody n wlen lookup st = some (step.1, step.2) := by
        rw [hbody]
      have hpart1 : PartInv n step.2 := aggBody_part hlk hpart hbody2
      by_cases hstep : step.1 = true
      · rw [if_pos hstep] at hrun
        exact (Option.some_inj.mp hrun) ▸ hpart1
      · rw [if_neg hstep] at hrun
        exact ih step.2 st' hpart1 hrun
    · rw [if_neg hcond] at hrun
      exact (Option.some_inj.mp hrun) ▸ hpart

theorem aggFinal_part [LinearOrderedField K] {n : ℕ} {st : AggState K π} {mode : String}
    {res : ClusterResult π} (points : List π) (hpart : PartInv n st)
    (hmode : mode = "clusters" ∨ mode = "components")
    (hrun : aggFinal points n mode st = some res) :
    ∃ idx : List (List ℕ),
      (idx.flatten).Perm (List.range n) ∧
      ((mode = "components" ∧
          res = ClusterResult.componentsRes (_components idx n) ∧
          (_components idx n).length = n) ∨
        (mode = "clusters" ∧ ∃ cs,
          idx.mapM (fun c => c.mapM (fun i => points[i]?)) = some cs ∧
          res = ClusterResult.clustersRes cs)) := by
  have hnd : ¬ mode = "dominant" := by
    rcases hmode with h | h <;> rw [h] <;> decide
  rw [aggFinal, if_neg hnd] at hrun
  have htail : ∀ base : List (List ℕ), (base.flatten).Perm (List.range n) →
      ((if mode = "components" then
          some (ClusterResult.componentsRes (_components
            (List.insertionSort (fun c1 c2 : List ℕ => c1.headD 0 ≤ c2.headD 0)
              ((base.map (fun c => List.insertionSort (fun x y : ℕ => x ≤ y) c)).filterMap
                (fun c => if c = [] then none else some c))) n))
        else
          ((List.insertionSort (fun c1 c2 : List ℕ => c1.headD 0 ≤ c2.headD 0)
              ((base.map (fun c => List.insertionSort (fun x y : ℕ => x ≤ y) c)).filterMap
                (fun c => if c = [] then none else some c))).mapM
            (fun c : List ℕ => c.mapM (fun i => points[i]?))).bind
            (fun cs => some (ClusterResult.clustersRes cs))) = some res) →
      ∃ idx : List (List ℕ),
        (idx.flatten).Perm (List.range n) ∧
        ((mode = "components" ∧
            res = ClusterResult.componentsRes (_components idx n) ∧
            (_components idx n).length = n) ∨
          (mode = "clusters" ∧ ∃ cs,
            idx.mapM (fun c => c.mapM (fun i => points[i]?)) = some cs ∧
            res = ClusterResult.clustersRes cs)) := by
    intro base hbflat hjp
    set result := List.insertionSort (fun c1 c2 : List ℕ => c1.headD 0 ≤ c2.headD 0)
      ((base.map (fun c => List.insertionSort (fun x y : ℕ => x ≤ y) c)).filterMap
        (fun c => if c = [] then none else some c)) with hresdef
    have hrflat : (result.flatten).Perm (List.range n) := by
      refine ((List.perm_insertionSort _ _).flatten.trans ?_).trans hbflat
      rw [flatten_filterMap_truthy]
      exact flatten_map_sort_perm base
    rcases hmode with hm | hm
    · subst hm
      rw [if_neg (by decide)] at hjp
      rw [Option.bind_eq_some] at hjp
      obtain ⟨cs, hcs, hjp⟩ := hjp
      exact ⟨result, hrflat, Or.inr ⟨rfl, cs, hcs, (Option.some_inj.mp hjp).symm⟩⟩
    · subst hm
      rw [if_pos rfl] at hjp
      exact ⟨result, hrflat, Or.inl ⟨rfl, (Option.some_inj.mp hjp).symm,
        _components_length result n⟩⟩
  rcases hcrit : st.criterion with - | ds
  · rw [hcrit] at hrun
    try dsimp only at hrun
    try simp only [Option.bind_eq_bind, Option.some_bind] at hrun
    exact htail (truthyClusters st.clusters) (truthy_flatten_perm hpart.mem) hrun
  · rw [hcrit] at hrun
    try dsimp only at hrun
    try simp only [Option.bind_eq_bind] at hrun
    rw [Option.bind_eq_some] at hrun
    obtain ⟨bp, hbp, hrun⟩ := hrun
    exact htail bp (hpart.best ds bp hcrit hbp) hrun

end MathicsClusters

namespace MathicsClusters

variable {K R π : Type}

set_option maxHeartbeats 800000 in
/-- Crash-tolerant partition invariant of `agglomerate`: whenever a call
with `mode` `'clusters'` or `'components'` returns at all — any point list,
any `k` argument, any provider, any matrix contents — the returned value
renders an index partition: a list of index clusters in which every point
index `0..n-1` appears exactly once. -/
theorem agglomerate_partition [LinearOrderedField K] (points : List π) (kk : AggK K)
    (prov : AggProvider K R) (mode : String) (res : ClusterResult π)
    (hmode : mode = "clusters" ∨ mode = "components")
    (hrun : agglomerate points kk prov mode = some res) :
    ∃ idx : List (List ℕ),
      (idx.flatten).Perm (List.range points.length) ∧
      ((mode = "components" ∧
          res = ClusterResult.componentsRes (_components idx points.length) ∧
          (_components idx points.length).length = points.length) ∨
        (mode = "clusters" ∧ ∃ cs,
          idx.mapM (fun c => c.mapM (fun i => points[i]?)) = some cs ∧
          res = ClusterResult.clustersRes cs)) := by
  unfold agglomerate at hrun
  simp only [Option.bind_eq_bind] at hrun
  rw [Option.bind_eq_some] at hrun
  obtain ⟨tdm, hmx, hrun⟩ := hrun
  try dsimp only at hrun
  rw [Option.bind_eq_some] at hrun
  obtain ⟨hw, hheap, hrun⟩ := hrun
  try dsimp only at hrun
  have hnd : ¬ mode = "dominant" := by
    rcases hmode with h | h <;> rw [h] <;> decide
  rw [if_neg hnd, if_pos hmode] at hrun
  try simp only [Option.some_bind] at hrun
  rw [Option.bind_eq_some] at hrun
  obtain ⟨stf, hloop, hrun⟩ := hrun
  refine aggFinal_part points ?_ hmode hrun
  refine aggLoop_part (fun p ij h => lookupList_getElem_lt h) _ _ stf ?_ hloop
  constructor
  · show (allMembers ((List.range points.length).map (fun i => some [i]))).Perm _
    rw [allMembers_init]
  · intro ds bp hcrit hbp
    rcases kk with kz | ml
    · exact Option.noConfusion (show (none : Option (DunnState K)) = some ds from hcrit)
    · have hds : dunnInit tdm points.length ml = ds :=
        Option.some_inj.mp (show some (dunnInit tdm points.length ml) = some ds from hcrit)
      rw [← hds] at hbp
      exact Option.noConfusion (show (none : Option (List (List ℕ))) = some bp from hbp)

end MathicsClusters

namespace MathicsClusters

/-! ### The CLARANS partitional engine (lines 155-606).

All randomized and distance-querying code is embedded as `Prog K` programs
(section "Programs over a distance provider and a random stream").  The
local-index distance `distance(i, j) = d0(i_to_i0[i], i_to_i0[j])` of
`_Clusterer._distance_lambda` is `pDistT tr`; the two unbounded searches
(the AGORAS sampling loop and the CLARANS neighbour loop) take explicit
fuel, and every claim below is proved for every fuel value.  The host
`math` calls of `_agoras` (`int(math.ceil(k*(math.log(k)+gamma)))` and
`k*math.log(k)+gamma*k`) are threaded in as an abstract per-`k` constant
table `agF : ℕ → ℕ × K`; the claims hold for every such table.  Float
literals (`0.95`, `0.0125`) are the exact field constants `19/20`,
`1/80`, consistent with the exact-arithmetic reading of `fsum` used
throughout this development. -/

variable {K R π : Type}

/-- `distance(i, j) = d0(i_to_i0[i], i_to_i0[j])` of
`_Clusterer._distance_lambda` (out-of-range local index: `IndexError`). -/
def pDistT [LinearOrderedField K] (tr : List ℕ) (i j : ℕ) : Prog K K :=
  match tr[i]?, tr[j]? with
  | some a, some b => pDist a b
  | _, _ => .fail

/-- Python list indexing with negative-index wrap-around. -/
def pyIndex {α : Type} (l : List α) (i : ℤ) : Option α :=
  if 0 ≤ i then l[i.toNat]?
  else if 0 ≤ i + (l.length : ℤ) then l[(i + (l.length : ℤ)).toNat]?
  else none

/-- Python `int(x)` for the nonnegative reals it is applied to here
(truncation = floor). -/
def pyInt [LinearOrderedField K] [FloorRing K] (x : K) : ℤ :=
  if 0 ≤ x then ⌊x⌋ else -⌊-x⌋

/-- Decoding of one `_shuffled_tuples(k, n-k)` draw (lines 166-176):
`(idx % k, (idx // k) % (n - k))`; a zero range raises
`ZeroDivisionError`. -/
def tupDecode (k nk : ℕ) (idx : ℤ) : Option (ℤ × ℤ) :=
  if k = 0 ∨ nk = 0 then none
  else some (idx % (k : ℤ), (idx / (k : ℤ)) % (nk : ℤ))

/-- The argmin scan of `_unmapped` (lines 184-196): index in `v` (as an
enumerated list) of the element closest to `uu`, first minimum wins,
distance `0` for an equal element. -/
def unmappedArg [LinearOrderedField K] (tr : List ℕ) (uu : ℕ) :
    List (ℕ × ℕ) → Option K → Option ℕ → Prog K (Option ℕ)
  | [], _, mi => pure mi
  | (idx, vv) :: rest, md, mi => do
    let d ← if uu = vv then pure 0 else pDistT tr uu vv
    match md with
    | none => unmappedArg tr uu rest (some d) (some idx)
    | some m =>
      if d < m then unmappedArg tr uu rest (some d) (some idx)
      else unmappedArg tr uu rest md mi

/-- The mapping pass of `_unmapped`: mark the closest element of `v` for
every element of `u` (`mapped[min_i] = True`; `min_i = None`, i.e. empty
`v`, is a `TypeError`). -/
def unmappedGo [LinearOrderedField K] (tr : List ℕ) (v : List ℕ) :
    List ℕ → List Bool → Prog K (List Bool)
  | [], mp => pure mp
  | uu :: rest, mp => do
    let mi ← unmappedArg tr uu v.enum none none
    match mi with
    | none => .fail
    | some idx => unmappedGo tr v rest (mp.set idx true)

/-- Python `_unmapped(u, v, distance)` (lines 179-197). -/
def _unmapped [LinearOrderedField K] (tr : List ℕ) (u v : List ℕ) :
    Prog K (List ℕ) := do
  let mapped ← unmappedGo tr v u (List.replicate v.length false)
  pure (((mapped.zip v).filter (fun x => x.1)).map (fun x => x.2))

/-- The `m` samples `[random.sample(p, min(int(r), n)) for _ in range(m)]`
of one AGORAS round (line 212). -/
def agorasSamples {K : Type} (p : List ℕ) (rInt : ℤ) : ℕ → Prog K (List (List ℕ))
  | 0 => pure []
  | m + 1 => do
    let s ← pSample p rInt
    let rest ← agorasSamples p rInt m
    pure (s :: rest)

/-- The chained `_unmapped` pass of one AGORAS round (lines 213-217):
returns the 1-based break position (if any) and the final last sample. -/
def agorasChain [LinearOrderedField K] (tr : List ℕ) (k : ℕ) :
    List ℕ → List (List ℕ) → ℕ → Prog K (Option ℕ × List ℕ)
  | prev, [], _ => pure (none, prev)
  | prev, nxt :: rest, i => do
    let nxt2 ← _unmapped tr prev nxt
    if nxt2.length < k then
      pure (some (i + 1), (nxt2 :: rest).getLast (by simp))
    else agorasChain tr k nxt2 rest (i + 1)

/-- The `while True` search of `_agoras` (lines 211-223), fueled. -/
def agorasLoop [LinearOrderedField K] [FloorRing K] (tr : List ℕ) (n k : ℕ)
    (p : List ℕ) (m : ℕ) : ℕ → K → Prog K (List ℕ)
  | 0, _ => .fail
  | fuel + 1, r => do
    let s ← agorasSamples p (min (pyInt r) (n : ℤ)) m
    match s with
    | [] => .fail
    | s0 :: srest => do
      let res ← agorasChain tr k s0 srest 0
      let r1 := match res.1 with
        | some i1 => r + r * ((m : K) - (i1 : K)) / (m : K)
        | none => r
      if k < res.2.length then agorasLoop tr n k p m fuel (r1 * (19 / 20 : K))
      else if res.2.length = k then pure res.2
      else agorasLoop tr n k p m fuel r1

/-- Python `_agoras(n, k, distance)` (lines 200-223), with the
host-computed constants `m` and initial `r` passed in. -/
def _agoras [LinearOrderedField K] [FloorRing K] (tr : List ℕ) (n k : ℕ)
    (am : ℕ) (ar : K) (fuel : ℕ) : Prog K (List ℕ) := do
  let p := List.range n
  if (n : K) < ar then
    pSample p (k : ℤ)
  else
    agorasLoop tr n k p am fuel ar

/-- The cursor walk of the `_Medoids._unselected` generator
(lines 346-361): all indices of `range(n)` not skipped by the sorted
`selected` cursor (`IndexError` for empty `selected`). -/
def _unselected (selected : List ℕ) (n : ℕ) : Option (List ℕ) := do
  let z0 : ℕ ← selected[0]?
  some ((List.range n).foldl
    (fun (acc : List ℕ × ℕ × ℤ) (i : ℕ) =>
      if ((i : ℕ) : ℤ) = acc.2.2 then
        if h : acc.2.1 < selected.length then
          (acc.1, acc.2.1 + 1, ((selected.get ⟨acc.2.1, h⟩ : ℕ) : ℤ))
        else (acc.1, acc.2.1, -1)
      else (acc.1 ++ [i], acc.2.1, acc.2.2))
    (([] : List ℕ), 1, (z0 : ℤ))).1

/-- The distance/medoid pair list `[(distance(i, j), i) for i in selected]`
of `_update_clusters` (line 385). -/
def pDistPairs [LinearOrderedField K] (tr : List ℕ) (j : ℕ) :
    List ℕ → Prog K (List (K × ℕ))
  | [] => pure []
  | i :: rest => do
    let d ← pDistT tr i j
    let r ← pDistPairs tr j rest
    pure ((d, i) :: r)

/-- Lexicographic tuple comparison as Python compares `(d, i)` pairs. -/
def lexLeB [LinearOrderedField K] (x y : K × ℕ) : Bool :=
  decide (x.1 < y.1) || (decide (x.1 = y.1) && decide (x.2 ≤ y.2))

/-- Python `_Medoids._update_clusters(a)` (lines 378-388): for every `j` in
`a`, store the nearest two medoids `(i1, i2)` (`nsmallest(2, ...)` =
first two of the sorted pair list; fewer than two medoids fails the tuple
unpacking, `i1 == i2` fails the assert) and yield the nearest distance. -/
def _update_clusters [LinearOrderedField K] (tr : List ℕ) (selected : List ℕ) :
    List ℕ → List (Option (ℕ × ℕ)) → Prog K (List (Option (ℕ × ℕ)) × List K)
  | [], cl => pure (cl, [])
  | j :: rest, cl => do
    let pairs ← pDistPairs tr j selected
    match List.insertionSort (fun x y => lexLeB x y) pairs with
    | s1 :: s2 :: _ =>
      if s1.2 = s2.2 then .fail
      else do
        let (cl2, ds) ← _update_clusters tr selected rest (cl.set j (some (s1.2, s2.2)))
        pure (cl2, s1.1 :: ds)
    | _ => .fail

/-- State of a Python `_Medoids` object: sizes, the sorted medoid list, the
per-point nearest-two table, the running cost, and the state of the
`_shuffled_tuples(k, n - k)` swap stream. -/
structure MedState (K : Type) where
  n : ℕ
  k : ℕ
  selected : List ℕ
  clusters : List (Option (ℕ × ℕ))
  cost : K
  swapSt : SRState

/-- The `for j in selected: if h >= j: h += 1` shift of
`_next_random_swap` (lines 370-372). -/
def shiftH (selected : List ℕ) (h : ℤ) : ℤ :=
  selected.foldl (fun h j => if (j : ℤ) ≤ h then h + 1 else h) h

/-- Python `_Medoids._next_random_swap` (lines 366-376): draw the next
not-yet-tried `(medoid index, unselected rank)` pair from the shuffled
tuple stream (`none` = `StopIteration`, all swaps tried), and decode it
into the pair `(i, h)` of a selected medoid and an unselected point. -/
def _next_random_swap [LinearOrderedField K] (st : MedState K) :
    Prog K (Option ((ℕ × ℕ) × MedState K)) := do
  let step ← srNext st.swapSt
  match step with
  | none => pure none
  | some (idx, sst2) =>
    match tupDecode st.k (st.n - st.k) idx with
    | none => .fail
    | some (ni, h0) =>
      let h := shiftH st.selected h0
      match st.selected[ni.toNat]? with
      | none => .fail
      | some i => pure (some ((i, h.toNat), { st with swapSt := sst2 }))

/-- First `calculate_t` yield (line 416): `min(distance(i, j) for j in
chain(selected, [h]) if j != i)` (`ValueError` on an empty generator). -/
def minCandidate [LinearOrderedField K] (tr : List ℕ) (i h : ℕ)
    (selected : List ℕ) : Prog K K := do
  let ds ← pDistPairs tr i ((selected ++ [h]).filter (fun j => j ≠ i))
  match (ds.map Prod.fst).min? with
  | none => .fail
  | some v => pure v

/-- The per-point part of `calculate_t` (lines 422-444): the yielded cost
deltas (summed) and the `fast_updates` list, over the unselected points
other than `h`. -/
def calcTLoop [LinearOrderedField K] (tr : List ℕ) (i h : ℕ)
    (cl : List (Option (ℕ × ℕ))) : List ℕ → Prog K (K × List (ℕ × ℕ))
  | [] => pure (0, [])
  | j :: rest =>
    if j = h then calcTLoop tr i h cl rest
    else do
      match cl[j]? with
      | some (some n12) => do
        let dh ← pDistT tr j h
        if n12.1 = i then do
          let d2 ← pDistT tr j n12.2
          if d2 ≤ dh then do
            let dji ← pDistT tr j i
            let (trest, frest) ← calcTLoop tr i h cl rest
            pure (d2 - dji + trest, (j, n12.2) :: frest)
          else do
            let dji ← pDistT tr j i
            let (trest, frest) ← calcTLoop tr i h cl rest
            pure (dh - dji + trest, (j, h) :: frest)
        else do
          let d2 ← pDistT tr j n12.1
          if d2 ≤ dh then do
            let (trest, frest) ← calcTLoop tr i h cl rest
            pure (trest, (j, n12.1) :: frest)
          else do
            let (trest, frest) ← calcTLoop tr i h cl rest
            pure (dh - d2 + trest, (j, h) :: frest)
      | _ => .fail

/-- The full `t = fsum(calculate_t())` of `swap` (lines 414-446): the two
leading yields (attach `i`, detach `h`) plus the per-point deltas;
returns `t` with the recorded `fast_updates`. -/
def calculateT [LinearOrderedField K] (tr : List ℕ) (i h : ℕ)
    (st : MedState K) : Prog K (K × List (ℕ × ℕ)) := do
  let t1 ← minCandidate tr i h st.selected
  let t2 ← (match st.clusters[h]? with
    | some (some pr) => do
      let d ← pDistT tr h pr.1
      pure (-d)
    | _ => .fail)
  match _unselected st.selected st.n with
  | none => .fail
  | some uns => do
    let (t3, fast) ← calcTLoop tr i h st.clusters uns
    pure (t1 + t2 + t3, fast)

/-- The argmin over `selected` (minus `m`) in the slow-update branch of an
accepted swap (lines 460-467), first minimum wins. -/
def argminDist [LinearOrderedField K] (tr : List ℕ) (j : ℕ) :
    List ℕ → Option K → Option ℕ → Prog K (Option ℕ)
  | [], _, mk => pure mk
  | kk :: rest, md, mk => do
    let d ← pDistT tr kk j
    match md with
    | none => argminDist tr j rest (some d) (some kk)
    | some m =>
      if d < m then argminDist tr j rest (some d) (some kk)
      else argminDist tr j rest md mk

/-- The `for j, m in fast_updates` pass of an accepted swap
(lines 457-469): collect the points needing a slow update and rewrite the
nearest-two table for the others (the asserts of line 468 fail the run). -/
def fastLoop [LinearOrderedField K] (tr : List ℕ) (i : ℕ) (selected2 : List ℕ) :
    List (ℕ × ℕ) → List (Option (ℕ × ℕ)) → List ℕ →
      Prog K (List (Option (ℕ × ℕ)) × List ℕ)
  | [], cl, slow => pure (cl, slow)
  | jm :: rest, cl, slow =>
    if jm.2 = i then fastLoop tr i selected2 rest cl (slow ++ [jm.1])
    else do
      let mk ← argminDist tr jm.1 (selected2.filter (fun kk => kk ≠ jm.2)) none none
      match mk with
      | none => .fail
      | some mk2 =>
        if jm.2 = mk2 then .fail
        else fastLoop tr i selected2 rest (cl.set jm.1 (some (jm.2, mk2))) slow

/-- Python `_Medoids.swap()` (lines 396-482): draw a candidate swap
(`(False, unchanged)` when all swaps are exhausted), compute the total
cost delta `t`, and accept exactly when `t < 0`, applying the fast/slow
cluster-table updates, adding `t` to the running cost and resetting the
swap stream. -/
def MedState.swap [LinearOrderedField K] (tr : List ℕ) (st : MedState K) :
    Prog K (Bool × MedState K) := do
  let nxt ← _next_random_swap st
  match nxt with
  | none => pure (false, st)
  | some (ih, st1) => do
    let (t, fast) ← calculateT tr ih.1 ih.2 st1
    if t < 0 then do
      let selected2 := List.orderedInsert (fun a b : ℕ => a ≤ b) ih.2
        (st1.selected.erase ih.1)
      let (cl1, slow) ← fastLoop tr ih.1 selected2 fast st1.clusters [ih.1]
      let (cl2, _) ← _update_clusters tr selected2 slow cl1
      pure (true, { st1 with
        selected := selected2
        clusters := cl2
        cost := st1.cost + t
        swapSt := ⟨st1.k * (st1.n - st1.k), 0, fun _ => none⟩ })
    else
      pure (false, st1)

/-- Python `_Medoids.__init__` (lines 320-334): AGORAS seed, sort, fresh
swap stream, nearest-two table and cost over the unselected points. -/
def medInit [LinearOrderedField K] [FloorRing K] (tr : List ℕ)
    (agF : ℕ → ℕ × K) (fuel n k : ℕ) : Prog K (MedState K) := do
  let sel0 ← _agoras tr n k (agF k).1 (agF k).2 fuel
  let selected := List.insertionSort (fun a b : ℕ => a ≤ b) sel0
  match _unselected selected n with
  | none => .fail
  | some uns => do
    let (cl, ds) ← _update_clusters tr selected uns (List.replicate n none)
    pure ⟨n, k, selected, cl, ds.sum, ⟨k * (n - k), 0, fun _ => none⟩⟩

/-- Python `_Medoids.clusters()` (lines 336-344): for every medoid, the
unselected points whose nearest medoid it is, with the medoid inserted in
order. -/
def MedState.clustersOf (st : MedState K) : Option (List _Cluster) := do
  let uns ← _unselected st.selected st.n
  st.selected.mapM (fun i => do
    let pairs ← uns.mapM (fun j => (st.clusters[j]?).join)
    let members := ((uns.zip pairs).filter (fun x => x.2.1 = i)).map (fun x => x.1)
    some (⟨some i, List.orderedInsert (fun a b : ℕ => a ≤ b) i members⟩ : _Cluster))

/-- `max_neighbours = min(max(0.0125 * k * (n - k), 250), k * (n - k))`
(line 515), in exact field arithmetic. -/
def maxNeighbours [LinearOrderedField K] (k n : ℕ) : K :=
  min (max ((1 / 80 : K) * (k : K) * ((n : K) - (k : K))) 250)
    ((k : K) * ((n : K) - (k : K)))

/-- The `while j <= max_neighbours` local search of `with_k`
(lines 521-526), fueled. -/
def withKLoop [LinearOrderedField K] (tr : List ℕ) (maxN : K) :
    ℕ → ℕ → MedState K → Prog K (MedState K)
  | 0, _, _ => .fail
  | fuel + 1, j, st =>
    if (j : K) ≤ maxN then do
      let (acc, st2) ← st.swap tr
      if acc then withKLoop tr maxN fuel 1 st2
      else withKLoop tr maxN fuel (j + 1) st2
    else pure st

/-- Python `_Clusterer.with_k(k)` (lines 509-533): two CLARANS local
searches from fresh AGORAS seeds, keeping the cheaper result. -/
def with_k [LinearOrderedField K] [FloorRing K] (tr : List ℕ) (agF : ℕ → ℕ × K)
    (fuel n k : ℕ) : Prog K (List _Cluster) := do
  let med1 ← medInit tr agF fuel n k
  let med1f ← withKLoop tr (maxNeighbours k n) fuel 1 med1
  let med2 ← medInit tr agF fuel n k
  let med2f ← withKLoop tr (maxNeighbours k n) fuel 1 med2
  let best := if med2f.cost < med1f.cost then med2f else med1f
  match best.clustersOf with
  | none => .fail
  | some cs => pure cs

/-- The `for i, c in enumerate(clusters)` recursion of `without_k`
(lines 565-572), with the recursive call passed in (`rec` is `without_k`
at the next smaller fuel). -/
def wkSubLoop [LinearOrderedField K]
    (rec : List ℕ → Option ℕ → List _Cluster → Option K → Prog K (List (List ℕ)))
    (clusters0 : List _Cluster) (siblings : List _Cluster) (newC : Option K) :
    List ℕ → Prog K (List (List ℕ))
  | [] => pure []
  | i :: rest => do
    match clusters0[i]?, pyIndex clusters0 (1 - (i : ℤ)) with
    | some c0, some d => do
      let sub ← rec c0.members c0.medoid (siblings ++ [d]) newC
      let restr ← wkSubLoop rec clusters0 siblings newC rest
      pure (sub ++ restr)
    | _, _ => .fail

/-- Python `_Clusterer.without_k(criterion)` (lines 535-572): recursive
bisection; split into two CLARANS clusters, ask the split criterion, and
recurse into the two halves or return the whole chunk. -/
def without_k [LinearOrderedField K] [FloorRing K] (agF : ℕ → ℕ × K) :
    ℕ → List ℕ → Option ℕ → List _Cluster → Option K → Prog K (List (List ℕ))
  | 0, _, _, _, _ => .fail
  | fuel + 1, tr, medoid0, siblings, lastC => do
    let n := tr.length
    if n < 2 then
      match tr[0]? with
      | none => .fail
      | some x => pure [[x]]
    else do
      let clusters ← with_k tr agF fuel n 2
      match clusters.mapM (fun c => c.translate tr) with
      | none => .fail
      | some clusters0 => do
        let merged : _Cluster := ⟨medoid0, clusters0.flatMap (fun c => c.members)⟩
        let sn ← shouldSplit lastC siblings merged clusters0
        if sn.1 = false then pure [tr]
        else
          wkSubLoop (without_k agF fuel) clusters0 siblings sn.2 (List.range clusters.length)

/-- The `k` argument of `optimize`: an integer cluster count or the
`(AutomaticSplitCriterion, kwargs)` pair (whose only keyword is the
initial `last_criterion` state). -/
inductive KParam (K : Type) where
  | int (k : ℤ)
  | criterion (last : Option K)

/-- The body of `optimize` between seeding and the `finally` (lines
582-604), as a program over the distance provider and the random
stream. -/
def optimizeBody [LinearOrderedField K] [FloorRing K] (agF : ℕ → ℕ × K)
    (fuel : ℕ) (p : List π) (kp : KParam K) (mode : String) :
    Prog K (ClusterResult π) := do
  let n := p.length
  let clusters ← match kp with
    | .criterion last => without_k agF fuel (List.range n) none [] last
    | .int kz =>
      if kz ≤ 0 then .fail
      else do
        let cs ← with_k (List.range n) agF fuel n kz.toNat
        pure (cs.map _Cluster.members)
  if clusters.any (fun c => c.isEmpty) then .fail
  else
    let sorted := List.insertionSort (fun c1 c2 : List ℕ => c1.headD 0 ≤ c2.headD 0)
      clusters
    if mode = "clusters" then
      match sorted.mapM (fun c => c.mapM (fun i => p[i]?)) with
      | none => .fail
      | some cs => pure (.clustersRes cs)
    else if mode = "components" then pure (.componentsRes (_components sorted n))
    else .fail

/-- The `k == 1` test of line 575 (a tuple `k` never equals `1`). -/
def KParam.isOne {K : Type} : KParam K → Bool
  | .int 1 => true
  | _ => false

/-- Python `optimize(p, k, distances, mode, seed)` (lines 574-606): the
`k == 1` short-circuit returns `[p]` before any randomness is touched;
otherwise the body runs on a freshly seeded stream and the `finally`
restores the caller-visible random state. -/
def optimize [LinearOrderedField K] [FloorRing K] (gen : RGen R)
    (P : DistanceProvider K R) (agF : ℕ → ℕ × K) (fuel : ℕ) (p : List π)
    (kp : KParam K) (mode : String) (seed : ℤ) (s : P.σ) (r : R) :
    Option (ClusterResult π) × P.σ × R :=
  if kp.isOne then (some (.clustersRes [p]), s, r)
  else
    let out := run gen P (optimizeBody agF fuel p kp mode) s (gen.seed seed)
    (out.1, out.2.1, r)

end MathicsClusters

namespace MathicsClusters

/-- Counterexample to the original C4 reading: `optimize([10, 20], 1,
distances, mode='components')` does not return a length-2 array of `1`s; the
`k == 1` short-circuit (line 575-576) fires before mode dispatch and
returns `[p]`, a clusters-shaped result. -/
theorem C4_k1_counterexample :
    optimize constGen zeroProvider (fun _ => (0, (0 : ℚ))) 1 [10, 20]
        (KParam.int 1) "components" 0 () () =
      (some (ClusterResult.clustersRes [[10, 20]]), (), ()) ∧
    ∀ arr : List ℕ,
      (ClusterResult.clustersRes [[10, 20]] : ClusterResult ℕ) ≠
        ClusterResult.componentsRes arr := by
  exact ⟨rfl, fun arr h => ClusterResult.noConfusion h⟩

/-- C4: for every point list `p`, every distance provider, every mode
string, every seed and every incoming random/provider state, `optimize(p,
1, ...)` short-circuits to the single all-inclusive cluster `[p]` in
`clusters` shape — before seeding or consuming any randomness, and
regardless of the requested mode (so `mode='components'` does not produce
a per-position id array). -/
theorem C4_k1_short_circuit {K R π : Type} [LinearOrderedField K] [FloorRing K]
    (gen : RGen R) (P : DistanceProvider K R) (agF : ℕ → ℕ × K) (fuel : ℕ)
    (p : List π) (mode : String) (seed : ℤ) (s : P.σ) (r : R) :
    optimize gen P agF fuel p (KParam.int 1) mode seed s r =
      (some (ClusterResult.clustersRes [p]), s, r) := rfl

end MathicsClusters

namespace MathicsClusters

/-! ### Save/restore discipline and determinism (clusters.py lines 574-606,
108-122).

`optimize` snapshots the caller's random stream, reseeds from `seed`, runs
its body, and restores the snapshot in a `finally`; `LazyDistances.distance`
does the same around `_compute_distance`.  `ReplayLaws` states the provider
contract this induces (the stream is never perturbed by a distance query,
cached answers replay); `run_replay` extends it to whole programs by
induction, which is what makes a second `optimize` call deterministic even
though the first call may have warmed the provider cache. -/

/-- Provider contract with respect to a preorder `le` on provider states
("has at least this cache"): `distance(i, j)` leaves the caller-visible
random stream exactly where it found it, only grows the provider state,
replays a successful answer unchanged from any later state, and replays a
crash.  Both shipped providers satisfy it (`precomputed_replay_laws`,
`lazy_replay_laws`). -/
structure ReplayLaws {K R : Type} (P : DistanceProvider K R)
    (le : P.σ → P.σ → Prop) : Prop where
  le_refl : ∀ s, le s s
  le_trans : ∀ a b c, le a b → le b c → le a c
  le_dist : ∀ i j s r, le s (P.dist i j s r).2.1
  rng_dist : ∀ i j s r, (P.dist i j s r).2.2 = r
  replay_some : ∀ i j s r v s2, P.dist i j s r = (some v, s2, r) →
    ∀ d, le s2 d → P.dist i j d r = (some v, d, r)
  replay_none : ∀ i j s r s2, P.dist i j s r = (none, s2, r) →
    P.dist i j s2 r = (none, s2, r)

/-- Running any program only grows the provider state. -/
theorem run_state_le {K R : Type} {gen : RGen R} {P : DistanceProvider K R}
    {le : P.σ → P.σ → Prop} (L : ReplayLaws P le) {α : Type} (t : Prog K α) :
    ∀ s r, le s (run gen P t s r).2.1 := by
  induction t with
  | pure a => intro s r; exact L.le_refl s
  | fail => intro s r; exact L.le_refl s
  | dist i j k ih =>
    intro s r
    simp only [run]
    rcases hd : P.dist i j s r with ⟨o, s1, r1⟩
    have h1 : le s s1 := by
      have h := L.le_dist i j s r
      rw [hd] at h
      exact h
    cases o with
    | some v => exact L.le_trans _ _ _ h1 (ih v s1 r1)
    | none => exact h1
  | randint a b k ih =>
    intro s r
    simp only [run]
    exact ih _ s _
  | sample pop m k ih =>
    intro s r
    simp only [run]
    rcases hg : gen.sample pop m r with ⟨o, r1⟩
    cases o with
    | some l => exact ih l s r1
    | none => exact L.le_refl s

/-- Replay: a run that ended in provider state `s2` (successfully or by an
exception) repeats verbatim when started again from `s2` with the same
random-stream state — same result, same final states. -/
theorem run_replay {K R : Type} {gen : RGen R} {P : DistanceProvider K R}
    {le : P.σ → P.σ → Prop} (L : ReplayLaws P le) {α : Type} (t : Prog K α) :
    ∀ s r res s2 r2, run gen P t s r = (res, s2, r2) →
      run gen P t s2 r = (res, s2, r2) := by
  induction t with
  | pure a =>
    intro s r res s2 r2 h
    simp only [run, Prod.mk.injEq] at h
    obtain ⟨rfl, rfl, rfl⟩ := h
    rfl
  | fail =>
    intro s r res s2 r2 h
    simp only [run, Prod.mk.injEq] at h
    obtain ⟨rfl, rfl, rfl⟩ := h
    rfl
  | dist i j k ih =>
    intro s r res s2 r2 h
    simp only [run] at h ⊢
    rcases hd : P.dist i j s r with ⟨o, s1, r1⟩
    rw [hd] at h
    have hr1 : r1 = r := by
      have hh := L.rng_dist i j s r
      rw [hd] at hh
      exact hh
    rw [hr1] at h hd
    cases o with
    | some v =>
      dsimp only at h
      have hle : le s1 s2 := by
        have hh := @run_state_le K R gen P le L α (k v) s1 r
        rw [h] at hh
        exact hh
      rw [L.replay_some i j s r v s1 hd s2 hle]
      exact ih v s1 r res s2 r2 h
    | none =>
      dsimp only at h
      simp only [Prod.mk.injEq] at h
      obtain ⟨rfl, rfl, rfl⟩ := h
      rw [L.replay_none i j s r s1 hd]
  | randint a b k ih =>
    intro s r res s2 r2 h
    simp only [run] at h ⊢
    exact ih _ s _ res s2 r2 h
  | sample pop m k ih =>
    intro s r res s2 r2 h
    simp only [run] at h ⊢
    rcases hg : gen.sample pop m r with ⟨o, r1⟩
    rw [hg] at h
    cases o with
    | some l => exact ih l s r1 res s2 r2 h
    | none =>
      simp only [Prod.mk.injEq] at h
      obtain ⟨rfl, rfl, rfl⟩ := h
      rfl

/-- `PrecomputedDistances` seen as a `DistanceProvider`: stateless, and it
touches neither the provider state nor the random stream. -/
def PrecomputedDistances.provider {K : Type} (R : Type) (pd : PrecomputedDistances K) :
    DistanceProvider K R :=
  ⟨Unit, fun i j s r => (pd.distance i j, s, r)⟩

theorem precomputed_replay_laws {K R : Type} (pd : PrecomputedDistances K) :
    ReplayLaws (pd.provider R) (fun _ _ => True) := by
  refine ⟨fun _ => trivial, fun _ _ _ _ _ => trivial, fun _ _ _ _ => trivial,
    fun _ _ _ _ => rfl, ?_, ?_⟩
  · intro i j s r v s2 h d _
    dsimp only [PrecomputedDistances.provider] at h ⊢
    simp only [Prod.mk.injEq] at h
    rw [h.1]
  · intro i j s r s2 h
    dsimp only [PrecomputedDistances.provider] at h ⊢
    simp only [Prod.mk.injEq] at h
    obtain ⟨h1, rfl, -⟩ := h
    rw [h1]

/-- Cache-extension preorder on lazy providers: the subclass hook
`_compute_distance` is unchanged and every cached entry is preserved. -/
def LazyDistances.le {K R : Type} (a b : LazyDistances K R) : Prop :=
  a._compute_distance = b._compute_distance ∧
    ∀ idx v, a._computed idx = some v → b._computed idx = some v

/-- `LazyDistances` seen as a `DistanceProvider`: the provider state is the
lazy cache itself. -/
def LazyDistances.provider (K R : Type) : DistanceProvider K R :=
  ⟨LazyDistances K R, fun i j s r => s.distance i j r⟩

theorem lazy_replay_laws {K R : Type} :
    ReplayLaws (LazyDistances.provider K R) LazyDistances.le := by
  refine ⟨fun s => ⟨rfl, fun _ _ h => h⟩,
    fun a b c hab hbc => ⟨hab.1.trans hbc.1, fun idx v h => hbc.2 idx v (hab.2 idx v h)⟩,
    ?_, ?_, ?_, ?_⟩
  · intro i j s r
    dsimp only [LazyDistances.provider, LazyDistances.distance]
    rcases hc : s._computed (_index (max i j) (min i j)) with _ | d
    · rcases hx : s._compute_distance i j r with ⟨o, r1⟩
      cases o with
      | some d =>
        refine ⟨rfl, fun idx v h => ?_⟩
        dsimp only
        rw [Function.update_apply]
        by_cases hidx : idx = _index (max i j) (min i j)
        · rw [hidx] at h; rw [h] at hc; exact absurd hc (by simp)
        · rw [if_neg hidx]; exact h
      | none => exact ⟨rfl, fun _ _ h => h⟩
    · exact ⟨rfl, fun _ _ h => h⟩
  · intro i j s r
    dsimp only [LazyDistances.provider, LazyDistances.distance]
    rcases hc : s._computed (_index (max i j) (min i j)) with _ | d
    · rcases hx : s._compute_distance i j r with ⟨o, r1⟩
      cases o with
      | some d => rfl
      | none => rfl
    · rfl
  · intro i j s r v s2 h d hle
    dsimp only [LazyDistances.provider, LazyDistances.distance] at h ⊢
    rcases hc : s._computed (_index (max i j) (min i j)) with _ | w
    · rw [hc] at h
      rcases hx : s._compute_distance i j r with ⟨o, r1⟩
      rw [hx] at h
      cases o with
      | some w =>
        simp only [Prod.mk.injEq, Option.some.injEq] at h
        obtain ⟨hv, hs2, -⟩ := h
        rw [← hs2] at hle
        have hd2 : d._computed (_index (max i j) (min i j)) = some w := by
          refine hle.2 _ _ ?_
          dsimp only
          rw [Function.update_apply, if_pos rfl]
        rw [hd2, hv]
      | none => exact absurd h (by simp)
    · rw [hc] at h
      simp only [Prod.mk.injEq, Option.some.injEq] at h
      obtain ⟨hv, hs2, -⟩ := h
      rw [← hs2] at hle
      rw [hle.2 _ _ hc, hv]
  · intro i j s r s2 h
    dsimp only [LazyDistances.provider, LazyDistances.distance] at h ⊢
    rcases hc : s._computed (_index (max i j) (min i j)) with _ | w
    · rw [hc] at h
      rcases hx : s._compute_distance i j r with ⟨o, r1⟩
      rw [hx] at h
      cases o with
      | some w => exact absurd h (by simp)
      | none =>
        simp only [Prod.mk.injEq] at h
        obtain ⟨-, rfl, -⟩ := h
        rw [hc, hx]
    · rw [hc] at h
      exact absurd h (by simp)

/-- C2: determinism and random-stream hygiene of `optimize` (lines 574-606).
For every point list, `k`, mode, seed, provider state and incoming
random-stream states, with any distance provider satisfying the
save/restore contract `ReplayLaws`: (1) after the call the caller-visible
random stream is exactly the incoming one, on every exit path including
exceptional exit; (2) the returned result does not depend on the incoming
stream state; (3) a second call with identical arguments, made on the
provider state the first call left behind and any stream state, returns
the identical output, leaves the provider state unchanged and restores its
own incoming stream; and (4), (5): every `PrecomputedDistances` and every
`LazyDistances` provider satisfies the contract. -/
theorem C2_optimize_determinism {K R π : Type} [LinearOrderedField K] [FloorRing K]
    (gen : RGen R) (P : DistanceProvider K R) (le : P.σ → P.σ → Prop)
    (L : ReplayLaws P le) (agF : ℕ → ℕ × K) (fuel : ℕ) (p : List π)
    (kp : KParam K) (mode : String) (seed : ℤ) (s : P.σ) (r r2 : R) :
    (optimize gen P agF fuel p kp mode seed s r).2.2 = r ∧
    (optimize gen P agF fuel p kp mode seed s r).1 =
      (optimize gen P agF fuel p kp mode seed s r2).1 ∧
    optimize gen P agF fuel p kp mode seed
        (optimize gen P agF fuel p kp mode seed s r).2.1 r2 =
      ((optimize gen P agF fuel p kp mode seed s r).1,
        (optimize gen P agF fuel p kp mode seed s r).2.1, r2) ∧
    (∀ pd : PrecomputedDistances K, ReplayLaws (pd.provider R) (fun _ _ => True)) ∧
    ReplayLaws (LazyDistances.provider K R) LazyDistances.le := by
  refine ⟨?_, ?_, ?_, fun pd => precomputed_replay_laws pd, lazy_replay_laws⟩
  · by_cases hk : kp.isOne
    · simp [optimize, hk]
    · simp [optimize, hk]
  · by_cases hk : kp.isOne
    · simp [optimize, hk]
    · simp [optimize, hk]
  · by_cases hk : kp.isOne
    · simp [optimize, hk]
    · rcases hout : run gen P (optimizeBody agF fuel p kp mode) s (gen.seed seed)
        with ⟨o, s1, r1⟩
      have h1 := run_replay L (optimizeBody agF fuel p kp mode) s (gen.seed seed)
        o s1 r1 hout
      simp [optimize, hk, hout, h1]

end MathicsClusters

namespace MathicsClusters

/-- Concrete instantiation of the determinism property: `optimize` on two
points with `k = 2`, the one-entry precomputed provider and the constant
generator. -/
theorem C2_optimize_determinism_witness :
    (optimize constGen ((⟨[(0 : ℚ)]⟩ : PrecomputedDistances ℚ).provider Unit)
        (fun _ => (0, (0 : ℚ))) 1 [10, 20] (KParam.int 2) "clusters" 7 () ()).2.2 = () ∧
    (optimize constGen ((⟨[(0 : ℚ)]⟩ : PrecomputedDistances ℚ).provider Unit)
        (fun _ => (0, (0 : ℚ))) 1 [10, 20] (KParam.int 2) "clusters" 7 () ()).1 =
      (optimize constGen ((⟨[(0 : ℚ)]⟩ : PrecomputedDistances ℚ).provider Unit)
        (fun _ => (0, (0 : ℚ))) 1 [10, 20] (KParam.int 2) "clusters" 7 () ()).1 ∧
    optimize constGen ((⟨[(0 : ℚ)]⟩ : PrecomputedDistances ℚ).provider Unit)
        (fun _ => (0, (0 : ℚ))) 1 [10, 20] (KParam.int 2) "clusters" 7
        (optimize constGen ((⟨[(0 : ℚ)]⟩ : PrecomputedDistances ℚ).provider Unit)
          (fun _ => (0, (0 : ℚ))) 1 [10, 20] (KParam.int 2) "clusters" 7 () ()).2.1 () =
      ((optimize constGen ((⟨[(0 : ℚ)]⟩ : PrecomputedDistances ℚ).provider Unit)
          (fun _ => (0, (0 : ℚ))) 1 [10, 20] (KParam.int 2) "clusters" 7 () ()).1,
        (optimize constGen ((⟨[(0 : ℚ)]⟩ : PrecomputedDistances ℚ).provider Unit)
          (fun _ => (0, (0 : ℚ))) 1 [10, 20] (KParam.int 2) "clusters" 7 () ()).2.1, ()) ∧
    (∀ pd : PrecomputedDistances ℚ, ReplayLaws (pd.provider Unit) (fun _ _ => True)) ∧
    ReplayLaws (LazyDistances.provider ℚ Unit) LazyDistances.le :=
  C2_optimize_determinism constGen
    ((⟨[(0 : ℚ)]⟩ : PrecomputedDistances ℚ).provider Unit) (fun _ _ => True)
    (precomputed_replay_laws ⟨[(0 : ℚ)]⟩) (fun _ => (0, (0 : ℚ))) 1 [10, 20]
    (KParam.int 2) "clusters" 7 () () ()

end MathicsClusters

namespace MathicsClusters

/-- Inversion for `_next_random_swap`: a drawn candidate changes only the
swap-stream component of the medoid state (lines 366-376 read but never
write `selected`, `clusters` or `cost`). -/
theorem next_random_swap_state {K R : Type} [LinearOrderedField K]
    {gen : RGen R} {P : DistanceProvider K R} {st : MedState K} {s : P.σ} {r : R}
    {ih : ℕ × ℕ} {st1 : MedState K} {s2 : P.σ} {r2 : R}
    (h : run gen P (_next_random_swap st) s r = (some (some (ih, st1)), s2, r2)) :
    ∃ sst2, st1 = { st with swapSt := sst2 } := by
  rw [_next_random_swap, run_monadBind] at h
  rcases hs : run gen P (srNext st.swapSt) s r with ⟨o, sm, rm⟩
  rw [hs] at h
  cases o with
  | none => simp at h
  | some step =>
    dsimp only at h
    rcases step with _ | ⟨idx, sst2⟩
    · simp [run, Pure.pure] at h
    · dsimp only at h
      rcases htd : tupDecode st.k (st.n - st.k) idx with _ | ⟨ni, h0⟩
      · rw [htd] at h
        simp [run] at h
      · rw [htd] at h
        dsimp only at h
        rcases hsel : st.selected[ni.toNat]? with _ | i
        · rw [hsel] at h
          simp [run] at h
        · rw [hsel] at h
          simp only [run, Pure.pure, Prod.mk.injEq, Option.some.injEq] at h
          exact ⟨sst2, h.1.2.symm⟩



/-- C5: in a CLARANS local search step (`_Medoids.swap`, lines 396-482), a
proposed swap is accepted exactly when its computed total cost delta `t`
is strictly negative; on acceptance the running cost changes by exactly
`t` (hence strictly decreases), and on rejection — including exhaustion of
the swap stream — the running cost is unchanged, so the cost never
increases during a local search. -/
theorem C5_swap_accept {K R : Type} [LinearOrderedField K]
    (gen : RGen R) (P : DistanceProvider K R) (tr : List ℕ) (st : MedState K)
    (s : P.σ) (r : R) (acc : Bool) (st2 : MedState K) (s2 : P.σ) (r2 : R)
    (hrun : run gen P (st.swap tr) s r = (some (acc, st2), s2, r2)) :
    (acc = true → st2.cost < st.cost) ∧
    (acc = false → st2.cost = st.cost) ∧
    (∀ (ih : ℕ × ℕ) (st1 : MedState K) (sm : P.σ) (rm : R),
      run gen P (_next_random_swap st) s r = (some (some (ih, st1)), sm, rm) →
      ∀ (t : K) (fast : List (ℕ × ℕ)) (sc : P.σ) (rc : R),
        run gen P (calculateT tr ih.1 ih.2 st1) sm rm = (some (t, fast), sc, rc) →
        (acc = true ↔ t < 0) ∧
        st2.cost = (if t < 0 then st.cost + t else st.cost)) := by
  rw [MedState.swap, run_monadBind] at hrun
  rcases hnx : run gen P (_next_random_swap st) s r with ⟨o, sm0, rm0⟩
  rw [hnx] at hrun
  cases o with
  | none => simp at hrun
  | some nxt =>
    dsimp only at hrun
    rcases nxt with _ | ⟨ih0, st1'⟩
    · -- swap stream exhausted: `return False, no change`
      simp only [run, Pure.pure, Prod.mk.injEq, Option.some.injEq] at hrun
      obtain ⟨⟨hacc, hst⟩, -, -⟩ := hrun
      refine ⟨?_, ?_, ?_⟩
      · intro h; rw [h] at hacc; cases hacc
      · intro h; rw [← hst]
      · intro ih st1 sm rm hdrew
        simp at hdrew
    · -- a candidate was drawn
      dsimp only at hrun
      rw [run_monadBind] at hrun
      rcases hct : run gen P (calculateT tr ih0.1 ih0.2 st1') sm0 rm0 with ⟨oc, sc0, rc0⟩
      rw [hct] at hrun
      cases oc with
      | none => simp at hrun
      | some tf =>
        dsimp only at hrun
        rcases tf with ⟨t0, fast0⟩
        dsimp only at hrun
        obtain ⟨sst2, hst1⟩ := next_random_swap_state hnx
        have hcost1 : st1'.cost = st.cost := by rw [hst1]
        by_cases hlt : t0 < 0
        · rw [if_pos hlt] at hrun
          rw [run_monadBind] at hrun
          rcases hfl : run gen P (fastLoop tr ih0.1
              (List.orderedInsert (fun a b : ℕ => a ≤ b) ih0.2
                (st1'.selected.erase ih0.1)) fast0 st1'.clusters [ih0.1]) sc0 rc0
            with ⟨of, sf, rf⟩
          rw [hfl] at hrun
          cases of with
          | none => simp at hrun
          | some fl =>
            dsimp only at hrun
            rcases fl with ⟨cl1, slow⟩
            dsimp only at hrun
            rw [run_monadBind] at hrun
            rcases huc : run gen P (_update_clusters tr
                (List.orderedInsert (fun a b : ℕ => a ≤ b) ih0.2
                  (st1'.selected.erase ih0.1)) slow cl1) sf rf with ⟨ou, su, ru⟩
            rw [huc] at hrun
            cases ou with
            | none => simp at hrun
            | some u =>
              dsimp only at hrun
              rcases u with ⟨cl2, junk⟩
              dsimp only at hrun
              simp only [run, Pure.pure, Prod.mk.injEq, Option.some.injEq] at hrun
              obtain ⟨⟨hacc, hst⟩, -, -⟩ := hrun
              have hcost2 : st2.cost = st.cost + t0 := by
                rw [← hst]
                dsimp only
                rw [hcost1]
              refine ⟨?_, ?_, ?_⟩
              · intro h
                rw [hcost2]
                exact add_lt_of_neg_right st.cost hlt
              · intro h; rw [h] at hacc; cases hacc
              · intro ih st1 sm rm hdrew t fast sc rc hct'
                simp only [Prod.mk.injEq, Option.some.injEq] at hdrew
                obtain ⟨⟨hih, hst1eq⟩, hsm, hrm⟩ := hdrew
                rw [← hih, ← hst1eq, ← hsm, ← hrm, hct] at hct'
                simp only [Prod.mk.injEq, Option.some.injEq] at hct'
                obtain ⟨⟨ht, -⟩, -, -⟩ := hct'
                rw [← ht]
                refine ⟨⟨fun _ => hlt, fun _ => ?_⟩, ?_⟩
                · rw [← hacc]
                · rw [if_pos hlt, hcost2]
        · rw [if_neg hlt] at hrun
          simp only [run, Pure.pure, Prod.mk.injEq, Option.some.injEq] at hrun
          obtain ⟨⟨hacc, hst⟩, -, -⟩ := hrun
          refine ⟨?_, ?_, ?_⟩
          · intro h; rw [h] at hacc; cases hacc
          · intro h; rw [← hst, hcost1]
          · intro ih st1 sm rm hdrew t fast sc rc hct'
            simp only [Prod.mk.injEq, Option.some.injEq] at hdrew
            obtain ⟨⟨hih, hst1eq⟩, hsm, hrm⟩ := hdrew
            rw [← hih, ← hst1eq, ← hsm, ← hrm, hct] at hct'
            simp only [Prod.mk.injEq, Option.some.injEq] at hct'
            obtain ⟨⟨ht, -⟩, -, -⟩ := hct'
            rw [← ht]
            refine ⟨⟨fun hf => absurd (hacc ▸ hf) (by simp), fun hf => absurd hf hlt⟩, ?_⟩
            rw [if_neg hlt, ← hst, hcost1]



/-- Concrete instantiation of the swap-cost property: a swap step on an
exhausted swap stream (all candidate swaps already tried). -/
theorem C5_swap_accept_witness :
    ((false : Bool) = true →
      (⟨2, 1, [0], [none, none], (0 : ℚ), ⟨0, 1, fun _ => none⟩⟩ : MedState ℚ).cost <
        (⟨2, 1, [0], [none, none], (0 : ℚ), ⟨0, 1, fun _ => none⟩⟩ : MedState ℚ).cost) ∧
    ((false : Bool) = false →
      (⟨2, 1, [0], [none, none], (0 : ℚ), ⟨0, 1, fun _ => none⟩⟩ : MedState ℚ).cost =
        (⟨2, 1, [0], [none, none], (0 : ℚ), ⟨0, 1, fun _ => none⟩⟩ : MedState ℚ).cost) ∧
    (∀ (ih : ℕ × ℕ) (st1 : MedState ℚ) (sm : Unit) (rm : Unit),
      run constGen zeroProvider
          (_next_random_swap
            (⟨2, 1, [0], [none, none], (0 : ℚ), ⟨0, 1, fun _ => none⟩⟩ : MedState ℚ)) () () =
        (some (some (ih, st1)), sm, rm) →
      ∀ (t : ℚ) (fast : List (ℕ × ℕ)) (sc : Unit) (rc : Unit),
        run constGen zeroProvider (calculateT [0, 1] ih.1 ih.2 st1) sm rm =
          (some (t, fast), sc, rc) →
        ((false : Bool) = true ↔ t < 0) ∧
        (⟨2, 1, [0], [none, none], (0 : ℚ), ⟨0, 1, fun _ => none⟩⟩ : MedState ℚ).cost =
          (if t < 0 then
            (⟨2, 1, [0], [none, none], (0 : ℚ), ⟨0, 1, fun _ => none⟩⟩ : MedState ℚ).cost + t
           else
            (⟨2, 1, [0], [none, none], (0 : ℚ), ⟨0, 1, fun _ => none⟩⟩ : MedState ℚ).cost)) :=
  C5_swap_accept constGen zeroProvider [0, 1]
    ⟨2, 1, [0], [none, none], (0 : ℚ), ⟨0, 1, fun _ => none⟩⟩ () () false
    ⟨2, 1, [0], [none, none], (0 : ℚ), ⟨0, 1, fun _ => none⟩⟩ () () rfl

end MathicsClusters

namespace MathicsClusters

variable {K R π : Type}

/-- The contract of `random.sample(pop, m)`: a successful draw is a
duplicate-free selection from the population of the requested size. -/
structure SampleLaw (gen : RGen R) : Prop where
  nodup : ∀ pop m r l r2, gen.sample pop m r = (some l, r2) → pop.Nodup → l.Nodup
  subset : ∀ pop m r l r2, gen.sample pop m r = (some l, r2) → ∀ x ∈ l, x ∈ pop
  length : ∀ pop m r l r2, gen.sample pop m r = (some l, r2) → l.length = m.toNat

theorem constGen_sample_law : SampleLaw constGen := by
  have key : ∀ (pop : List ℕ) (m : ℤ) (r : Unit) (l : List ℕ) (r2 : Unit),
      constGen.sample pop m r = (some l, r2) →
        l = pop.take m.toNat ∧ m.toNat ≤ pop.length := by
    intro pop m r l r2 h
    simp only [constGen] at h
    by_cases hc : 0 ≤ m ∧ m.toNat ≤ pop.length
    · rw [if_pos hc] at h
      simp only [Prod.mk.injEq, Option.some.injEq] at h
      exact ⟨h.1.symm, hc.2⟩
    · rw [if_neg hc] at h
      simp at h
  refine ⟨?_, ?_, ?_⟩ <;> intro pop m r l r2 h
  · intro hpop
    obtain ⟨rfl, -⟩ := key pop m r l r2 h
    exact (List.take_sublist _ _).nodup hpop
  · intro x hx
    obtain ⟨rfl, -⟩ := key pop m r l r2 h
    exact (List.take_sublist _ _).mem hx
  · obtain ⟨rfl, hle⟩ := key pop m r l r2 h
    simp [List.length_take]
    omega

theorem shiftH_nil (h : ℤ) : shiftH [] h = h := rfl

theorem shiftH_cons (j : ℕ) (rest : List ℕ) (h : ℤ) :
    shiftH (j :: rest) h = shiftH rest (if (j : ℤ) ≤ h then h + 1 else h) := rfl

theorem shiftH_lt_all : ∀ (l : List ℕ) (h : ℤ), (∀ x ∈ l, h < (x : ℤ)) → shiftH l h = h
  | [], _, _ => rfl
  | j :: rest, h, hall => by
    rw [shiftH_cons, if_neg (not_le.mpr (hall j (by simp)))]
    exact shiftH_lt_all rest h (fun x hx => hall x (by simp [hx]))

/-- The `for j in selected: if h >= j: h += 1` shift of `_next_random_swap`
maps a rank into the complement of a sorted medoid list. -/
theorem shiftH_spec : ∀ (l : List ℕ), List.Sorted (· < ·) l → ∀ h : ℤ,
    ((shiftH l h) ∉ l.map (fun x : ℕ => (x : ℤ))) ∧ h ≤ shiftH l h ∧
      shiftH l h ≤ h + l.length
  | [], _, h => by simp [shiftH_nil]
  | j :: rest, hs, h => by
    rw [List.sorted_cons] at hs
    by_cases hj : (j : ℤ) ≤ h
    · rw [shiftH_cons, if_pos hj]
      obtain ⟨h1, h2, h3⟩ := shiftH_spec rest hs.2 (h + 1)
      refine ⟨?_, by omega, by simp only [List.length_cons]; push_cast; omega⟩
      simp only [List.map_cons, List.mem_cons, not_or]
      exact ⟨by omega, h1⟩
    · rw [shiftH_cons, if_neg hj]
      have hr : shiftH rest h = h := shiftH_lt_all rest h (fun x hx => by
        have hlt := hs.1 x hx
        omega)
      rw [hr]
      refine ⟨?_, le_refl h, by omega⟩
      simp only [List.map_cons, List.mem_cons, not_or]
      refine ⟨by omega, fun hmem => ?_⟩
      obtain ⟨x, hx, hxe⟩ := List.mem_map.mp hmem
      have hlt := hs.1 x hx
      omega

end MathicsClusters

namespace MathicsClusters

variable {K R π : Type}

/-- Recursive view of the `_unselected` cursor scan: walk the range,
skipping exactly the heads of the pending (sorted) medoid list. -/
def unsScan : List ℕ → List ℕ → List ℕ
  | [], _ => []
  | i :: is, [] => i :: unsScan is []
  | i :: is, z :: zs => if i = z then unsScan is zs else i :: unsScan is (z :: zs)

theorem unsScan_filter : ∀ (len a : ℕ) (zs : List ℕ), List.Sorted (· < ·) zs →
    (∀ x ∈ zs, a ≤ x) →
    unsScan (List.range' a len) zs = (List.range' a len).filter (fun i => decide (i ∉ zs))
  | 0, _, _, _, _ => rfl
  | len + 1, a, [], hs, hb => by
    rw [List.range'_succ]
    show a :: unsScan (List.range' (a + 1) len) [] = _
    rw [unsScan_filter len (a + 1) [] hs (by simp)]
    simp
  | len + 1, a, z :: zs, hs, hb => by
    rw [List.range'_succ]
    rw [List.sorted_cons] at hs
    show unsScan (a :: List.range' (a + 1) len) (z :: zs) = _
    rw [unsScan]
    by_cases haz : a = z
    · rw [if_pos haz]
      rw [unsScan_filter len (a + 1) zs hs.2 (fun x hx => by
        have := hs.1 x hx; omega)]
      have hmem : a ∈ z :: zs := by rw [haz]; exact List.mem_cons_self z zs
      rw [List.filter_cons, if_neg (by simp only [decide_eq_true_eq]; exact not_not_intro hmem)]
      refine List.filter_congr ?_
      intro x hx
      have hxa : a + 1 ≤ x := (List.mem_range'_1.mp hx).1
      simp only [decide_eq_decide, List.mem_cons, not_or]
      constructor
      · intro h2; exact ⟨by omega, h2⟩
      · exact fun h2 => h2.2
    · rw [if_neg haz]
      have hz : a + 1 ≤ z := by have := hb z (List.mem_cons_self z zs); omega
      rw [unsScan_filter len (a + 1) (z :: zs) (List.sorted_cons.mpr hs) (fun x hx => by
        rcases List.mem_cons.mp hx with rfl | hx2
        · omega
        · have := hs.1 x hx2; omega)]
      rw [List.filter_cons, if_pos]
      simp only [decide_eq_true_eq, List.mem_cons, not_or]
      exact ⟨haz, fun ha2 => by have := hs.1 a ha2; omega⟩

end MathicsClusters

namespace MathicsClusters

theorem unsFold_scan (selected : List ℕ) :
    ∀ (is : List ℕ) (acc : List ℕ) (k : ℕ) (z : ℤ) (pending : List ℕ),
    ((∃ hp : pending ≠ [], 1 ≤ k ∧ k ≤ selected.length ∧
        pending = selected.drop (k - 1) ∧ z = (pending.head hp : ℤ)) ∨
      (pending = [] ∧ z = -1)) →
    ((is.foldl (fun (acc : List ℕ × ℕ × ℤ) (i : ℕ) =>
        if ((i : ℕ) : ℤ) = acc.2.2 then
          if h : acc.2.1 < selected.length then
            (acc.1, acc.2.1 + 1, ((selected.get ⟨acc.2.1, h⟩ : ℕ) : ℤ))
          else (acc.1, acc.2.1, -1)
        else (acc.1 ++ [i], acc.2.1, acc.2.2)) (acc, k, z)).1) =
      acc ++ unsScan is pending
  | [], acc, k, z, pending, _ => by simp [unsScan]
  | i :: is, acc, k, z, pending, hinv => by
    rw [List.foldl_cons]
    rcases hinv with ⟨hp, hk1, hkm, hpd, hz⟩ | ⟨hpd, hz⟩
    · rcases pending with _ | ⟨z0, ps⟩
      · exact absurd rfl hp
      · have hhead : (z0 :: ps).head hp = z0 := rfl
        rw [hhead] at hz
        have hlen : k - 1 < selected.length := by
          by_contra hc
          rw [List.drop_eq_nil_of_le (by omega)] at hpd
          exact List.noConfusion hpd
        have hget : selected.get ⟨k - 1, hlen⟩ = z0 := by
          have hh : (selected.drop (k - 1)).head
              (by rw [← hpd]; exact hp) = selected.get ⟨k - 1, hlen⟩ := by
            rw [List.head_eq_getElem]
            simp [List.getElem_drop]
          rw [← hh]
          simp only [← hpd, hhead]
        have hps : ps = selected.drop k := by
          have ht := List.tail_drop selected (k - 1)
          rw [← hpd] at ht
          simp only [List.tail_cons] at ht
          rw [ht]
          congr 1
          omega
        by_cases hiz : i = z0
        · have hcond : ((i : ℕ) : ℤ) = z := by rw [hz, hiz]
          rw [if_pos hcond]
          dsimp only
          rw [show unsScan (i :: is) (z0 :: ps) = unsScan is ps from by
            rw [unsScan, if_pos hiz]]
          by_cases hklt : k < selected.length
          · rw [dif_pos hklt]
            subst hps
            refine unsFold_scan selected is acc (k + 1)
              ((selected.get ⟨k, hklt⟩ : ℕ) : ℤ) (selected.drop k)
              (Or.inl ⟨?_, ?_, ?_, rfl, ?_⟩)
            · simp only [ne_eq, List.drop_eq_nil_iff]
              omega
            · omega
            · omega
            · congr 1
              rw [List.head_eq_getElem]
              simp [List.getElem_drop]
          · rw [dif_neg hklt]
            have hkeq : k = selected.length := by omega
            have hpsnil : ps = [] := by
              rw [hps, hkeq, List.drop_length]
            rw [hpsnil]
            exact unsFold_scan selected is acc k (-1) [] (Or.inr ⟨rfl, rfl⟩)
        · have hcond : ¬ ((i : ℕ) : ℤ) = z := by
            rw [hz]
            exact fun hc => hiz (Nat.cast_injective hc)
          rw [if_neg hcond]
          dsimp only
          rw [show unsScan (i :: is) (z0 :: ps) = i :: unsScan is (z0 :: ps) from by
            rw [unsScan, if_neg hiz]]
          rw [unsFold_scan selected is (acc ++ [i]) k z (z0 :: ps)
            (Or.inl ⟨hp, hk1, hkm, hpd, by rw [hhead]; exact hz⟩)]
          simp
    · have hcond : ¬ ((i : ℕ) : ℤ) = z := by
        rw [hz]
        omega
      rw [if_neg hcond]
      dsimp only
      rw [hpd]
      rw [show unsScan (i :: is) [] = i :: unsScan is [] from rfl]
      rw [unsFold_scan selected is (acc ++ [i]) k z [] (Or.inr ⟨rfl, hz⟩)]
      simp

end MathicsClusters

namespace MathicsClusters

/-- The `_unselected` generator, characterized: for a sorted duplicate-free
medoid list it yields exactly the points that are not medoids, in order. -/
theorem _unselected_eq (selected : List ℕ) (n : ℕ)
    (hs : List.Sorted (· < ·) selected) (hne : selected ≠ []) :
    _unselected selected n =
      some ((List.range n).filter (fun i => decide (i ∉ selected))) := by
  rcases selected with _ | ⟨z0, rest⟩
  · exact absurd rfl hne
  · rw [_unselected]
    simp only [List.getElem?_cons_zero, Option.some_bind, Option.bind_eq_bind,
      Option.some.injEq]
    rw [show ((z0 : ℕ) : ℤ) = (((z0 :: rest).head hne : ℕ) : ℤ) from rfl]
    rw [unsFold_scan (z0 :: rest) (List.range n) [] 1 _ (z0 :: rest)
      (Or.inl ⟨hne, le_refl 1, by simp, rfl, rfl⟩)]
    rw [List.nil_append, List.range_eq_range']
    exact unsScan_filter n 0 (z0 :: rest) hs (fun x _ => Nat.zero_le x)

end MathicsClusters

namespace MathicsClusters

variable {K R π : Type}

/-- A valid nearest-two table entry over a medoid list: two distinct
medoids. -/
def validEntry (sel : List ℕ) (o : Option (Option (ℕ × ℕ))) : Prop :=
  ∃ a b, o = some (some (a, b)) ∧ a ∈ sel ∧ b ∈ sel ∧ a ≠ b

theorem pDistPairs_snd [LinearOrderedField K] {gen : RGen R} {P : DistanceProvider K R}
    {tr : List ℕ} {j : ℕ} :
    ∀ (sel : List ℕ) (s : P.σ) (r : R) (out : List (K × ℕ)) (s2 : P.σ) (r2 : R),
      run gen P (pDistPairs tr j sel) s r = (some out, s2, r2) →
      out.map Prod.snd = sel
  | [], s, r, out, s2, r2, h => by
    simp only [pDistPairs, run, Pure.pure, Prod.mk.injEq, Option.some.injEq] at h
    rw [← h.1]
    rfl
  | i :: rest, s, r, out, s2, r2, h => by
    rw [pDistPairs, run_monadBind] at h
    rcases hd : run gen P (pDistT tr i j) s r with ⟨o, sd, rd⟩
    rw [hd] at h
    cases o with
    | none => simp at h
    | some d =>
      dsimp only at h
      rw [run_monadBind] at h
      rcases hp : run gen P (pDistPairs tr j rest) sd rd with ⟨op, sp, rp⟩
      rw [hp] at h
      cases op with
      | none => simp at h
      | some prest =>
        dsimp only at h
        simp only [run, Pure.pure, Prod.mk.injEq, Option.some.injEq] at h
        rw [← h.1]
        simp only [List.map_cons]
        rw [pDistPairs_snd rest sd rd prest sp rp hp]

theorem _update_clusters_spec [LinearOrderedField K] {gen : RGen R}
    {P : DistanceProvider K R} {tr : List ℕ} {sel : List ℕ} :
    ∀ (a : List ℕ) (cl : List (Option (ℕ × ℕ))) (s : P.σ) (r : R)
      (cl2 : List (Option (ℕ × ℕ))) (ds : List K) (s2 : P.σ) (r2 : R),
      run gen P (_update_clusters tr sel a cl) s r = (some (cl2, ds), s2, r2) →
      cl2.length = cl.length ∧
      (∀ j, j ∉ a → cl2[j]? = cl[j]?) ∧
      (∀ j ∈ a, j < cl.length → validEntry sel cl2[j]?)
  | [], cl, s, r, cl2, ds, s2, r2, h => by
    simp only [_update_clusters, run, Pure.pure, Prod.mk.injEq, Option.some.injEq] at h
    obtain ⟨⟨rfl, -⟩, -, -⟩ := h
    exact ⟨rfl, fun j _ => rfl, fun j hj => absurd hj (List.not_mem_nil j)⟩
  | j :: rest, cl, s, r, cl2, ds, s2, r2, h => by
    rw [_update_clusters, run_monadBind] at h
    rcases hp : run gen P (pDistPairs tr j sel) s r with ⟨op, sp, rp⟩
    rw [hp] at h
    cases op with
    | none => simp at h
    | some pairs =>
      dsimp only at h
      rcases hsort : List.insertionSort (fun x y => lexLeB x y) pairs with _ | ⟨s1, l2⟩
      · rw [hsort] at h
        simp [run] at h
      · rcases l2 with _ | ⟨t2, tail⟩
        · rw [hsort] at h
          simp [run] at h
        · rw [hsort] at h
          dsimp only at h
          by_cases heq : s1.2 = t2.2
          · rw [if_pos heq] at h
            simp [run] at h
          · rw [if_neg heq] at h
            rw [run_monadBind] at h
            rcases hrec : run gen P
                (_update_clusters tr sel rest (cl.set j (some (s1.2, t2.2)))) sp rp
              with ⟨orec, sr, rr⟩
            rw [hrec] at h
            cases orec with
            | none => simp at h
            | some pr =>
              dsimp only at h
              rcases pr with ⟨clr, dsr⟩
              dsimp only at h
              simp only [run, Pure.pure, Prod.mk.injEq, Option.some.injEq] at h
              obtain ⟨⟨hcl, -⟩, -, -⟩ := h
              rw [← hcl]
              obtain ⟨ihlen, ihun, ihval⟩ :=
                _update_clusters_spec rest (cl.set j (some (s1.2, t2.2)))
                  sp rp clr dsr sr rr hrec
              have hs1 : s1.2 ∈ sel := by
                have hm : s1 ∈ pairs := by
                  have : s1 ∈ List.insertionSort (fun x y => lexLeB x y) pairs := by
                    rw [hsort]; exact List.mem_cons_self _ _
                  exact (List.perm_insertionSort _ pairs).mem_iff.mp this
                rw [← pDistPairs_snd sel s r pairs sp rp hp]
                exact List.mem_map_of_mem Prod.snd hm
              have ht2 : t2.2 ∈ sel := by
                have hm : t2 ∈ pairs := by
                  have : t2 ∈ List.insertionSort (fun x y => lexLeB x y) pairs := by
                    rw [hsort]
                    exact List.mem_cons.mpr (Or.inr (List.mem_cons_self _ _))
                  exact (List.perm_insertionSort _ pairs).mem_iff.mp this
                rw [← pDistPairs_snd sel s r pairs sp rp hp]
                exact List.mem_map_of_mem Prod.snd hm
              refine ⟨by rw [ihlen, List.length_set], ?_, ?_⟩
              · intro j2 hj2
                rw [ihun j2 (fun hin => hj2 (List.mem_cons.mpr (Or.inr hin))),
                  List.getElem?_set,
                  if_neg (fun hjj => hj2 (List.mem_cons.mpr (Or.inl hjj.symm)))]
              · intro j2 hj2 hlt
                by_cases hin : j2 ∈ rest
                · exact ihval j2 hin (by rw [List.length_set]; exact hlt)
                · have hjj : j2 = j := by
                    rcases List.mem_cons.mp hj2 with h2 | h2
                    · exact h2
                    · exact absurd h2 hin
                  subst hjj
                  rw [ihun j2 hin, List.getElem?_set, if_pos rfl, if_pos hlt]
                  exact ⟨s1.2, t2.2, rfl, hs1, ht2, heq⟩

end MathicsClusters

namespace MathicsClusters

variable {K R π : Type}

theorem argminDist_mem [LinearOrderedField K] {gen : RGen R} {P : DistanceProvider K R}
    {tr : List ℕ} {j : ℕ} :
    ∀ (l : List ℕ) (md : Option K) (mk : Option ℕ) (s : P.σ) (r : R)
      (res : Option ℕ) (s2 : P.σ) (r2 : R),
      run gen P (argminDist tr j l md mk) s r = (some res, s2, r2) →
      res = mk ∨ ∃ x ∈ l, res = some x
  | [], md, mk, s, r, res, s2, r2, h => by
    simp only [argminDist, run, Pure.pure, Prod.mk.injEq, Option.some.injEq] at h
    exact Or.inl h.1.symm
  | kk :: rest, md, mk, s, r, res, s2, r2, h => by
    rw [argminDist, run_monadBind] at h
    rcases hd : run gen P (pDistT tr kk j) s r with ⟨o, sd, rd⟩
    rw [hd] at h
    cases o with
    | none => simp at h
    | some d =>
      dsimp only at h
      have step : ∀ (md2 : Option K) (mk2 : Option ℕ),
          run gen P (argminDist tr j rest md2 mk2) sd rd = (some res, s2, r2) →
          (mk2 = mk ∨ mk2 = some kk) → res = mk ∨ ∃ x ∈ kk :: rest, res = some x := by
        intro md2 mk2 hrec hmk
        rcases argminDist_mem rest md2 mk2 sd rd res s2 r2 hrec with h1 | ⟨x, hx, hxe⟩
        · rcases hmk with rfl | rfl
          · exact Or.inl h1
          · exact Or.inr ⟨kk, List.mem_cons_self _ _, h1⟩
        · exact Or.inr ⟨x, List.mem_cons.mpr (Or.inr hx), hxe⟩
      cases md with
      | none => exact step (some d) (some kk) h (Or.inr rfl)
      | some m =>
        dsimp only at h
        by_cases hdm : d < m
        · rw [if_pos hdm] at h
          exact step (some d) (some kk) h (Or.inr rfl)
        · rw [if_neg hdm] at h
          exact step (some m) mk h (Or.inl rfl)

theorem calcTLoop_spec [LinearOrderedField K] {gen : RGen R} {P : DistanceProvider K R}
    {tr : List ℕ} {i h : ℕ} {cl : List (Option (ℕ × ℕ))} {sel : List ℕ} :
    ∀ (uns : List ℕ) (s : P.σ) (r : R) (t : K) (fast : List (ℕ × ℕ)) (s2 : P.σ) (r2 : R),
      run gen P (calcTLoop tr i h cl uns) s r = (some (t, fast), s2, r2) →
      (∀ j ∈ uns, j ≠ h → validEntry sel cl[j]?) →
      (∀ jm ∈ fast, jm.1 ∈ uns ∧ jm.1 ≠ h ∧
        (jm.2 = i ∨ (jm.2 ∈ sel ∧ jm.2 ≠ i) ∨ jm.2 = h)) ∧
      (∀ j ∈ uns, j ≠ h → ∃ m, (j, m) ∈ fast)
  | [], s, r, t, fast, s2, r2, hr, hv => by
    simp only [calcTLoop, run, Pure.pure, Prod.mk.injEq, Option.some.injEq] at hr
    obtain ⟨⟨-, rfl⟩, -, -⟩ := hr
    exact ⟨fun jm hjm => absurd hjm (List.not_mem_nil jm),
      fun j hj => absurd hj (List.not_mem_nil j)⟩
  | j :: rest, s, r, t, fast, s2, r2, hr, hv => by
    rw [calcTLoop] at hr
    by_cases hjh : j = h
    · rw [if_pos hjh] at hr
      obtain ⟨h1, h2⟩ := calcTLoop_spec rest s r t fast s2 r2 hr
        (fun j2 hj2 => hv j2 (List.mem_cons.mpr (Or.inr hj2)))
      refine ⟨fun jm hjm => ?_, fun j2 hj2 hne => ?_⟩
      · obtain ⟨ha, hb, hc⟩ := h1 jm hjm
        exact ⟨List.mem_cons.mpr (Or.inr ha), hb, hc⟩
      · rcases List.mem_cons.mp hj2 with rfl | hj3
        · exact absurd hjh hne
        · exact h2 j2 hj3 hne
    · rw [if_neg hjh] at hr
      obtain ⟨a, b, hab, hasel, hbsel, hne⟩ := hv j (List.mem_cons_self _ _) hjh
      rw [hab] at hr
      dsimp only at hr
      rw [run_monadBind] at hr
      rcases hdh : run gen P (pDistT tr j h) s r with ⟨o1, sa, ra⟩
      rw [hdh] at hr
      cases o1 with
      | none => simp at hr
      | some dh =>
        dsimp only at hr
        by_cases hai : a = i
        · rw [if_pos hai] at hr
          rw [run_monadBind] at hr
          rcases hd2 : run gen P (pDistT tr j b) sa ra with ⟨o2, sb, rb⟩
          rw [hd2] at hr
          cases o2 with
          | none => simp at hr
          | some d2 =>
            dsimp only at hr
            by_cases hle : d2 ≤ dh
            · rw [if_pos hle] at hr
              rw [run_monadBind] at hr
              rcases hd3 : run gen P (pDistT tr j i) sb rb with ⟨o3, sc, rc⟩
              rw [hd3] at hr
              cases o3 with
              | none => simp at hr
              | some dji =>
                dsimp only at hr
                rw [run_monadBind] at hr
                rcases hrec : run gen P (calcTLoop tr i h cl rest) sc rc
                  with ⟨orec, sd, rd⟩
                rw [hrec] at hr
                cases orec with
                | none => simp at hr
                | some tf =>
                  dsimp only at hr
                  rcases tf with ⟨trest, frest⟩
                  dsimp only at hr
                  simp only [run, Pure.pure, Prod.mk.injEq, Option.some.injEq] at hr
                  obtain ⟨⟨-, hfast⟩, -, -⟩ := hr
                  rw [← hfast]
                  obtain ⟨h1, h2⟩ := calcTLoop_spec rest sc rc trest frest sd rd hrec
                    (fun j2 hj2 => hv j2 (List.mem_cons.mpr (Or.inr hj2)))
                  refine ⟨fun jm hjm => ?_, fun j2 hj2 hne2 => ?_⟩
                  · rcases List.mem_cons.mp hjm with rfl | hjm2
                    · refine ⟨List.mem_cons_self _ _, hjh, Or.inr (Or.inl ⟨hbsel, ?_⟩)⟩
                      rw [← hai]
                      exact fun hc => hne hc.symm
                    · obtain ⟨ha2, hb2, hc2⟩ := h1 jm hjm2
                      exact ⟨List.mem_cons.mpr (Or.inr ha2), hb2, hc2⟩
                  · rcases List.mem_cons.mp hj2 with rfl | hj3
                    · exact ⟨b, List.mem_cons_self _ _⟩
                    · obtain ⟨m, hm⟩ := h2 j2 hj3 hne2
                      exact ⟨m, List.mem_cons.mpr (Or.inr hm)⟩
            · rw [if_neg hle] at hr
              rw [run_monadBind] at hr
              rcases hd3 : run gen P (pDistT tr j i) sb rb with ⟨o3, sc, rc⟩
              rw [hd3] at hr
              cases o3 with
              | none => simp at hr
              | some dji =>
                dsimp only at hr
                rw [run_monadBind] at hr
                rcases hrec : run gen P (calcTLoop tr i h cl rest) sc rc
                  with ⟨orec, sd, rd⟩
                rw [hrec] at hr
                cases orec with
                | none => simp at hr
                | some tf =>
                  dsimp only at hr
                  rcases tf with ⟨trest, frest⟩
                  dsimp only at hr
                  simp only [run, Pure.pure, Prod.mk.injEq, Option.some.injEq] at hr
                  obtain ⟨⟨-, hfast⟩, -, -⟩ := hr
                  rw [← hfast]
                  obtain ⟨h1, h2⟩ := calcTLoop_spec rest sc rc trest frest sd rd hrec
                    (fun j2 hj2 => hv j2 (List.mem_cons.mpr (Or.inr hj2)))
                  refine ⟨fun jm hjm => ?_, fun j2 hj2 hne2 => ?_⟩
                  · rcases List.mem_cons.mp hjm with rfl | hjm2
                    · exact ⟨List.mem_cons_self _ _, hjh, Or.inr (Or.inr rfl)⟩
                    · obtain ⟨ha2, hb2, hc2⟩ := h1 jm hjm2
                      exact ⟨List.mem_cons.mpr (Or.inr ha2), hb2, hc2⟩
                  · rcases List.mem_cons.mp hj2 with rfl | hj3
                    · exact ⟨h, List.mem_cons_self _ _⟩
                    · obtain ⟨m, hm⟩ := h2 j2 hj3 hne2
                      exact ⟨m, List.mem_cons.mpr (Or.inr hm)⟩
        · rw [if_neg hai] at hr
          rw [run_monadBind] at hr
          rcases hd2 : run gen P (pDistT tr j a) sa ra with ⟨o2, sb, rb⟩
          rw [hd2] at hr
          cases o2 with
          | none => simp at hr
          | some d2 =>
            dsimp only at hr
            by_cases hle : d2 ≤ dh
            · rw [if_pos hle] at hr
              rw [run_monadBind] at hr
              rcases hrec : run gen P (calcTLoop tr i h cl rest) sb rb
                with ⟨orec, sd, rd⟩
              rw [hrec] at hr
              cases orec with
              | none => simp at hr
              | some tf =>
                dsimp only at hr
                rcases tf with ⟨trest, frest⟩
                dsimp only at hr
                simp only [run, Pure.pure, Prod.mk.injEq, Option.some.injEq] at hr
                obtain ⟨⟨-, hfast⟩, -, -⟩ := hr
                rw [← hfast]
                obtain ⟨h1, h2⟩ := calcTLoop_spec rest sb rb trest frest sd rd hrec
                  (fun j2 hj2 => hv j2 (List.mem_cons.mpr (Or.inr hj2)))
                refine ⟨fun jm hjm => ?_, fun j2 hj2 hne2 => ?_⟩
                · rcases List.mem_cons.mp hjm with rfl | hjm2
                  · exact ⟨List.mem_cons_self _ _, hjh, Or.inr (Or.inl ⟨hasel, hai⟩)⟩
                  · obtain ⟨ha2, hb2, hc2⟩ := h1 jm hjm2
                    exact ⟨List.mem_cons.mpr (Or.inr ha2), hb2, hc2⟩
                · rcases List.mem_cons.mp hj2 with rfl | hj3
                  · exact ⟨a, List.mem_cons_self _ _⟩
                  · obtain ⟨m, hm⟩ := h2 j2 hj3 hne2
                    exact ⟨m, List.mem_cons.mpr (Or.inr hm)⟩
            · rw [if_neg hle] at hr
              rw [run_monadBind] at hr
              rcases hrec : run gen P (calcTLoop tr i h cl rest) sb rb
                with ⟨orec, sd, rd⟩
              rw [hrec] at hr
              cases orec with
              | none => simp at hr
              | some tf =>
                dsimp only at hr
                rcases tf with ⟨trest, frest⟩
                dsimp only at hr
                simp only [run, Pure.pure, Prod.mk.injEq, Option.some.injEq] at hr
                obtain ⟨⟨-, hfast⟩, -, -⟩ := hr
                rw [← hfast]
                obtain ⟨h1, h2⟩ := calcTLoop_spec rest sb rb trest frest sd rd hrec
                  (fun j2 hj2 => hv j2 (List.mem_cons.mpr (Or.inr hj2)))
                refine ⟨fun jm hjm => ?_, fun j2 hj2 hne2 => ?_⟩
                · rcases List.mem_cons.mp hjm with rfl | hjm2
                  · exact ⟨List.mem_cons_self _ _, hjh, Or.inr (Or.inr rfl)⟩
                  · obtain ⟨ha2, hb2, hc2⟩ := h1 jm hjm2
                    exact ⟨List.mem_cons.mpr (Or.inr ha2), hb2, hc2⟩
                · rcases List.mem_cons.mp hj2 with rfl | hj3
                  · exact ⟨h, List.mem_cons_self _ _⟩
                  · obtain ⟨m, hm⟩ := h2 j2 hj3 hne2
                    exact ⟨m, List.mem_cons.mpr (Or.inr hm)⟩

end MathicsClusters

namespace MathicsClusters

variable {K R π : Type}

theorem fastLoop_spec [LinearOrderedField K] {gen : RGen R} {P : DistanceProvider K R}
    {tr : List ℕ} {i : ℕ} {sel2 : List ℕ} :
    ∀ (fast : List (ℕ × ℕ)) (cl : List (Option (ℕ × ℕ))) (slow : List ℕ)
      (s : P.σ) (r : R) (cl1 : List (Option (ℕ × ℕ))) (slow1 : List ℕ)
      (s2 : P.σ) (r2 : R),
      run gen P (fastLoop tr i sel2 fast cl slow) s r = (some (cl1, slow1), s2, r2) →
      (∀ jm ∈ fast, jm.1 < cl.length ∧ (jm.2 = i ∨ jm.2 ∈ sel2)) →
      cl1.length = cl.length ∧
      (∀ j : ℕ, cl1[j]? = cl[j]? ∨ validEntry sel2 cl1[j]?) ∧
      (∀ x ∈ slow, x ∈ slow1) ∧
      (∀ jm ∈ fast, jm.1 ∈ slow1 ∨ validEntry sel2 cl1[jm.1]?) ∧
      (∀ x ∈ slow1, x ∈ slow ∨ ∃ jm ∈ fast, x = jm.1)
  | [], cl, slow, s, r, cl1, slow1, s2, r2, h, hf => by
    simp only [fastLoop, run, Pure.pure, Prod.mk.injEq, Option.some.injEq] at h
    obtain ⟨⟨rfl, rfl⟩, -, -⟩ := h
    exact ⟨rfl, fun j => Or.inl rfl, fun x hx => hx,
      fun jm hjm => absurd hjm (List.not_mem_nil jm), fun x hx => Or.inl hx⟩
  | jm :: rest, cl, slow, s, r, cl1, slow1, s2, r2, h, hf => by
    rw [fastLoop] at h
    by_cases hji : jm.2 = i
    · rw [if_pos hji] at h
      obtain ⟨ihlen, ihch, ihslow, ihfast, ihorig⟩ :=
        fastLoop_spec rest cl (slow ++ [jm.1]) s r cl1 slow1 s2 r2 h
          (fun jm2 hjm2 => hf jm2 (List.mem_cons.mpr (Or.inr hjm2)))
      refine ⟨ihlen, ihch, fun x hx => ihslow x (List.mem_append_left _ hx), ?_, ?_⟩
      · intro jm2 hjm2
        rcases List.mem_cons.mp hjm2 with rfl | hjm3
        · exact Or.inl (ihslow jm2.1 (List.mem_append_right _ (List.mem_singleton_self _)))
        · exact ihfast jm2 hjm3
      · intro x hx
        rcases ihorig x hx with h1 | ⟨jm2, hjm2, hx2⟩
        · rcases List.mem_append.mp h1 with h2 | h2
          · exact Or.inl h2
          · exact Or.inr ⟨jm, List.mem_cons_self _ _, by simpa using h2⟩
        · exact Or.inr ⟨jm2, List.mem_cons.mpr (Or.inr hjm2), hx2⟩
    · rw [if_neg hji] at h
      rw [run_monadBind] at h
      rcases hmk : run gen P
          (argminDist tr jm.1 (sel2.filter (fun kk => kk ≠ jm.2)) none none) s r
        with ⟨omk, sm, rm⟩
      rw [hmk] at h
      cases omk with
      | none => simp at h
      | some mk =>
        dsimp only at h
        cases mk with
        | none => simp [run] at h
        | some mk2 =>
          dsimp only at h
          by_cases hjmk : jm.2 = mk2
          · rw [if_pos hjmk] at h
            simp [run] at h
          · rw [if_neg hjmk] at h
            have hmk2 : mk2 ∈ sel2 := by
              rcases argminDist_mem (sel2.filter (fun kk => kk ≠ jm.2)) none none
                  s r (some mk2) sm rm hmk with h1 | ⟨x, hx, hxe⟩
              · exact absurd h1 (by simp)
              · obtain rfl : mk2 = x := by
                  simpa using hxe
                exact (List.mem_filter.mp hx).1
            have hjm1 : jm.1 < cl.length := (hf jm (List.mem_cons_self _ _)).1
            have hjm2sel : jm.2 ∈ sel2 := by
              rcases (hf jm (List.mem_cons_self _ _)).2 with h1 | h1
              · exact absurd h1 hji
              · exact h1
            have hvalid : validEntry sel2 ((cl.set jm.1 (some (jm.2, mk2)))[jm.1]?) := by
              rw [List.getElem?_set, if_pos rfl, if_pos hjm1]
              exact ⟨jm.2, mk2, rfl, hjm2sel, hmk2, hjmk⟩
            obtain ⟨ihlen, ihch, ihslow, ihfast, ihorig⟩ :=
              fastLoop_spec rest (cl.set jm.1 (some (jm.2, mk2))) slow sm rm
                cl1 slow1 s2 r2 h
                (fun jm2 hjm2 => by
                  obtain ⟨h1, h2⟩ := hf jm2 (List.mem_cons.mpr (Or.inr hjm2))
                  exact ⟨by rw [List.length_set]; exact h1, h2⟩)
            refine ⟨by rw [ihlen, List.length_set], ?_, ihslow, ?_, ?_⟩
            · intro j
              rcases ihch j with h1 | h1
              · rw [h1, List.getElem?_set]
                by_cases hjj : jm.1 = j
                · subst hjj
                  rw [if_pos rfl, if_pos hjm1]
                  exact Or.inr ⟨jm.2, mk2, rfl, hjm2sel, hmk2, hjmk⟩
                · rw [if_neg hjj]
                  exact Or.inl rfl
              · exact Or.inr h1
            · intro jm2 hjm2
              rcases List.mem_cons.mp hjm2 with rfl | hjm3
              · rcases ihch jm2.1 with h1 | h1
                · rw [h1]
                  exact Or.inr hvalid
                · exact Or.inr h1
              · exact ihfast jm2 hjm3
            · intro x hx
              rcases ihorig x hx with h1 | ⟨jm2, hjm2, hx2⟩
              · exact Or.inl h1
              · exact Or.inr ⟨jm2, List.mem_cons.mpr (Or.inr hjm2), hx2⟩

end MathicsClusters

namespace MathicsClusters

variable {K R π : Type}

/-- Invariant of a live `_Medoids` state: sorted duplicate-free medoids
inside the point range, `k` of them, and a full-length nearest-two table
whose entry for every non-medoid point names two distinct medoids. -/
structure MedInv {K : Type} (st : MedState K) : Prop where
  sorted : List.Sorted (· < ·) st.selected
  lt_n : ∀ x ∈ st.selected, x < st.n
  len_sel : st.selected.length = st.k
  len_cl : st.clusters.length = st.n
  entry : ∀ j, j < st.n → j ∉ st.selected → validEntry st.selected st.clusters[j]?

theorem next_random_swap_candidate [LinearOrderedField K] {gen : RGen R}
    {P : DistanceProvider K R} {st : MedState K} {s : P.σ} {r : R}
    {ih : ℕ × ℕ} {st1 : MedState K} {s2 : P.σ} {r2 : R}
    (h : run gen P (_next_random_swap st) s r = (some (some (ih, st1)), s2, r2))
    (hsorted : List.Sorted (· < ·) st.selected)
    (hlen : st.selected.length = st.k) :
    ih.1 ∈ st.selected ∧ ih.2 ∉ st.selected ∧ ih.2 < st.n ∧
      ∃ sst2, st1 = { st with swapSt := sst2 } := by
  rw [_next_random_swap, run_monadBind] at h
  rcases hs : run gen P (srNext st.swapSt) s r with ⟨o, sm, rm⟩
  rw [hs] at h
  cases o with
  | none => simp at h
  | some step =>
    dsimp only at h
    rcases step with _ | ⟨idx, sst2⟩
    · simp [run, Pure.pure] at h
    · dsimp only at h
      rcases htd : tupDecode st.k (st.n - st.k) idx with _ | ⟨ni, h0⟩
      · rw [htd] at h
        simp [run] at h
      · rw [htd] at h
        dsimp only at h
        rcases hsel : st.selected[ni.toNat]? with _ | i
        · rw [hsel] at h
          simp [run] at h
        · rw [hsel] at h
          simp only [run, Pure.pure, Prod.mk.injEq, Option.some.injEq] at h
          obtain ⟨⟨hih, hst1⟩, -, -⟩ := h
          have hi_mem : i ∈ st.selected := by
            rw [List.getElem?_eq_some_iff] at hsel
            obtain ⟨hlt2, rfl⟩ := hsel
            exact List.getElem_mem hlt2
          rw [tupDecode] at htd
          by_cases hz : st.k = 0 ∨ st.n - st.k = 0
          · rw [if_pos hz] at htd
            exact Option.noConfusion htd
          · rw [if_neg hz] at htd
            push_neg at hz
            simp only [Option.some.injEq, Prod.mk.injEq] at htd
            have hh0 : 0 ≤ h0 ∧ h0 < ((st.n - st.k : ℕ) : ℤ) := by
              rw [← htd.2]
              constructor
              · exact Int.emod_nonneg _ (by exact_mod_cast hz.2)
              · exact Int.emod_lt_of_pos _ (by exact_mod_cast Nat.pos_of_ne_zero hz.2)
            obtain ⟨hsp1, hsp2, hsp3⟩ := shiftH_spec st.selected hsorted h0
            rw [← hih]
            refine ⟨hi_mem, ?_, ?_, sst2, hst1.symm⟩
            · intro hmem
              refine hsp1 ?_
              have hcast : ((shiftH st.selected h0).toNat : ℤ) = shiftH st.selected h0 := by
                omega
              rw [← hcast]
              exact List.mem_map_of_mem _ hmem
            · omega
  
theorem calculateT_fast [LinearOrderedField K] {gen : RGen R} {P : DistanceProvider K R}
    {tr : List ℕ} {i h : ℕ} {st1 : MedState K} {s : P.σ} {r : R}
    {t : K} {fast : List (ℕ × ℕ)} {s2 : P.σ} {r2 : R}
    (hrun : run gen P (calculateT tr i h st1) s r = (some (t, fast), s2, r2)) :
    ∃ uns, _unselected st1.selected st1.n = some uns ∧
      ∃ (sc : P.σ) (rc : R) (sd : P.σ) (rd : R) (t3 : K),
        run gen P (calcTLoop tr i h st1.clusters uns) sc rc =
          (some (t3, fast), sd, rd) := by
  rw [calculateT, run_monadBind] at hrun
  rcases h1 : run gen P (minCandidate tr i h st1.selected) s r with ⟨o1, sa, ra⟩
  rw [h1] at hrun
  cases o1 with
  | none => simp at hrun
  | some t1 =>
    dsimp only at hrun
    rw [run_monadBind] at hrun
    split at hrun
    · rename_i t2 sb rb heq2
      rcases hu : _unselected st1.selected st1.n with _ | uns
      · rw [hu] at hrun
        simp [run] at hrun
      · rw [hu] at hrun
        dsimp only at hrun
        rw [run_monadBind] at hrun
        rcases hcalc : run gen P (calcTLoop tr i h st1.clusters uns) sb rb
          with ⟨oc, sd, rd⟩
        rw [hcalc] at hrun
        cases oc with
        | none => simp at hrun
        | some tf =>
          dsimp only at hrun
          rcases tf with ⟨t3, fast3⟩
          dsimp only at hrun
          simp only [run, Pure.pure, Prod.mk.injEq, Option.some.injEq] at hrun
          obtain ⟨⟨-, hfast⟩, -, -⟩ := hrun
          exact ⟨uns, rfl, sb, rb, sd, rd, t3, by rw [hfast] at hcalc; exact hcalc⟩
    · rename_i heq2
      simp at hrun

end MathicsClusters

namespace MathicsClusters

variable {K R π : Type}

set_option maxHeartbeats 1600000 in
/-- One CLARANS step preserves the medoid invariant, whatever the random
stream and the distance provider do. -/
theorem swap_MedInv [LinearOrderedField K] {gen : RGen R} {P : DistanceProvider K R}
    {tr : List ℕ} {st : MedState K} {s : P.σ} {r : R} {acc : Bool}
    {st2 : MedState K} {s2 : P.σ} {r2 : R}
    (hinv : MedInv st)
    (hrun : run gen P (st.swap tr) s r = (some (acc, st2), s2, r2)) :
    MedInv st2 ∧ st2.n = st.n ∧ st2.k = st.k := by
  rw [MedState.swap, run_monadBind] at hrun
  rcases hnx : run gen P (_next_random_swap st) s r with ⟨o, sm0, rm0⟩
  rw [hnx] at hrun
  cases o with
  | none => simp at hrun
  | some nxt =>
    dsimp only at hrun
    rcases nxt with _ | ⟨ih0, st1'⟩
    · simp only [run, Pure.pure, Prod.mk.injEq, Option.some.injEq] at hrun
      obtain ⟨⟨-, hst⟩, -, -⟩ := hrun
      rw [← hst]
      exact ⟨hinv, rfl, rfl⟩
    · dsimp only at hrun
      obtain ⟨hi_mem, hh_not, hh_lt, sst2, hst1⟩ :=
        next_random_swap_candidate hnx hinv.sorted hinv.len_sel
      have hinv1 : MedInv st1' := by
        rw [hst1]
        exact ⟨hinv.sorted, hinv.lt_n, hinv.len_sel, hinv.len_cl, hinv.entry⟩
      have hsel1 : st1'.selected = st.selected := by rw [hst1]
      have hn1 : st1'.n = st.n := by rw [hst1]
      have hk1 : st1'.k = st.k := by rw [hst1]
      rw [run_monadBind] at hrun
      rcases hct : run gen P (calculateT tr ih0.1 ih0.2 st1') sm0 rm0 with ⟨oc, sc0, rc0⟩
      rw [hct] at hrun
      cases oc with
      | none => simp at hrun
      | some tf =>
        dsimp only at hrun
        rcases tf with ⟨t0, fast0⟩
        dsimp only at hrun
        by_cases hlt : t0 < 0
        · rw [if_pos hlt] at hrun
          obtain ⟨uns, huns, sc, rc, sd0, rd0, t3, hcalc⟩ := calculateT_fast hct
          have hne_sel : st1'.selected ≠ [] := by
            intro hnil
            rw [hnil] at huns
            simp [_unselected] at huns
          have huns_eq : uns = (List.range st1'.n).filter
              (fun j => decide (j ∉ st1'.selected)) := by
            rw [_unselected_eq _ _ hinv1.sorted hne_sel] at huns
            exact (Option.some_inj.mp huns).symm
          have huns_mem : ∀ j, j ∈ uns ↔ (j < st1'.n ∧ j ∉ st1'.selected) := by
            intro j
            rw [huns_eq, List.mem_filter, List.mem_range]
            simp
          obtain ⟨hfast_all, hfast_cover⟩ := calcTLoop_spec uns sc rc t3 fast0 sd0 rd0 hcalc
            (fun j hj hne => hinv1.entry j ((huns_mem j).mp hj).1 ((huns_mem j).mp hj).2)
          have hperm2 : (List.orderedInsert (fun a b : ℕ => a ≤ b) ih0.2
              (st1'.selected.erase ih0.1)).Perm (ih0.2 :: st1'.selected.erase ih0.1) :=
            List.perm_orderedInsert _ _ _
          have hmem2 : ∀ x, x ∈ List.orderedInsert (fun a b : ℕ => a ≤ b) ih0.2
              (st1'.selected.erase ih0.1) ↔
                (x = ih0.2 ∨ x ∈ st1'.selected.erase ih0.1) := by
            intro x
            rw [hperm2.mem_iff, List.mem_cons]
          have hh_notmem : ih0.2 ∉ st1'.selected.erase ih0.1 := by
            intro hc
            rw [hsel1] at hc
            exact hh_not (List.mem_of_mem_erase hc)
          have hsorted2 : List.Sorted (· < ·)
              (List.orderedInsert (fun a b : ℕ => a ≤ b) ih0.2
                (st1'.selected.erase ih0.1)) := by
            refine List.Sorted.lt_of_le ?_ ?_
            · exact List.Sorted.orderedInsert _ _
                (List.Sorted.le_of_lt (hinv1.sorted.sublist (List.erase_sublist _ _)))
            · rw [hperm2.nodup_iff]
              exact List.nodup_cons.mpr ⟨hh_notmem, hinv1.sorted.nodup.erase _⟩
          rw [run_monadBind] at hrun
          rcases hfl : run gen P (fastLoop tr ih0.1
              (List.orderedInsert (fun a b : ℕ => a ≤ b) ih0.2
                (st1'.selected.erase ih0.1)) fast0 st1'.clusters [ih0.1]) sc0 rc0
            with ⟨of, sf, rf⟩
          rw [hfl] at hrun
          cases of with
          | none => simp at hrun
          | some fl =>
            dsimp only at hrun
            rcases fl with ⟨cl1, slow⟩
            dsimp only at hrun
            have hfa : ∀ jm ∈ fast0, jm.1 < st1'.clusters.length ∧
                (jm.2 = ih0.1 ∨ jm.2 ∈ List.orderedInsert (fun a b : ℕ => a ≤ b) ih0.2
                  (st1'.selected.erase ih0.1)) := by
              intro jm hjm
              obtain ⟨hm1, hm2, hm3⟩ := hfast_all jm hjm
              refine ⟨by rw [hinv1.len_cl]; exact ((huns_mem jm.1).mp hm1).1, ?_⟩
              rcases hm3 with h3 | ⟨h3, h4⟩ | h3
              · exact Or.inl h3
              · exact Or.inr ((hmem2 _).mpr (Or.inr ((List.mem_erase_of_ne h4).mpr h3)))
              · exact Or.inr ((hmem2 _).mpr (Or.inl h3))
            obtain ⟨fllen, flch, flslow, flfast, florig⟩ := fastLoop_spec fast0
              st1'.clusters [ih0.1] sc0 rc0 cl1 slow sf rf hfl hfa
            rw [run_monadBind] at hrun
            rcases huc : run gen P (_update_clusters tr
                (List.orderedInsert (fun a b : ℕ => a ≤ b) ih0.2
                  (st1'.selected.erase ih0.1)) slow cl1) sf rf with ⟨ou, su, ru⟩
            rw [huc] at hrun
            cases ou with
            | none => simp at hrun
            | some u =>
              dsimp only at hrun
              rcases u with ⟨cl2, dsu⟩
              dsimp only at hrun
              simp only [run, Pure.pure, Prod.mk.injEq, Option.some.injEq] at hrun
              obtain ⟨⟨-, hst2⟩, -, -⟩ := hrun
              obtain ⟨uplen, upun, upval⟩ := _update_clusters_spec slow cl1 sf rf
                cl2 dsu su ru huc
              have hslow_lt : ∀ x ∈ slow, x < cl1.length := by
                intro x hx
                rcases florig x hx with h1 | ⟨jm, hjm, hxeq⟩
                · have hx1 : x = ih0.1 := by simpa using h1
                  rw [hx1, fllen, hinv1.len_cl, hn1]
                  exact hinv.lt_n ih0.1 hi_mem
                · rw [hxeq, fllen, hinv1.len_cl]
                  exact ((huns_mem jm.1).mp (hfast_all jm hjm).1).1
              have hi_slow : ih0.1 ∈ slow := flslow ih0.1 (List.mem_singleton_self _)
              rw [← hst2]
              refine ⟨⟨hsorted2, ?_, ?_, ?_, ?_⟩, hn1, hk1⟩
              · intro x hx
                rcases (hmem2 x).mp hx with rfl | hx2
                · rw [hn1]; exact hh_lt
                · exact hinv1.lt_n x (List.mem_of_mem_erase hx2)
              · show (List.orderedInsert (fun a b : ℕ => a ≤ b) ih0.2
                    (st1'.selected.erase ih0.1)).length = st1'.k
                rw [hperm2.length_eq, List.length_cons,
                  List.length_erase_of_mem (hsel1 ▸ hi_mem)]
                have hpos : 1 ≤ st1'.selected.length :=
                  List.length_pos.mpr hne_sel
                rw [hinv1.len_sel] at hpos ⊢
                omega
              · rw [uplen, fllen]
                exact hinv1.len_cl
              · intro j hjn hjsel2
                by_cases hjs : j ∈ slow
                · exact upval j hjs (hslow_lt j hjs)
                · rw [upun j hjs]
                  have hji : j ≠ ih0.1 := fun hc => hjs (hc ▸ hi_slow)
                  have hjh : j ≠ ih0.2 := fun hc =>
                    hjsel2 ((hmem2 j).mpr (Or.inl hc))
                  have hjsel : j ∉ st1'.selected := fun hc =>
                    hjsel2 ((hmem2 j).mpr (Or.inr ((List.mem_erase_of_ne hji).mpr hc)))
                  have hjuns : j ∈ uns := (huns_mem j).mpr ⟨hjn, hjsel⟩
                  obtain ⟨m, hm⟩ := hfast_cover j hjuns hjh
                  rcases flfast (j, m) hm with h1 | h1
                  · exact absurd h1 hjs
                  · exact h1
        · rw [if_neg hlt] at hrun
          simp only [run, Pure.pure, Prod.mk.injEq, Option.some.injEq] at hrun
          obtain ⟨⟨-, hst⟩, -, -⟩ := hrun
          rw [← hst]
          exact ⟨hinv1, hn1, hk1⟩

end MathicsClusters

namespace MathicsClusters

variable {K R π : Type}

theorem pSample_spec {gen : RGen R} {P : DistanceProvider K R}
    (SL : SampleLaw gen) {p : List ℕ} {m : ℤ} {s : P.σ} {r : R}
    {l : List ℕ} {s2 : P.σ} {r2 : R}
    (h : run gen P (pSample (K := K) p m) s r = (some l, s2, r2)) :
    (p.Nodup → l.Nodup) ∧ (∀ x ∈ l, x ∈ p) ∧ l.length = m.toNat := by
  rw [pSample] at h
  simp only [run] at h
  rcases hg : gen.sample p m r with ⟨og, rg⟩
  rw [hg] at h
  cases og with
  | none => simp at h
  | some l0 =>
    simp only [run, Prod.mk.injEq, Option.some.injEq] at h
    obtain ⟨rfl, -, -⟩ := h
    exact ⟨fun hp => SL.nodup p m r l0 rg hg hp, SL.subset p m r l0 rg hg,
      SL.length p m r l0 rg hg⟩

theorem agorasSamples_spec {gen : RGen R} {P : DistanceProvider K R}
    (SL : SampleLaw gen) :
    ∀ (m : ℕ) (p : List ℕ) (rInt : ℤ) (s : P.σ) (r : R) (out : List (List ℕ))
      (s2 : P.σ) (r2 : R),
      run gen P (agorasSamples (K := K) p rInt m) s r = (some out, s2, r2) →
      ∀ l ∈ out, (p.Nodup → l.Nodup) ∧ (∀ x ∈ l, x ∈ p)
  | 0, p, rInt, s, r, out, s2, r2, h => by
    simp only [agorasSamples, run, Pure.pure, Prod.mk.injEq, Option.some.injEq] at h
    obtain ⟨rfl, -, -⟩ := h
    exact fun l hl => absurd hl (List.not_mem_nil l)
  | m + 1, p, rInt, s, r, out, s2, r2, h => by
    rw [agorasSamples, run_monadBind] at h
    rcases hg : run gen P (pSample (K := K) p rInt) s r with ⟨og, sg, rg⟩
    rw [hg] at h
    cases og with
    | none => simp at h
    | some l0 =>
      dsimp only at h
      rw [run_monadBind] at h
      rcases hrec : run gen P (agorasSamples (K := K) p rInt m) sg rg
        with ⟨orec, sr, rr⟩
      rw [hrec] at h
      cases orec with
      | none => simp at h
      | some rest =>
        dsimp only at h
        simp only [run, Pure.pure, Prod.mk.injEq, Option.some.injEq] at h
        obtain ⟨rfl, -, -⟩ := h
        intro l hl
        rcases List.mem_cons.mp hl with rfl | hl2
        · obtain ⟨h1, h2, -⟩ := pSample_spec SL hg
          exact ⟨h1, h2⟩
        · exact agorasSamples_spec SL m p rInt sg rg rest sr rr hrec l hl2

theorem unmappedGo_length [LinearOrderedField K] {gen : RGen R}
    {P : DistanceProvider K R} {tr : List ℕ} {v : List ℕ} :
    ∀ (u : List ℕ) (mp : List Bool) (s : P.σ) (r : R) (mp2 : List Bool)
      (s2 : P.σ) (r2 : R),
      run gen P (unmappedGo tr v u mp) s r = (some mp2, s2, r2) →
      mp2.length = mp.length
  | [], mp, s, r, mp2, s2, r2, h => by
    simp only [unmappedGo, run, Pure.pure, Prod.mk.injEq, Option.some.injEq] at h
    rw [← h.1]
  | uu :: rest, mp, s, r, mp2, s2, r2, h => by
    rw [unmappedGo, run_monadBind] at h
    rcases ha : run gen P (unmappedArg tr uu v.enum none none) s r with ⟨oa, sa, ra⟩
    rw [ha] at h
    cases oa with
    | none => simp at h
    | some mi =>
      dsimp only at h
      cases mi with
      | none => simp [run] at h
      | some idx =>
        dsimp only at h
        have := unmappedGo_length rest (mp.set idx true) sa ra mp2 s2 r2 h
        rw [this, List.length_set]

theorem _unmapped_sublist [LinearOrderedField K] {gen : RGen R}
    {P : DistanceProvider K R} {tr : List ℕ} {u v : List ℕ} {s : P.σ} {r : R}
    {out : List ℕ} {s2 : P.σ} {r2 : R}
    (h : run gen P (_unmapped tr u v) s r = (some out, s2, r2)) :
    out.Sublist v := by
  rw [_unmapped, run_monadBind] at h
  rcases hg : run gen P (unmappedGo tr v u (List.replicate v.length false)) s r
    with ⟨og, sg, rg⟩
  rw [hg] at h
  cases og with
  | none => simp at h
  | some mp =>
    dsimp only at h
    simp only [run, Pure.pure, Prod.mk.injEq, Option.some.injEq] at h
    obtain ⟨rfl, -, -⟩ := h
    have hlen : mp.length = v.length := by
      have := unmappedGo_length u (List.replicate v.length false) s r mp sg rg hg
      rw [this, List.length_replicate]
    have h1 : List.Sublist (((mp.zip v).filter (fun x => x.1)).map (fun x => x.2))
        ((mp.zip v).map (fun x => x.2)) :=
      List.Sublist.map _ (List.filter_sublist _)
    have h2 : (mp.zip v).map (fun x => x.2) = v := by
      have := List.map_snd_zip mp v (le_of_eq hlen.symm)
      simpa using this
    rw [h2] at h1
    exact h1

theorem agorasChain_spec [LinearOrderedField K] {gen : RGen R}
    {P : DistanceProvider K R} {tr : List ℕ} {k : ℕ} {p : List ℕ} :
    ∀ (samples : List (List ℕ)) (prev : List ℕ) (i : ℕ) (s : P.σ) (r : R)
      (res : Option ℕ × List ℕ) (s2 : P.σ) (r2 : R),
      run gen P (agorasChain tr k prev samples i) s r = (some res, s2, r2) →
      (prev.Nodup ∧ ∀ x ∈ prev, x ∈ p) →
      (∀ l ∈ samples, l.Nodup ∧ ∀ x ∈ l, x ∈ p) →
      res.2.Nodup ∧ ∀ x ∈ res.2, x ∈ p
  | [], prev, i, s, r, res, s2, r2, h, hprev, hsmp => by
    simp only [agorasChain, run, Pure.pure, Prod.mk.injEq, Option.some.injEq] at h
    rw [← h.1]
    exact hprev
  | nxt :: rest, prev, i, s, r, res, s2, r2, h, hprev, hsmp => by
    rw [agorasChain, run_monadBind] at h
    rcases hu : run gen P (_unmapped tr prev nxt) s r with ⟨ou, su, ru⟩
    rw [hu] at h
    cases ou with
    | none => simp at h
    | some nxt2 =>
      dsimp only at h
      have hnxt2 : nxt2.Nodup ∧ ∀ x ∈ nxt2, x ∈ p := by
        have hsub := _unmapped_sublist hu
        obtain ⟨hnd, hmem⟩ := hsmp nxt (List.mem_cons_self _ _)
        exact ⟨hsub.nodup hnd, fun x hx => hmem x (hsub.mem hx)⟩
      by_cases hlen : nxt2.length < k
      · rw [if_pos hlen] at h
        simp only [run, Pure.pure, Prod.mk.injEq, Option.some.injEq] at h
        rw [← h.1]
        have hmem : (nxt2 :: rest).getLast (by simp) ∈ nxt2 :: rest :=
          List.getLast_mem _
        rcases List.mem_cons.mp hmem with heq | hmem2
        · rw [heq]
          exact hnxt2
        · exact hsmp _ (List.mem_cons.mpr (Or.inr hmem2))
      · rw [if_neg hlen] at h
        exact agorasChain_spec rest nxt2 (i + 1) su ru res s2 r2 h hnxt2
          (fun l hl => hsmp l (List.mem_cons.mpr (Or.inr hl)))

end MathicsClusters

namespace MathicsClusters

variable {K R π : Type}

theorem agorasLoop_spec [LinearOrderedField K] [FloorRing K] {gen : RGen R}
    {P : DistanceProvider K R} (SL : SampleLaw gen) {tr : List ℕ} {n k : ℕ}
    {p : List ℕ} {m : ℕ} (hp : p.Nodup) :
    ∀ (fuel : ℕ) (ar : K) (s : P.σ) (r : R) (sel : List ℕ) (s2 : P.σ) (r2 : R),
      run gen P (agorasLoop tr n k p m fuel ar) s r = (some sel, s2, r2) →
      sel.Nodup ∧ (∀ x ∈ sel, x ∈ p) ∧ sel.length = k
  | 0, ar, s, r, sel, s2, r2, h => by
    simp [agorasLoop, run] at h
  | fuel + 1, ar, s, r, sel, s2, r2, h => by
    rw [agorasLoop, run_monadBind] at h
    rcases hs : run gen P (agorasSamples (K := K) p (min (pyInt ar) (n : ℤ)) m) s r
      with ⟨os, ss, rs⟩
    rw [hs] at h
    cases os with
    | none => simp at h
    | some smp =>
      dsimp only at h
      have hsmp : ∀ l ∈ smp, l.Nodup ∧ ∀ x ∈ l, x ∈ p := by
        intro l hl
        obtain ⟨h1, h2⟩ := agorasSamples_spec SL m p _ s r smp ss rs hs l hl
        exact ⟨h1 hp, h2⟩
      rcases smp with _ | ⟨s0, srest⟩
      · simp [run] at h
      · dsimp only at h
        rw [run_monadBind] at h
        rcases hc : run gen P (agorasChain tr k s0 srest 0) ss rs with ⟨oc, sc, rc⟩
        rw [hc] at h
        cases oc with
        | none => simp at h
        | some res =>
          dsimp only at h
          have hres : res.2.Nodup ∧ ∀ x ∈ res.2, x ∈ p :=
            agorasChain_spec srest s0 0 ss rs res sc rc hc
              (hsmp s0 (List.mem_cons_self _ _))
              (fun l hl => hsmp l (List.mem_cons.mpr (Or.inr hl)))
          by_cases h1 : k < res.2.length
          · rw [if_pos h1] at h
            exact agorasLoop_spec SL hp fuel _ sc rc sel s2 r2 h
          · rw [if_neg h1] at h
            by_cases h2 : res.2.length = k
            · rw [if_pos h2] at h
              simp only [run, Pure.pure, Prod.mk.injEq, Option.some.injEq] at h
              rw [← h.1]
              exact ⟨hres.1, hres.2, h2⟩
            · rw [if_neg h2] at h
              exact agorasLoop_spec SL hp fuel _ sc rc sel s2 r2 h

theorem _agoras_spec [LinearOrderedField K] [FloorRing K] {gen : RGen R}
    {P : DistanceProvider K R} (SL : SampleLaw gen) {tr : List ℕ} {n k am : ℕ}
    {ar : K} {fuel : ℕ} {s : P.σ} {r : R} {sel : List ℕ} {s2 : P.σ} {r2 : R}
    (h : run gen P (_agoras tr n k am ar fuel) s r = (some sel, s2, r2)) :
    sel.Nodup ∧ (∀ x ∈ sel, x < n) ∧ sel.length = k := by
  rw [_agoras] at h
  by_cases hc : (n : K) < ar
  · rw [if_pos hc] at h
    obtain ⟨h1, h2, h3⟩ := pSample_spec SL h
    exact ⟨h1 (List.nodup_range n), fun x hx => List.mem_range.mp (h2 x hx),
      by rw [h3]; simp⟩
  · rw [if_neg hc] at h
    obtain ⟨h1, h2, h3⟩ := agorasLoop_spec SL (List.nodup_range n) fuel ar s r sel s2 r2 h
    exact ⟨h1, fun x hx => List.mem_range.mp (h2 x hx), h3⟩

theorem medInit_MedInv [LinearOrderedField K] [FloorRing K] {gen : RGen R}
    {P : DistanceProvider K R} (SL : SampleLaw gen) {tr : List ℕ}
    {agF : ℕ → ℕ × K} {fuel n k : ℕ} {s : P.σ} {r : R} {st : MedState K}
    {s2 : P.σ} {r2 : R}
    (h : run gen P (medInit tr agF fuel n k) s r = (some st, s2, r2)) :
    MedInv st ∧ st.n = n ∧ st.k = k := by
  rw [medInit, run_monadBind] at h
  rcases ha : run gen P (_agoras tr n k (agF k).1 (agF k).2 fuel) s r with ⟨oa, sa, ra⟩
  rw [ha] at h
  cases oa with
  | none => simp at h
  | some sel0 =>
    dsimp only at h
    obtain ⟨hnd0, hlt0, hlen0⟩ := _agoras_spec SL ha
    have hperm : (List.insertionSort (fun a b : ℕ => a ≤ b) sel0).Perm sel0 :=
      List.perm_insertionSort _ _
    have hsorted : List.Sorted (· < ·) (List.insertionSort (fun a b : ℕ => a ≤ b) sel0) :=
      List.Sorted.lt_of_le (List.sorted_insertionSort _ _) (hperm.nodup_iff.mpr hnd0)
    have hlt : ∀ x ∈ List.insertionSort (fun a b : ℕ => a ≤ b) sel0, x < n :=
      fun x hx => hlt0 x (hperm.mem_iff.mp hx)
    have hlen : (List.insertionSort (fun a b : ℕ => a ≤ b) sel0).length = k := by
      rw [hperm.length_eq, hlen0]
    rcases hu : _unselected (List.insertionSort (fun a b : ℕ => a ≤ b) sel0) n
      with _ | uns
    · rw [hu] at h
      simp [run] at h
    · rw [hu] at h
      dsimp only at h
      have hne : List.insertionSort (fun a b : ℕ => a ≤ b) sel0 ≠ [] := by
        intro hnil
        rw [hnil] at hu
        simp [_unselected] at hu
      have huns_eq : uns = (List.range n).filter
          (fun j => decide (j ∉ List.insertionSort (fun a b : ℕ => a ≤ b) sel0)) := by
        rw [_unselected_eq _ _ hsorted hne] at hu
        exact (Option.some_inj.mp hu).symm
      rw [run_monadBind] at h
      rcases hup : run gen P (_update_clusters tr
          (List.insertionSort (fun a b : ℕ => a ≤ b) sel0) uns
          (List.replicate n none)) sa ra with ⟨ou, su, ru⟩
      rw [hup] at h
      cases ou with
      | none => simp at h
      | some u =>
        dsimp only at h
        rcases u with ⟨cl, ds⟩
        dsimp only at h
        simp only [run, Pure.pure, Prod.mk.injEq, Option.some.injEq] at h
        obtain ⟨hst, -, -⟩ := h
        obtain ⟨uplen, upun, upval⟩ := _update_clusters_spec uns
          (List.replicate n none) sa ra cl ds su ru hup
        rw [← hst]
        refine ⟨⟨hsorted, hlt, hlen, ?_, ?_⟩, rfl, rfl⟩
        · rw [uplen, List.length_replicate]
        · intro j hjn hjsel
          have hjuns : j ∈ uns := by
            rw [huns_eq, List.mem_filter, List.mem_range]
            simp only [decide_eq_true_eq]
            exact ⟨hjn, hjsel⟩
          exact upval j hjuns (by rw [List.length_replicate]; exact hjn)

end MathicsClusters

namespace MathicsClusters

variable {K R π : Type}

theorem option_mapM_eq_map {α β : Type} (g' : α → β) :
    ∀ (l : List α) (g : α → Option β), (∀ x ∈ l, g x = some (g' x)) →
      l.mapM g = some (l.map g')
  | [], g, _ => rfl
  | a :: l, g, h => by
    rw [← List.mapM'_eq_mapM]
    show (g a).bind _ = _
    rw [h a (List.mem_cons_self _ _), Option.some_bind, List.mapM'_eq_mapM,
      option_mapM_eq_map g' l g (fun x hx => h x (List.mem_cons.mpr (Or.inr hx)))]
    rfl

theorem flatMap_perm_of_forall {α β : Type} :
    ∀ (l : List α) (f g : α → List β), (∀ x ∈ l, (f x).Perm (g x)) →
      (l.flatMap f).Perm (l.flatMap g)
  | [], _, _, _ => List.Perm.refl _
  | a :: l, f, g, h => by
    simp only [List.flatMap_cons]
    exact (h a (List.mem_cons_self _ _)).append
      (flatMap_perm_of_forall l f g (fun x hx => h x (List.mem_cons.mpr (Or.inr hx))))

theorem flatMap_congr_of_forall {α β : Type} :
    ∀ (l : List α) (f g : α → List β), (∀ x ∈ l, f x = g x) →
      l.flatMap f = l.flatMap g
  | [], _, _, _ => rfl
  | a :: l, f, g, h => by
    simp only [List.flatMap_cons]
    rw [h a (List.mem_cons_self _ _),
      flatMap_congr_of_forall l f g (fun x hx => h x (List.mem_cons.mpr (Or.inr hx)))]

theorem flatMap_cons_self_perm {α : Type} :
    ∀ (l : List α) (h : α → List α),
      (l.flatMap (fun i => i :: h i)).Perm (l ++ l.flatMap h)
  | [], _ => List.Perm.refl _
  | a :: l, h => by
    simp only [List.flatMap_cons, List.cons_append]
    refine List.Perm.cons a ?_
    refine ((flatMap_cons_self_perm l h).append_left (h a)).trans ?_
    rw [← List.append_assoc, ← List.append_assoc]
    exact (List.perm_append_comm.append_right _)

/-- Grouping the elements of `uns` by a key drawn from a duplicate-free key
list is a permutation of `uns`. -/
theorem partition_perm (f : ℕ → ℕ) :
    ∀ (sel : List ℕ), sel.Nodup → ∀ (uns : List ℕ),
      (∀ j ∈ uns, f j ∈ sel) →
      (sel.flatMap (fun i => uns.filter (fun j => decide (f j = i)))).Perm uns
  | [], _, uns, h => by
    have huns : uns = [] := List.eq_nil_iff_forall_not_mem.mpr
      (fun j hj => absurd (h j hj) (List.not_mem_nil _))
    rw [huns]
    exact List.Perm.refl _
  | i :: rest, hnd, uns, h => by
    rw [List.nodup_cons] at hnd
    simp only [List.flatMap_cons]
    have hstep : rest.flatMap (fun i2 => uns.filter (fun j => decide (f j = i2))) =
        rest.flatMap (fun i2 => (uns.filter (fun j => !decide (f j = i))).filter
          (fun j => decide (f j = i2))) := by
      refine flatMap_congr_of_forall rest _ _ (fun i2 hi2 => ?_)
      rw [List.filter_filter]
      refine (List.filter_congr (fun j _ => ?_)).symm
      by_cases hji : f j = i2
      · have hfi : ¬ f j = i := fun hc => hnd.1 ((hji.symm.trans hc) ▸ hi2)
        have hne : ¬ i2 = i := fun hc => hfi (hji.trans hc)
        simp [hji, hne]
      · simp [hji]
    rw [hstep]
    have hrec := partition_perm f rest hnd.2 (uns.filter (fun j => !decide (f j = i)))
      (fun j hj => by
        obtain ⟨hj1, hj2⟩ := List.mem_filter.mp hj
        rcases List.mem_cons.mp (h j hj1) with hc | hc
        · simp [hc] at hj2
        · exact hc)
    refine (hrec.append_left _).trans ?_
    exact List.filter_append_perm _ uns

theorem selected_append_filter_perm (sel : List ℕ) (n : ℕ) (hnd : sel.Nodup)
    (hlt : ∀ x ∈ sel, x < n) :
    (sel ++ (List.range n).filter (fun j => decide (j ∉ sel))).Perm (List.range n) := by
  have h1 : ((List.range n).filter (fun j => decide (j ∈ sel))).Perm sel := by
    refine (List.perm_ext_iff_of_nodup ((List.nodup_range n).filter _) hnd).mpr ?_
    intro x
    rw [List.mem_filter, List.mem_range]
    simp only [decide_eq_true_eq]
    exact ⟨fun h => h.2, fun h => ⟨hlt x h, h⟩⟩
  have h2 : (List.range n).filter (fun j => decide (j ∉ sel)) =
      (List.range n).filter (fun j => !decide (j ∈ sel)) := by
    refine List.filter_congr (fun j _ => ?_)
    simp
  rw [h2]
  refine List.Perm.trans ?_ (List.filter_append_perm (fun j => decide (j ∈ sel)) (List.range n))
  exact h1.symm.append_right _

end MathicsClusters

namespace MathicsClusters

variable {K R π : Type}

/-- `_Medoids.clusters()` renders a partition: under the medoid invariant a
successful `clusters()` call returns clusters whose members, pooled
together, are exactly the point indices `0..n-1`. -/
theorem clustersOf_partition {K : Type} {st : MedState K} {cs : List _Cluster}
    (hinv : MedInv st) (hcs : st.clustersOf = some cs) :
    ((cs.map _Cluster.members).flatten).Perm (List.range st.n) := by
  rw [MedState.clustersOf] at hcs
  rcases hu : _unselected st.selected st.n with _ | uns
  · rw [hu] at hcs
    exact Option.noConfusion hcs
  · rw [hu] at hcs
    simp only [Option.bind_eq_bind, Option.some_bind] at hcs
    have hne : st.selected ≠ [] := by
      intro hnil
      rw [hnil] at hu
      simp [_unselected] at hu
    have huns_eq : uns = (List.range st.n).filter
        (fun j => decide (j ∉ st.selected)) := by
      rw [_unselected_eq _ _ hinv.sorted hne] at hu
      exact (Option.some_inj.mp hu).symm
    have huns_mem : ∀ j, j ∈ uns ↔ (j < st.n ∧ j ∉ st.selected) := by
      intro j
      rw [huns_eq, List.mem_filter, List.mem_range]
      simp
    -- the per-point nearest pair as a function
    have hentry : ∀ j ∈ uns, (st.clusters[j]?).join =
        some (((st.clusters[j]?).join).getD (0, 0)) ∧
          (((st.clusters[j]?).join).getD (0, 0)).1 ∈ st.selected := by
      intro j hj
      obtain ⟨hj1, hj2⟩ := (huns_mem j).mp hj
      obtain ⟨a, b, hab, ha, -, -⟩ := hinv.entry j hj1 hj2
      rw [hab]
      exact ⟨rfl, ha⟩
    have hinner : uns.mapM (fun j => (st.clusters[j]?).join) =
        some (uns.map (fun j => ((st.clusters[j]?).join).getD (0, 0))) :=
      option_mapM_eq_map _ uns _ (fun j hj => (hentry j hj).1)
    have houter : st.selected.mapM (fun i =>
        (uns.mapM (fun j => (st.clusters[j]?).join)).bind (fun pairs =>
          some (⟨some i, List.orderedInsert (fun a b : ℕ => a ≤ b) i
            (((uns.zip pairs).filter (fun x => x.2.1 = i)).map
              (fun x => x.1))⟩ : _Cluster))) =
        some (st.selected.map (fun i =>
          (⟨some i, List.orderedInsert (fun a b : ℕ => a ≤ b) i
            (((uns.zip (uns.map (fun j => ((st.clusters[j]?).join).getD (0, 0)))).filter
              (fun x => x.2.1 = i)).map (fun x => x.1))⟩ : _Cluster))) := by
      refine option_mapM_eq_map _ st.selected _ (fun i _ => ?_)
      rw [hinner, Option.some_bind]
    rw [houter] at hcs
    obtain rfl : _ = cs := Option.some_inj.mp hcs
    have hexp : List.map _Cluster.members (List.map (fun i =>
        (⟨some i, List.orderedInsert (fun a b : ℕ => a ≤ b) i
          (((uns.zip (uns.map (fun j => ((st.clusters[j]?).join).getD (0, 0)))).filter
            (fun x => x.2.1 = i)).map (fun x => x.1))⟩ : _Cluster)) st.selected) =
        st.selected.map (fun i => List.orderedInsert (fun a b : ℕ => a ≤ b) i
          (((uns.zip (uns.map (fun j => ((st.clusters[j]?).join).getD (0, 0)))).filter
            (fun x => x.2.1 = i)).map (fun x => x.1))) := by
      rw [List.map_map]
      rfl
    rw [hexp, ← List.flatMap_def]
    have hzip : uns.zip (uns.map (fun j => ((st.clusters[j]?).join).getD (0, 0))) =
        uns.map (fun a => (a, ((st.clusters[a]?).join).getD (0, 0))) := by
      have := List.zip_map' id (fun j => ((st.clusters[j]?).join).getD (0, 0)) uns
      simpa using this
    have hmembers : ∀ i : ℕ,
        (((uns.zip (uns.map (fun j => ((st.clusters[j]?).join).getD (0, 0)))).filter
          (fun x => x.2.1 = i)).map (fun x => x.1)) =
        uns.filter (fun j => decide ((((st.clusters[j]?).join).getD (0, 0)).1 = i)) := by
      intro i
      rw [hzip, List.filter_map, List.map_map]
      show List.map (fun a => a) _ = _
      rw [List.map_id']
      rfl
    refine List.Perm.trans (flatMap_perm_of_forall st.selected _
      (fun i => i :: (((uns.zip (uns.map (fun j =>
        ((st.clusters[j]?).join).getD (0, 0)))).filter
          (fun x => x.2.1 = i)).map (fun x => x.1)))
      (fun i _ => List.perm_orderedInsert _ _ _)) ?_
    refine List.Perm.trans (flatMap_cons_self_perm st.selected _) ?_
    have hflat2 : st.selected.flatMap (fun i =>
        (((uns.zip (uns.map (fun j => ((st.clusters[j]?).join).getD (0, 0)))).filter
          (fun x => x.2.1 = i)).map (fun x => x.1))) =
        st.selected.flatMap (fun i =>
          uns.filter (fun j => decide ((((st.clusters[j]?).join).getD (0, 0)).1 = i))) :=
      flatMap_congr_of_forall _ _ _ (fun i _ => hmembers i)
    rw [hflat2]
    refine List.Perm.trans (List.Perm.append_left st.selected
      (partition_perm _ st.selected hinv.sorted.nodup uns
        (fun j hj => (hentry j hj).2))) ?_
    rw [huns_eq]
    exact selected_append_filter_perm st.selected st.n hinv.sorted.nodup hinv.lt_n

end MathicsClusters

namespace MathicsClusters

variable {K R π : Type}

theorem withKLoop_MedInv [LinearOrderedField K] {gen : RGen R}
    {P : DistanceProvider K R} {tr : List ℕ} {maxN : K} :
    ∀ (fuel j : ℕ) (st : MedState K) (s : P.σ) (r : R) (stf : MedState K)
      (s2 : P.σ) (r2 : R),
      run gen P (withKLoop tr maxN fuel j st) s r = (some stf, s2, r2) →
      MedInv st → MedInv stf ∧ stf.n = st.n ∧ stf.k = st.k
  | 0, j, st, s, r, stf, s2, r2, h, hinv => by
    simp [withKLoop, run] at h
  | fuel + 1, j, st, s, r, stf, s2, r2, h, hinv => by
    rw [withKLoop] at h
    by_cases hj : (j : K) ≤ maxN
    · rw [if_pos hj] at h
      rw [run_monadBind] at h
      rcases hsw : run gen P (st.swap tr) s r with ⟨osw, ssw, rsw⟩
      rw [hsw] at h
      cases osw with
      | none => simp at h
      | some accst =>
        dsimp only at h
        rcases accst with ⟨acc, st2⟩
        dsimp only at h
        obtain ⟨hinv2, hn2, hk2⟩ := swap_MedInv hinv hsw
        cases acc with
        | true =>
          rw [if_pos rfl] at h
          obtain ⟨h1, h2, h3⟩ := withKLoop_MedInv fuel 1 st2 ssw rsw stf s2 r2 h hinv2
          exact ⟨h1, by rw [h2, hn2], by rw [h3, hk2]⟩
        | false =>
          rw [if_neg (by simp)] at h
          obtain ⟨h1, h2, h3⟩ := withKLoop_MedInv fuel (j + 1) st2 ssw rsw stf s2 r2 h hinv2
          exact ⟨h1, by rw [h2, hn2], by rw [h3, hk2]⟩
    · rw [if_neg hj] at h
      simp only [run, Pure.pure, Prod.mk.injEq, Option.some.injEq] at h
      obtain ⟨rfl, -, -⟩ := h
      exact ⟨hinv, rfl, rfl⟩

theorem with_k_partition [LinearOrderedField K] [FloorRing K] {gen : RGen R}
    {P : DistanceProvider K R} (SL : SampleLaw gen) {tr : List ℕ}
    {agF : ℕ → ℕ × K} {fuel n k : ℕ} {s : P.σ} {r : R} {cs : List _Cluster}
    {s2 : P.σ} {r2 : R}
    (h : run gen P (with_k tr agF fuel n k) s r = (some cs, s2, r2)) :
    ((cs.map _Cluster.members).flatten).Perm (List.range n) := by
  rw [with_k, run_monadBind] at h
  rcases h1 : run gen P (medInit tr agF fuel n k) s r with ⟨o1, s1, r1⟩
  rw [h1] at h
  cases o1 with
  | none => simp at h
  | some med1 =>
    dsimp only at h
    rw [run_monadBind] at h
    rcases h2 : run gen P (withKLoop tr (maxNeighbours k n) fuel 1 med1) s1 r1
      with ⟨o2, s2', r2'⟩
    rw [h2] at h
    cases o2 with
    | none => simp at h
    | some med1f =>
      dsimp only at h
      rw [run_monadBind] at h
      rcases h3 : run gen P (medInit tr agF fuel n k) s2' r2' with ⟨o3, s3, r3⟩
      rw [h3] at h
      cases o3 with
      | none => simp at h
      | some med2 =>
        dsimp only at h
        rw [run_monadBind] at h
        rcases h4 : run gen P (withKLoop tr (maxNeighbours k n) fuel 1 med2) s3 r3
          with ⟨o4, s4, r4⟩
        rw [h4] at h
        cases o4 with
        | none => simp at h
        | some med2f =>
          dsimp only at h
          obtain ⟨hinv1, hn1, -⟩ := medInit_MedInv SL h1
          obtain ⟨hinv1f, hn1f, -⟩ := withKLoop_MedInv fuel 1 med1 s1 r1 med1f s2' r2' h2 hinv1
          obtain ⟨hinv2, hn2, -⟩ := medInit_MedInv SL h3
          obtain ⟨hinv2f, hn2f, -⟩ := withKLoop_MedInv fuel 1 med2 s3 r3 med2f s4 r4 h4 hinv2
          by_cases hcost : med2f.cost < med1f.cost
          · rw [if_pos hcost] at h
            rcases hco : med2f.clustersOf with _ | cs0
            · rw [hco] at h
              simp [run] at h
            · rw [hco] at h
              simp only [run, Pure.pure, Prod.mk.injEq, Option.some.injEq] at h
              obtain ⟨rfl, -, -⟩ := h
              have := clustersOf_partition hinv2f hco
              rw [hn2f, hn2] at this
              exact this
          · rw [if_neg hcost] at h
            rcases hco : med1f.clustersOf with _ | cs0
            · rw [hco] at h
              simp [run] at h
            · rw [hco] at h
              simp only [run, Pure.pure, Prod.mk.injEq, Option.some.injEq] at h
              obtain ⟨rfl, -, -⟩ := h
              have := clustersOf_partition hinv1f hco
              rw [hn1f, hn1] at this
              exact this

end MathicsClusters

namespace MathicsClusters

variable {K R π : Type}

theorem option_mapM_getElem {tr : List ℕ} :
    ∀ (l : List ℕ) (out : List ℕ),
      l.mapM (fun i => tr[i]?) = some out →
      out = l.map (fun i => tr.getD i 0)
  | [], out, h => by
    simp only [List.mapM_nil, Option.pure_def, Option.some.injEq] at h
    rw [← h]
    rfl
  | a :: l, out, h => by
    rw [← List.mapM'_eq_mapM, List.mapM'] at h
    rcases ha : tr[a]? with _ | b
    · rw [ha] at h
      simp at h
    · rw [ha] at h
      simp only [Option.bind_eq_bind, Option.some_bind] at h
      rcases hrec : List.mapM' (fun i => tr[i]?) l with _ | rest
      · rw [hrec] at h
        simp at h
      · rw [hrec] at h
        simp only [Option.bind_eq_bind, Option.some_bind, Option.pure_def,
          Option.some.injEq] at h
        rw [← h, List.map_cons]
        rw [List.mapM'_eq_mapM] at hrec
        rw [← option_mapM_getElem l rest hrec]
        congr 1
        rw [List.getD_eq_getElem?_getD, ha]
        rfl

theorem translate_members {tr : List ℕ} {c c0 : _Cluster}
    (h : c.translate tr = some c0) :
    c0.members = c.members.map (fun i => tr.getD i 0) := by
  rw [_Cluster.translate] at h
  rcases hm : c.medoid with _ | m
  · rw [hm] at h
    exact Option.noConfusion h
  · rw [hm] at h
    simp only [Option.bind_eq_bind] at h
    rcases hm0 : tr[m]? with _ | m0
    · rw [hm0] at h
      simp at h
    · rw [hm0] at h
      simp only [Option.some_bind] at h
      rcases hmem : c.members.mapM (fun i => tr[i]?) with _ | mem0
      · rw [hmem] at h
        simp at h
      · rw [hmem] at h
        simp only [Option.some_bind, Option.some.injEq] at h
        rw [← h]
        exact option_mapM_getElem c.members mem0 hmem

theorem mapM_translate_members {tr : List ℕ} :
    ∀ (cs cs0 : List _Cluster),
      cs.mapM (fun c => c.translate tr) = some cs0 →
      cs0.map _Cluster.members =
        (cs.map _Cluster.members).map (List.map (fun i => tr.getD i 0))
  | [], cs0, h => by
    simp only [List.mapM_nil, Option.pure_def, Option.some.injEq] at h
    rw [← h]
    rfl
  | c :: cs, cs0, h => by
    rw [← List.mapM'_eq_mapM, List.mapM'] at h
    rcases hc : c.translate tr with _ | c0
    · rw [hc] at h
      simp at h
    · rw [hc] at h
      simp only [Option.bind_eq_bind, Option.some_bind] at h
      rcases hrec : List.mapM' (fun c => c.translate tr) cs with _ | rest
      · rw [hrec] at h
        simp at h
      · rw [hrec] at h
        simp only [Option.bind_eq_bind, Option.some_bind, Option.pure_def,
          Option.some.injEq] at h
        rw [← h]
        simp only [List.map_cons]
        rw [List.mapM'_eq_mapM] at hrec
        rw [mapM_translate_members cs rest hrec, translate_members hc]

theorem range_map_getD (tr : List ℕ) :
    (List.range tr.length).map (fun i => tr.getD i 0) = tr := by
  refine List.ext_getElem (by simp) ?_
  intro i h1 h2
  simp only [List.getElem_map, List.getElem_range]
  rw [List.getD_eq_getElem?_getD, List.getElem?_eq_getElem h2]
  rfl

end MathicsClusters

namespace MathicsClusters

variable {K R π : Type}

theorem flatten_map_map {α β : Type} (f : α → β) :
    ∀ (L : List (List α)), (L.map (List.map f)).flatten = L.flatten.map f
  | [] => rfl
  | l :: L => by
    simp only [List.map_cons, List.flatten_cons, List.map_append]
    rw [flatten_map_map f L]

theorem range_flatMap_members (cs0 : List _Cluster) :
    (List.range cs0.length).flatMap
        (fun i => (((cs0[i]?).map _Cluster.members).getD [])) =
      (cs0.map _Cluster.members).flatten := by
  rw [List.flatMap_def]
  congr 1
  refine List.ext_getElem (by simp) ?_
  intro i h1 h2
  simp only [List.getElem_map, List.getElem_range]
  rw [List.getElem?_eq_getElem (by simpa using h1)]
  rfl

theorem wkSubLoop_flatten [LinearOrderedField K] {gen : RGen R}
    {P : DistanceProvider K R}
    {rec : List ℕ → Option ℕ → List _Cluster → Option K → Prog K (List (List ℕ))}
    {clusters0 : List _Cluster} {siblings : List _Cluster} {newC : Option K}
    (hrec : ∀ (tr2 : List ℕ) (med : Option ℕ) (sib : List _Cluster) (nc : Option K)
      (s : P.σ) (r : R) (out : List (List ℕ)) (s2 : P.σ) (r2 : R),
      run gen P (rec tr2 med sib nc) s r = (some out, s2, r2) → out.flatten.Perm tr2) :
    ∀ (idxs : List ℕ) (s : P.σ) (r : R) (out : List (List ℕ)) (s2 : P.σ) (r2 : R),
      run gen P (wkSubLoop rec clusters0 siblings newC idxs) s r = (some out, s2, r2) →
      out.flatten.Perm (idxs.flatMap
        (fun i => (((clusters0[i]?).map _Cluster.members).getD [])))
  | [], s, r, out, s2, r2, h => by
    simp only [wkSubLoop, run, Pure.pure, Prod.mk.injEq, Option.some.injEq] at h
    obtain ⟨rfl, -, -⟩ := h
    simp
  | i :: rest, s, r, out, s2, r2, h => by
    rw [wkSubLoop] at h
    rcases hc0 : clusters0[i]? with _ | c0
    · rw [hc0] at h
      rcases hd : pyIndex clusters0 (1 - (i : ℤ)) with _ | d <;> rw [hd] at h <;>
        simp [run] at h
    · rw [hc0] at h
      rcases hd : pyIndex clusters0 (1 - (i : ℤ)) with _ | d
      · rw [hd] at h
        simp [run] at h
      · rw [hd] at h
        dsimp only at h
        rw [run_monadBind] at h
        rcases hsub : run gen P (rec c0.members c0.medoid (siblings ++ [d]) newC) s r
          with ⟨osub, ss, rs⟩
        rw [hsub] at h
        cases osub with
        | none => simp at h
        | some sub =>
          dsimp only at h
          rw [run_monadBind] at h
          rcases hrest : run gen P (wkSubLoop rec clusters0 siblings newC rest) ss rs
            with ⟨orest, sr, rr⟩
          rw [hrest] at h
          cases orest with
          | none => simp at h
          | some restr =>
            dsimp only at h
            simp only [run, Pure.pure, Prod.mk.injEq, Option.some.injEq] at h
            obtain ⟨rfl, -, -⟩ := h
            rw [List.flatten_append, List.flatMap_cons]
            refine List.Perm.append ?_
              (wkSubLoop_flatten hrec rest ss rs restr sr rr hrest)
            have hmem : (((clusters0[i]?).map _Cluster.members).getD []) = c0.members := by
              rw [hc0]
              rfl
            rw [hmem]
            exact hrec c0.members c0.medoid (siblings ++ [d]) newC s r sub ss rs hsub

theorem without_k_partition [LinearOrderedField K] [FloorRing K] {gen : RGen R}
    {P : DistanceProvider K R} (SL : SampleLaw gen) {agF : ℕ → ℕ × K} :
    ∀ (fuel : ℕ) (tr : List ℕ) (med : Option ℕ) (sib : List _Cluster)
      (lastC : Option K) (s : P.σ) (r : R) (out : List (List ℕ)) (s2 : P.σ) (r2 : R),
      run gen P (without_k agF fuel tr med sib lastC) s r = (some out, s2, r2) →
      out.flatten.Perm tr
  | 0, tr, med, sib, lastC, s, r, out, s2, r2, h => by
    simp [without_k, run] at h
  | fuel + 1, tr, med, sib, lastC, s, r, out, s2, r2, h => by
    rw [without_k] at h
    dsimp only at h
    by_cases hn2 : tr.length < 2
    · rw [if_pos hn2] at h
      rcases h0 : tr[0]? with _ | x
      · rw [h0] at h
        simp [run] at h
      · rw [h0] at h
        simp only [run, Pure.pure, Prod.mk.injEq, Option.some.injEq] at h
        obtain ⟨rfl, -, -⟩ := h
        rw [List.getElem?_eq_some_iff] at h0
        obtain ⟨hlt, hx⟩ := h0
        have hlen1 : tr.length = 1 := by omega
        obtain ⟨a, rfl⟩ := List.length_eq_one.mp hlen1
        simp only [List.getElem_singleton] at hx
        rw [← hx]
        simp
    · rw [if_neg hn2] at h
      rw [run_monadBind] at h
      rcases hwk : run gen P (with_k tr agF fuel tr.length 2) s r with ⟨owk, sw, rw2⟩
      rw [hwk] at h
      cases owk with
      | none => simp at h
      | some clusters =>
        dsimp only at h
        rcases htr : clusters.mapM (fun c => c.translate tr) with _ | clusters0
        · rw [htr] at h
          simp [run] at h
        · rw [htr] at h
          dsimp only at h
          rw [run_monadBind] at h
          rcases hss : run gen P (shouldSplit lastC sib
              ⟨med, clusters0.flatMap (fun c => c.members)⟩ clusters0) sw rw2
            with ⟨oss, ssp, rsp⟩
          rw [hss] at h
          cases oss with
          | none => simp at h
          | some sn =>
            dsimp only at h
            by_cases hsn : sn.1 = false
            · rw [if_pos hsn] at h
              simp only [run, Pure.pure, Prod.mk.injEq, Option.some.injEq] at h
              obtain ⟨rfl, -, -⟩ := h
              simp
            · rw [if_neg hsn] at h
              have hsub := wkSubLoop_flatten
                (fun tr2 med2 sib2 nc s' r' out' s2' r2' hr =>
                  without_k_partition SL fuel tr2 med2 sib2 nc s' r' out' s2' r2' hr)
                (List.range clusters.length) _ _ out s2 r2 h
              have hmm := mapM_translate_members clusters clusters0 htr
              have hlen0 : clusters0.length = clusters.length := by
                have := congrArg List.length hmm
                simpa using this
              rw [← hlen0, range_flatMap_members] at hsub
              refine hsub.trans ?_
              rw [hmm, flatten_map_map]
              refine List.Perm.trans (List.Perm.map _ (with_k_partition SL hwk)) ?_
              rw [range_map_getD]

end MathicsClusters

namespace MathicsClusters

variable {K R π : Type}

set_option maxHeartbeats 800000 in
/-- Crash-tolerant partition invariant of `optimize` away from the `k == 1`
short-circuit: whenever a call with mode `'clusters'` or `'components'`
returns a result at all, that result renders an index partition of
`0..n-1`. -/
theorem optimize_partition [LinearOrderedField K] [FloorRing K] {gen : RGen R}
    {P : DistanceProvider K R} (SL : SampleLaw gen) (agF : ℕ → ℕ × K) (fuel : ℕ)
    (p : List π) (kp : KParam K) (mode : String) (seed : ℤ) (s : P.σ) (r : R)
    (res : ClusterResult π) (s2 : P.σ) (r2 : R)
    (hk1 : kp.isOne = false)
    (hmode : mode = "clusters" ∨ mode = "components")
    (hrun : optimize gen P agF fuel p kp mode seed s r = (some res, s2, r2)) :
    ∃ idx : List (List ℕ),
      (idx.flatten).Perm (List.range p.length) ∧
      ((mode = "components" ∧
          res = ClusterResult.componentsRes (_components idx p.length) ∧
          (_components idx p.length).length = p.length) ∨
        (mode = "clusters" ∧ ∃ cs,
          idx.mapM (fun c => c.mapM (fun i => p[i]?)) = some cs ∧
          res = ClusterResult.clustersRes cs)) := by
  rw [optimize, hk1] at hrun
  rw [if_neg (by simp)] at hrun
  dsimp only at hrun
  rcases hb : run gen P (optimizeBody agF fuel p kp mode) s (gen.seed seed)
    with ⟨ob, sb0, rb0⟩
  rw [hb] at hrun
  simp only [Prod.mk.injEq] at hrun
  obtain ⟨hob, -, -⟩ := hrun
  -- shared analysis of the mode-dispatch tail over a cluster list that
  -- partitions the range
  have tail : ∀ (clusters : List (List ℕ)) (sx : P.σ) (rx : R),
      (clusters.flatten).Perm (List.range p.length) →
      run gen P
        (if clusters.any (fun c => c.isEmpty) then Prog.fail
         else
          if mode = "clusters" then
            match (List.insertionSort (fun c1 c2 : List ℕ => c1.headD 0 ≤ c2.headD 0)
                clusters).mapM (fun c => c.mapM (fun i => p[i]?)) with
            | none => Prog.fail
            | some cs => Prog.pure (ClusterResult.clustersRes cs)
          else if mode = "components" then
            Prog.pure (ClusterResult.componentsRes (_components
              (List.insertionSort (fun c1 c2 : List ℕ => c1.headD 0 ≤ c2.headD 0)
                clusters) p.length))
          else Prog.fail) sx rx = (some res, sb0, rb0) →
      ∃ idx : List (List ℕ),
        (idx.flatten).Perm (List.range p.length) ∧
        ((mode = "components" ∧
            res = ClusterResult.componentsRes (_components idx p.length) ∧
            (_components idx p.length).length = p.length) ∨
          (mode = "clusters" ∧ ∃ cs,
            idx.mapM (fun c => c.mapM (fun i => p[i]?)) = some cs ∧
            res = ClusterResult.clustersRes cs)) := by
    intro clusters sx rx hflat htail
    by_cases hemp : clusters.any (fun c => c.isEmpty)
    · rw [if_pos hemp] at htail
      simp [run] at htail
    · rw [if_neg hemp] at htail
      have hsortflat : ((List.insertionSort
          (fun c1 c2 : List ℕ => c1.headD 0 ≤ c2.headD 0) clusters).flatten).Perm
            (List.range p.length) :=
        (List.perm_insertionSort _ clusters).flatten.trans hflat
      rcases hmode with hm | hm
      · rw [hm] at htail ⊢
        rw [if_pos rfl] at htail
        rcases hmm : (List.insertionSort (fun c1 c2 : List ℕ => c1.headD 0 ≤ c2.headD 0)
            clusters).mapM (fun c => c.mapM (fun i => p[i]?)) with _ | cs2
        · rw [hmm] at htail
          simp [run] at htail
        · rw [hmm] at htail
          simp only [run, Prod.mk.injEq, Option.some.injEq] at htail
          obtain ⟨hres, -, -⟩ := htail
          exact ⟨List.insertionSort (fun c1 c2 : List ℕ => c1.headD 0 ≤ c2.headD 0)
            clusters, hsortflat, Or.inr ⟨rfl, cs2, hmm, hres.symm⟩⟩
      · rw [hm] at htail ⊢
        rw [if_neg (by decide), if_pos rfl] at htail
        simp only [run, Prod.mk.injEq, Option.some.injEq] at htail
        obtain ⟨hres, -, -⟩ := htail
        exact ⟨List.insertionSort (fun c1 c2 : List ℕ => c1.headD 0 ≤ c2.headD 0)
          clusters, hsortflat, Or.inl ⟨rfl, hres.symm, _components_length _ _⟩⟩
  rw [hob] at hb
  unfold optimizeBody at hb
  cases kp with
  | int kz =>
    dsimp only at hb
    by_cases hkz : kz ≤ 0
    · rw [if_pos hkz] at hb
      simp [run] at hb
    · rw [if_neg hkz] at hb
      rw [run_monadBind] at hb
      rcases hwk : run gen P (with_k (List.range p.length) agF fuel p.length kz.toNat)
        s (gen.seed seed) with ⟨owk, sw, rw2⟩
      rw [hwk] at hb
      cases owk with
      | none => simp at hb
      | some cs =>
        dsimp only at hb
        rw [run_monadBind] at hb
        simp only [run] at hb
        refine tail (cs.map _Cluster.members) sw rw2 ?_ hb
        have := with_k_partition SL hwk
        simpa using this
  | criterion last =>
    dsimp only at hb
    rw [run_monadBind] at hb
    rcases hwo : run gen P (without_k agF fuel (List.range p.length) none [] last)
      s (gen.seed seed) with ⟨owo, sw, rw2⟩
    rw [hwo] at hb
    cases owo with
    | none => simp at hb
    | some out =>
      dsimp only at hb
      refine tail out sw rw2 ?_ hb
      have := without_k_partition SL fuel (List.range p.length) none [] last
        s (gen.seed seed) out sw rw2 hwo
      simpa using this

end MathicsClusters

namespace MathicsClusters

/-- Counterexample to the unamended C1 reading for `optimize`:
`optimize([5, 6, 7], 1, distances, mode='components')` does not return a
per-position cluster-id array of length 3; the `k == 1` short-circuit
(line 575-576) returns `[p]`, a clusters-shaped value, whatever the mode. -/
theorem C1_k1_counterexample :
    optimize constGen zeroProvider (fun _ => (0, (0 : ℚ))) 1 [5, 6, 7]
        (KParam.int 1) "components" 0 () () =
      (some (ClusterResult.clustersRes [[5, 6, 7]]), (), ()) ∧
    ∀ arr : List ℕ,
      (ClusterResult.clustersRes [[5, 6, 7]] : ClusterResult ℕ) ≠
        ClusterResult.componentsRes arr :=
  ⟨rfl, fun arr h => ClusterResult.noConfusion h⟩

/-- C1 (amended: `optimize` with `k == 1` short-circuits to `[p]` in
clusters shape and is excluded): both engines render index partitions.
Whenever `agglomerate` with mode `'clusters'` or `'components'` returns, and
whenever `optimize` (with a sampling source obeying the `random.sample`
contract, and `k ≠ 1`) returns, the result lists every point index
`0..n-1` in exactly one cluster: in `'clusters'` shape the clusters pull
back to an index partition, and in `'components'` shape the returned array
has length `n` and assigns every position the id of that one cluster. -/
theorem C1_partition {K R π : Type} [LinearOrderedField K] [FloorRing K] :
    (∀ (points : List π) (kk : AggK K) (prov : AggProvider K R) (mode : String)
        (res : ClusterResult π),
      (mode = "clusters" ∨ mode = "components") →
      agglomerate points kk prov mode = some res →
      ∃ idx : List (List ℕ),
        (idx.flatten).Perm (List.range points.length) ∧
        ((mode = "components" ∧
            res = ClusterResult.componentsRes (_components idx points.length) ∧
            (_components idx points.length).length = points.length) ∨
          (mode = "clusters" ∧ ∃ cs,
            idx.mapM (fun c => c.mapM (fun i => points[i]?)) = some cs ∧
            res = ClusterResult.clustersRes cs))) ∧
    (∀ (gen : RGen R) (P : DistanceProvider K R), SampleLaw gen →
      ∀ (agF : ℕ → ℕ × K) (fuel : ℕ) (p : List π) (kp : KParam K) (mode : String)
        (seed : ℤ) (s : P.σ) (r : R) (res : ClusterResult π) (s2 : P.σ) (r2 : R),
      kp.isOne = false →
      (mode = "clusters" ∨ mode = "components") →
      optimize gen P agF fuel p kp mode seed s r = (some res, s2, r2) →
      ∃ idx : List (List ℕ),
        (idx.flatten).Perm (List.range p.length) ∧
        ((mode = "components" ∧
            res = ClusterResult.componentsRes (_components idx p.length) ∧
            (_components idx p.length).length = p.length) ∨
          (mode = "clusters" ∧ ∃ cs,
            idx.mapM (fun c => c.mapM (fun i => p[i]?)) = some cs ∧
            res = ClusterResult.clustersRes cs))) :=
  ⟨fun points kk prov mode res hmode hrun =>
    agglomerate_partition points kk prov mode res hmode hrun,
   fun gen P SL agF fuel p kp mode seed s r res s2 r2 hk1 hmode hrun =>
    optimize_partition SL agF fuel p kp mode seed s r res s2 r2 hk1 hmode hrun⟩

/-- Concrete instantiation of the partition property: `agglomerate` on two
points down to one cluster, and `optimize` in automatic-criterion mode on a
single point, both in `'components'` shape. -/
theorem C1_partition_witness :
    (∃ idx : List (List ℕ),
      (idx.flatten).Perm (List.range ([true, false] : List Bool).length) ∧
      ((("components" : String) = "components" ∧
          (ClusterResult.componentsRes [1, 1] : ClusterResult Bool) =
            ClusterResult.componentsRes
              (_components idx ([true, false] : List Bool).length) ∧
          (_components idx ([true, false] : List Bool).length).length =
            ([true, false] : List Bool).length) ∨
        (("components" : String) = "clusters" ∧ ∃ cs,
          idx.mapM (fun c => c.mapM (fun i => ([true, false] : List Bool)[i]?)) =
            some cs ∧
          (ClusterResult.componentsRes [1, 1] : ClusterResult Bool) =
            ClusterResult.clustersRes cs))) ∧
    (∃ idx : List (List ℕ),
      (idx.flatten).Perm (List.range ([42] : List ℕ).length) ∧
      ((("components" : String) = "components" ∧
          (ClusterResult.componentsRes [1] : ClusterResult ℕ) =
            ClusterResult.componentsRes (_components idx ([42] : List ℕ).length) ∧
          (_components idx ([42] : List ℕ).length).length =
            ([42] : List ℕ).length) ∨
        (("components" : String) = "clusters" ∧ ∃ cs,
          idx.mapM (fun c => c.mapM (fun i => ([42] : List ℕ)[i]?)) = some cs ∧
          (ClusterResult.componentsRes [1] : ClusterResult ℕ) =
            ClusterResult.clustersRes cs))) :=
  ⟨(C1_partition (K := ℚ) (R := Unit) (π := Bool)).1 [true, false] (AggK.fixed 1)
      (AggProvider.pre ⟨[(0 : ℚ)]⟩) "components"
      (ClusterResult.componentsRes [1, 1]) (Or.inr rfl) rfl,
   (C1_partition (K := ℚ) (R := Unit) (π := ℕ)).2 constGen zeroProvider
      constGen_sample_law (fun _ => (0, (0 : ℚ))) 1 [42] (KParam.criterion none)
      "components" 0 () () (ClusterResult.componentsRes [1]) () () rfl
      (Or.inr rfl) rfl⟩

end MathicsClusters
